import Mathlib

/-!
# ChaCha20-Poly1305 AEAD: a shallow embedding of the C++ headers

Embedded sources: `include/chacha20.hpp`, `include/poly1305.hpp`,
`include/chacha20_poly1305.hpp`.

Conventions.
* A byte, a `uint32_t` and a `uint64_t` are all `Nat`; every C++ operation that
  can wrap carries its explicit `% 2^w`.
* A buffer is a `List Nat` of bytes.  A pointer that the source tests against
  null is an `Option (List Nat)`; the `length` argument that travels with an
  input pointer is the length of the list.
* `std::memcpy` between integers and bytes is little-endian (the headers use
  x86 SSE/AVX intrinsics, so the host is little-endian).
* A C++ exception is `Except.error`.
-/

namespace ChaChaAEAD

/-! ## Buffers -/

/-- The exception types thrown by the headers. -/
inductive Error where
  | invalidArgument
  deriving DecidableEq, Repr

deriving instance DecidableEq for Except

/-- Bytes `buf[off .. off+n)`, as read through `buf + off`. -/
def readAt (buf : List Nat) (off n : Nat) : List Nat :=
  (buf.drop off).take n

/-- The buffer after storing `bytes` at `buf + off`. -/
def writeAt (buf : List Nat) (off : Nat) (bytes : List Nat) : List Nat :=
  buf.take off ++ bytes ++ buf.drop (off + bytes.length)

/-- Bytewise XOR of two byte runs (as many bytes as both runs have). -/
def xorBytes (a b : List Nat) : List Nat :=
  List.zipWith (fun x y => x ^^^ y) a b

/-- Little-endian value of a run of bytes (`memcpy` into an integer object). -/
def leNat : List Nat → Nat
  | [] => 0
  | b :: bs => b + 256 * leNat bs

/-- The `n` little-endian bytes of `x` (`memcpy` out of an integer object). -/
def leBytes : Nat → Nat → List Nat
  | 0, _ => []
  | n + 1, x => x % 256 :: leBytes n (x / 256)

/-! ## `helper.hpp` -/

/-- `CryptoHelper::_8bitarray_to32bitarray(byteArray, _32bitArray, byteLength)`:
the `byteLength / 4` words, each assembled little-endian from four bytes. -/
def _8bitarray_to32bitarray (byteArray : List Nat) (byteLength : Nat) : List Nat :=
  (List.range (byteLength / 4)).map (fun i =>
    (byteArray.getD (i * 4) 0 ||| (byteArray.getD (i * 4 + 1) 0 <<< 8) % 4294967296
      ||| (byteArray.getD (i * 4 + 2) 0 <<< 16) % 4294967296
      ||| (byteArray.getD (i * 4 + 3) 0 <<< 24) % 4294967296))

/-! ## `chacha20.hpp` -/

/-- Wrapping `uint32_t` addition. -/
def add32 (a b : Nat) : Nat := (a + b) % 4294967296

/-- `std::rotl` on a `uint32_t`. -/
def rotl (x n : Nat) : Nat :=
  ((x <<< n) ||| (x >>> (32 - n))) % 4294967296

/-- `ChaCha20::quarter_round`, on the four referenced words. -/
def quarter_round (a b c d : Nat) : Nat × Nat × Nat × Nat :=
  let a := add32 a b; let d := d ^^^ a; let d := rotl d 16
  let c := add32 c d; let b := b ^^^ c; let b := rotl b 12
  let a := add32 a b; let d := d ^^^ a; let d := rotl d 8
  let c := add32 c d; let b := b ^^^ c; let b := rotl b 7
  (a, b, c, d)

/-- `quarter_round(ws[i], ws[j], ws[k], ws[l])` on the working state. -/
def qr (ws : List Nat) (i j k l : Nat) : List Nat :=
  match quarter_round (ws.getD i 0) (ws.getD j 0) (ws.getD k 0) (ws.getD l 0) with
  | (a, b, c, d) => (((ws.set i a).set j b).set k c).set l d

/-- One iteration of the round loop: four column rounds, four diagonal rounds. -/
def doubleRound (ws : List Nat) : List Nat :=
  let ws := qr ws 0 4 8 12
  let ws := qr ws 1 5 9 13
  let ws := qr ws 2 6 10 14
  let ws := qr ws 3 7 11 15
  let ws := qr ws 0 5 10 15
  let ws := qr ws 1 6 11 12
  let ws := qr ws 2 7 8 13
  qr ws 3 4 9 14

/-- The loop `for (int i = 0; i < 10; ++i)` of `blockFunction`. -/
def rounds : Nat → List Nat → List Nat
  | 0, ws => ws
  | n + 1, ws => rounds n (doubleRound ws)

/-- The cipher object: `uint32_t state[16]`. -/
structure ChaCha20 where
  state : List Nat
  size : state.length = 16
  deriving DecidableEq

/-- The body of `ChaCha20::ChaCha20(key, nonce)` past the null test: constants,
`key[0..8)`, counter `0`, `nonce[0..3)`. -/
def ChaCha20.init (key nonce : List Nat) : ChaCha20 :=
  ⟨[0x61707865, 0x3320646e, 0x79622d32, 0x6b206574]
      ++ (List.range 8).map (fun i => key.getD i 0)
      ++ [0]
      ++ (List.range 3).map (fun i => nonce.getD i 0), by simp⟩

/-- `ChaCha20::ChaCha20(key, nonce)`: throws on a null key or nonce. -/
def ChaCha20.new (key nonce : Option (List Nat)) : Except Error ChaCha20 :=
  match key, nonce with
  | some key, some nonce => Except.ok (ChaCha20.init key nonce)
  | _, _ => Except.error Error.invalidArgument

/-- `ChaCha20::set_counter(uint32_t counter)`. -/
def ChaCha20.set_counter (c : ChaCha20) (counter : Nat) : ChaCha20 :=
  ⟨c.state.set 12 (counter % 4294967296), by simp [c.size]⟩

/-- The 16 output words of `blockFunction`: the rounds, then
`working_state[i] += state[i]`. -/
def blockWords (st : List Nat) : List Nat :=
  let ws := rounds 10 st
  (List.range 16).map (fun i => add32 (ws.getD i 0) (st.getD i 0))

/-- `ChaCha20::blockFunction(output, to_copy)`: the first `to_copy` bytes of the
serialized block, and the cipher with `state[12]++`. -/
def ChaCha20.blockFunction (c : ChaCha20) (to_copy : Nat) : ChaCha20 × List Nat :=
  let bytes := ((blockWords c.state).map (fun w => leBytes 4 w)).flatten.take to_copy
  (⟨c.state.set 12 ((c.state.getD 12 0 + 1) % 4294967296), by simp [c.size]⟩, bytes)

/-- `process256_chunk`: XOR 32 input bytes with 32 keystream bytes into the
output (either as one AVX2 lane or as two SSE lanes). -/
def process256_chunk (input : List Nat) (inOff : Nat) (output : List Nat) (outOff : Nat)
    (keyStream : List Nat) (ksOff : Nat) : List Nat :=
  writeAt output outOff (xorBytes (readAt input inOff 32) (readAt keyStream ksOff 32))

/-- `process128_chunk`: XOR 16 bytes. -/
def process128_chunk (input : List Nat) (inOff : Nat) (output : List Nat) (outOff : Nat)
    (keyStream : List Nat) (ksOff : Nat) : List Nat :=
  writeAt output outOff (xorBytes (readAt input inOff 16) (readAt keyStream ksOff 16))

/-- `process64_chunk`: XOR 8 bytes (through two `uint64_t` objects). -/
def process64_chunk (input : List Nat) (inOff : Nat) (output : List Nat) (outOff : Nat)
    (keyStream : List Nat) (ksOff : Nat) : List Nat :=
  writeAt output outOff (xorBytes (readAt input inOff 8) (readAt keyStream ksOff 8))

/-- `process_manually`: the byte loop over `length` bytes. -/
def process_manually (input : List Nat) (inOff : Nat) (output : List Nat) (outOff : Nat)
    (keyStream : List Nat) (ksOff : Nat) (length : Nat) : List Nat :=
  writeAt output outOff (xorBytes (readAt input inOff length) (readAt keyStream ksOff length))

/-- The loop `while (length - offset >= 64)` of `process`; `fuel` bounds the
number of iterations. Returns the cipher, the output buffer and `offset`. -/
def processLoop : Nat → ChaCha20 → List Nat → List Nat → Nat → ChaCha20 × List Nat × Nat
  | 0, c, _, output, offset => (c, output, offset)
  | fuel + 1, c, input, output, offset =>
    if 64 ≤ input.length - offset then
      match c.blockFunction 64 with
      | (c, keystream) =>
        let output := process256_chunk input offset output offset keystream 0
        let output := process256_chunk input (offset + 32) output (offset + 32) keystream 32
        processLoop fuel c input output (offset + 64)
    else (c, output, offset)

/-- The final partial block of `process` (step 2). -/
def processTail (c : ChaCha20) (input output : List Nat) (offset : Nat) : ChaCha20 × List Nat :=
  if offset < input.length then
    match c.blockFunction 64 with
    | (c, keystream) =>
      let remaining := input.length - offset
      let local_off := 0
      let (output, local_off) :=
        if 32 ≤ remaining - local_off then
          (process256_chunk input (offset + local_off) output (offset + local_off)
            keystream local_off, local_off + 32)
        else (output, local_off)
      let (output, local_off) :=
        if 16 ≤ remaining - local_off then
          (process128_chunk input (offset + local_off) output (offset + local_off)
            keystream local_off, local_off + 16)
        else (output, local_off)
      let (output, local_off) :=
        if 8 ≤ remaining - local_off then
          (process64_chunk input (offset + local_off) output (offset + local_off)
            keystream local_off, local_off + 8)
        else (output, local_off)
      let output :=
        if 0 < remaining - local_off then
          process_manually input (offset + local_off) output (offset + local_off)
            keystream local_off (remaining - local_off)
        else output
      (c, output)
  else (c, output)

/-- `ChaCha20::process(input, output, length)` with `length = input.length`:
throws on a null buffer or zero length; otherwise returns the cipher and the
output buffer after the call. -/
def ChaCha20.process (c : ChaCha20) (input output : Option (List Nat)) :
    Except Error (ChaCha20 × List Nat) :=
  match input, output with
  | some input, some output =>
    if input.length = 0 then Except.error Error.invalidArgument
    else
      match processLoop (input.length / 64) c input output 0 with
      | (c, output, offset) => Except.ok (processTail c input output offset)
  | _, _ => Except.error Error.invalidArgument

/-! ## `poly1305.hpp` -/

/-- The macro `mask26`. -/
def mask26 : Nat := 0x3FFFFFF

/-- Truncation to a `uint64_t`. -/
def u64 (x : Nat) : Nat := x % 18446744073709551616

/-- Wrapping `uint64_t` addition. -/
def add64 (a b : Nat) : Nat := u64 (a + b)

/-- Wrapping `uint64_t` multiplication. -/
def mul64 (a b : Nat) : Nat := u64 (a * b)

/-- Wrapping `uint64_t` left shift. -/
def shl64 (a n : Nat) : Nat := u64 (a <<< n)

/-- An array `uint64_t x[5]` of limbs. -/
structure Limbs where
  l0 : Nat
  l1 : Nat
  l2 : Nat
  l3 : Nat
  l4 : Nat
  deriving DecidableEq, Repr

/-- The statement `limbs[idx] |= v` (no store for an index outside the array). -/
def Limbs.orAt (a : Limbs) (idx v : Nat) : Limbs :=
  match idx with
  | 0 => Limbs.mk (a.l0 ||| v) a.l1 a.l2 a.l3 a.l4
  | 1 => Limbs.mk a.l0 (a.l1 ||| v) a.l2 a.l3 a.l4
  | 2 => Limbs.mk a.l0 a.l1 (a.l2 ||| v) a.l3 a.l4
  | 3 => Limbs.mk a.l0 a.l1 a.l2 (a.l3 ||| v) a.l4
  | 4 => Limbs.mk a.l0 a.l1 a.l2 a.l3 (a.l4 ||| v)
  | _ => a

set_option linter.unusedVariables false in
/-- `Poly1305::bytes_to_limbs(bytes, limbs, is_message_block, l)`; the flag
`is_message_block` is not read by the source. -/
def bytes_to_limbs (bytes : List Nat) (is_message_block : Bool) (l : Nat) : Limbs :=
  let low := u64 (leNat (readAt bytes 0 8))
  let high := u64 (leNat (readAt bytes 8 8))
  let limbs := Limbs.mk
    (low &&& mask26)
    ((low >>> 26) &&& mask26)
    (((low >>> 52) ||| shl64 high 12) &&& mask26)
    ((high >>> 14) &&& mask26)
    (high >>> 40)
  let bit_pos := l * 8
  let limb_idx := bit_pos / 26
  let bit_in_limb := bit_pos % 26
  limbs.orAt limb_idx (shl64 1 bit_in_limb)

/-- One iteration of the loop of `add_limbs`: the new `a[i]` and the carry. -/
def addStep (a b carry : Nat) : Nat × Nat :=
  let x := add64 a (add64 b carry)
  (x &&& mask26, x >>> 26)

/-- `Poly1305::add_limbs(a, b)`: the new contents of `a`. -/
def add_limbs (a b : Limbs) : Limbs :=
  match addStep a.l0 b.l0 0 with
  | (a0, carry) =>
  match addStep a.l1 b.l1 carry with
  | (a1, carry) =>
  match addStep a.l2 b.l2 carry with
  | (a2, carry) =>
  match addStep a.l3 b.l3 carry with
  | (a3, carry) =>
  match addStep a.l4 b.l4 carry with
  | (a4, carry) =>
    let a0 := add64 a0 (mul64 carry 5)
    let carry := a0 >>> 26
    let a0 := a0 &&& mask26
    let a1 := add64 a1 carry
    Limbs.mk a0 a1 a2 a3 a4

/-- `Poly1305::mul_mod_p(r, acc)`: the new contents of `acc`. -/
def mul_mod_p (r acc : Limbs) : Limbs :=
  let a0 := acc.l0; let a1 := acc.l1; let a2 := acc.l2; let a3 := acc.l3; let a4 := acc.l4
  let r0 := r.l0; let r1 := r.l1; let r2 := r.l2; let r3 := r.l3; let r4 := r.l4
  let r1_5 := mul64 r1 5
  let r2_5 := mul64 r2 5
  let r3_5 := mul64 r3 5
  let r4_5 := mul64 r4 5
  let t0 := add64 (add64 (add64 (add64 (mul64 a0 r0) (mul64 a1 r4_5)) (mul64 a2 r3_5))
    (mul64 a3 r2_5)) (mul64 a4 r1_5)
  let t1 := add64 (add64 (add64 (add64 (mul64 a0 r1) (mul64 a1 r0)) (mul64 a2 r4_5))
    (mul64 a3 r3_5)) (mul64 a4 r2_5)
  let t2 := add64 (add64 (add64 (add64 (mul64 a0 r2) (mul64 a1 r1)) (mul64 a2 r0))
    (mul64 a3 r4_5)) (mul64 a4 r3_5)
  let t3 := add64 (add64 (add64 (add64 (mul64 a0 r3) (mul64 a1 r2)) (mul64 a2 r1))
    (mul64 a3 r0)) (mul64 a4 r4_5)
  let t4 := add64 (add64 (add64 (add64 (mul64 a0 r4) (mul64 a1 r3)) (mul64 a2 r2))
    (mul64 a3 r1)) (mul64 a4 r0)
  let c := t0 >>> 26; let acc0 := t0 &&& mask26; let t1 := add64 t1 c
  let c := t1 >>> 26; let acc1 := t1 &&& mask26; let t2 := add64 t2 c
  let c := t2 >>> 26; let acc2 := t2 &&& mask26; let t3 := add64 t3 c
  let c := t3 >>> 26; let acc3 := t3 &&& mask26; let t4 := add64 t4 c
  let c := t4 >>> 26; let acc4 := t4 &&& mask26
  let acc0 := add64 acc0 (mul64 c 5)
  let c := acc0 >>> 26; let acc0 := acc0 &&& mask26; let acc1 := add64 acc1 c
  Limbs.mk acc0 acc1 acc2 acc3 acc4

/-- The MAC object. `s0`, `s1` are `s[0]`, `s[1]`; `partial_buf` is the member
`partial[16]` (a reserved word in Lean). -/
structure Poly1305 where
  r : Limbs
  s0 : Nat
  s1 : Nat
  acc : Limbs
  partial_buf : List Nat
  partial_len : Nat
  deriving DecidableEq, Repr

/-- `Poly1305::process_block(block, is_message_block, block_size)`. -/
def Poly1305.process_block (p : Poly1305) (block : List Nat) (is_message_block : Bool)
    (block_size : Nat) : Poly1305 :=
  let msg_limbs := bytes_to_limbs block is_message_block block_size
  let acc := add_limbs p.acc msg_limbs
  let acc := mul_mod_p p.r acc
  Poly1305.mk p.r p.s0 p.s1 acc p.partial_buf p.partial_len

/-- `Poly1305::Poly1305(block)`: clamp bytes 3, 7, 11, 15 and 4, 8, 12 of the
block, load `r` as five 26-bit limbs and `s` as two 64-bit words, clear the
accumulator. The member `partial` is left indeterminate by the source and is
written before any read; it starts as zero bytes here. -/
def Poly1305.new (block : List Nat) : Poly1305 :=
  let b := fun i => block.getD i 0
  let b3c := b 3 &&& 15
  let b7c := b 7 &&& 15
  let b11c := b 11 &&& 15
  let b15c := b 15 &&& 15
  let b4c := b 4 &&& 252
  let b8c := b 8 &&& 252
  let b12c := b 12 &&& 252
  let b0 := leNat [b 0, b 1, b 2, b3c] % 4294967296
  let b1 := leNat [b4c, b 5, b 6, b7c] % 4294967296
  let b2 := leNat [b8c, b 9, b 10, b11c] % 4294967296
  let b3 := leNat [b12c, b 13, b 14, b15c] % 4294967296
  let b0 := b0 &&& 0x0FFFFFFF
  let b1 := b1 &&& 0x0FFFFFFC
  let b2 := b2 &&& 0x0FFFFFFC
  let b3 := b3 &&& 0x0FFFFFFC
  let r := Limbs.mk
    (b0 &&& mask26)
    (((b0 >>> 26) ||| ((b1 <<< 6) % 4294967296)) &&& mask26)
    (((b1 >>> 20) ||| ((b2 <<< 12) % 4294967296)) &&& mask26)
    (((b2 >>> 14) ||| ((b3 <<< 18) % 4294967296)) &&& mask26)
    ((b3 >>> 8) &&& mask26)
  Poly1305.mk r (u64 (leNat (readAt block 16 8))) (u64 (leNat (readAt block 24 8)))
    (Limbs.mk 0 0 0 0 0) (List.replicate 16 0) 0

/-- The loop `while (offset + 16 <= len)` of `update`; `fuel` bounds the number
of iterations. Returns the MAC and `offset`. -/
def updateLoop : Nat → Poly1305 → List Nat → Nat → Poly1305 × Nat
  | 0, p, _, offset => (p, offset)
  | fuel + 1, p, data, offset =>
    if offset + 16 ≤ data.length then
      updateLoop fuel (p.process_block (readAt data offset 16) true 16) data (offset + 16)
    else (p, offset)

/-- `Poly1305::update(data, len)` with `len = data.length`. -/
def Poly1305.update (p : Poly1305) (data : List Nat) : Poly1305 :=
  let len := data.length
  let offset := 0
  let (p, offset) :=
    if 0 < p.partial_len then
      let take := min len (16 - p.partial_len)
      let buf := writeAt p.partial_buf p.partial_len (readAt data 0 take)
      let p := Poly1305.mk p.r p.s0 p.s1 p.acc buf (p.partial_len + take)
      let offset := offset + take
      if p.partial_len = 16 then
        let p := p.process_block p.partial_buf true 16
        (Poly1305.mk p.r p.s0 p.s1 p.acc p.partial_buf 0, offset)
      else (p, offset)
    else (p, offset)
  match updateLoop (len / 16) p data offset with
  | (p, offset) =>
    if offset < len then
      Poly1305.mk p.r p.s0 p.s1 p.acc
        (writeAt p.partial_buf 0 (readAt data offset (len - offset))) (len - offset)
    else p

/-- `Poly1305::update_pad16(len)`. -/
def Poly1305.update_pad16 (p : Poly1305) (len : Nat) : Poly1305 :=
  let rem := len % 16
  if rem = 0 then p
  else p.process_block (List.replicate 16 0) false 16

/-- One iteration of the carry loop of `final_`: the new `acc[i]` and `c`. -/
def carryStep (a c : Nat) : Nat × Nat :=
  let x := add64 a c
  (x &&& mask26, x >>> 26)

/-- `Poly1305::final_(tag)`: the MAC object after the call and the 16 tag
bytes. -/
def Poly1305.final_ (p : Poly1305) : Poly1305 × List Nat :=
  let p :=
    if 0 < p.partial_len then
      let block := writeAt (List.replicate 16 0) 0 (readAt p.partial_buf 0 p.partial_len)
      p.process_block block true p.partial_len
    else p
  match carryStep p.acc.l0 0 with
  | (acc0, c) =>
  match carryStep p.acc.l1 c with
  | (acc1, c) =>
  match carryStep p.acc.l2 c with
  | (acc2, c) =>
  match carryStep p.acc.l3 c with
  | (acc3, c) =>
  match carryStep p.acc.l4 c with
  | (acc4, _) =>
    let low := acc0 ||| shl64 acc1 26 ||| shl64 acc2 52
    let high := (acc2 >>> 12) ||| shl64 acc3 14 ||| shl64 acc4 40
    let low := add64 low p.s0
    let carry := if low < p.s0 then 1 else 0
    let high := add64 high (add64 p.s1 carry)
    (Poly1305.mk p.r p.s0 p.s1 (Limbs.mk acc0 acc1 acc2 acc3 acc4) p.partial_buf p.partial_len,
      leBytes 8 low ++ leBytes 8 high)

/-! ## `chacha20_poly1305.hpp` -/

/-- `ChaCha20_Poly1305::poly_pad16(p, len)`. -/
def poly_pad16 (p : Poly1305) (len : Nat) : Poly1305 :=
  let rem := len &&& 15
  if rem ≠ 0 then p.update (readAt (List.replicate 16 0) 0 (16 - rem))
  else p

/-- Steps 1 of `encrypt` and `decrypt`: the 64-byte key block produced in place
at counter 0, and the MAC built from it. -/
def polyKeyGen (c : ChaCha20) : Except Error (ChaCha20 × Poly1305) :=
  let key_block := List.replicate 64 0
  let c := c.set_counter 0
  match c.process (some key_block) (some key_block) with
  | Except.error e => Except.error e
  | Except.ok (c, key_block) => Except.ok (c, Poly1305.new key_block)

/-- The trailer of `encrypt` and `decrypt`: the two lengths as `uint64_t`,
absorbed as 8 bytes each, then `final_`. -/
def macLengthsFinal (p : Poly1305) (aad_len ct_len : Nat) : List Nat :=
  let aad_len_le := u64 aad_len
  let ct_len_le := u64 ct_len
  let p := p.update (leBytes 8 aad_len_le)
  let p := p.update (leBytes 8 ct_len_le)
  (p.final_).2

/-- `ChaCha20_Poly1305::encrypt(c, plaintext, plaintext_len, aad, aad_len,
output, tag)` with the lengths those of the lists: the cipher and the output
buffer after the call, and the 16 bytes stored to `tag`. -/
def encrypt (c : ChaCha20) (plaintext aad output : List Nat) :
    Except Error (ChaCha20 × List Nat × List Nat) :=
  match polyKeyGen c with
  | Except.error e => Except.error e
  | Except.ok (c, p) =>
    let p := if aad.length ≠ 0 then poly_pad16 (p.update aad) aad.length else p
    let c := c.set_counter 1
    match c.process (some plaintext) (some output) with
    | Except.error e => Except.error e
    | Except.ok (c, output) =>
      let p :=
        if plaintext.length ≠ 0 then
          poly_pad16 (p.update (readAt output 0 plaintext.length)) plaintext.length
        else p
      Except.ok (c, output, macLengthsFinal p aad.length plaintext.length)

/-- `ChaCha20_Poly1305::constant_time_compare(a, b, len)`. -/
def constant_time_compare (a b : List Nat) (len : Nat) : Bool :=
  (List.range len).foldl (fun diff i => (diff ||| (a.getD i 0 ^^^ b.getD i 0)) % 256) 0 == 0

/-- The tag that `decrypt` computes (steps 1 to 5 up to `final_`), with the
cipher after step 1. -/
def decryptTag (c : ChaCha20) (ciphertext aad : List Nat) :
    Except Error (ChaCha20 × List Nat) :=
  match polyKeyGen c with
  | Except.error e => Except.error e
  | Except.ok (c, p) =>
    let p := if aad.length ≠ 0 then poly_pad16 (p.update aad) aad.length else p
    let p :=
      if ciphertext.length ≠ 0 then
        poly_pad16 (p.update ciphertext) ciphertext.length
      else p
    Except.ok (c, macLengthsFinal p aad.length ciphertext.length)

/-- `ChaCha20_Poly1305::decrypt(c, ciphertext, ciphertext_len, aad, aad_len,
received_tag, output)`: the cipher after the call, the returned verdict and
the output buffer after the call. -/
def decrypt (c : ChaCha20) (ciphertext aad received_tag output : List Nat) :
    Except Error (ChaCha20 × Bool × List Nat) :=
  match decryptTag c ciphertext aad with
  | Except.error e => Except.error e
  | Except.ok (c, calc_tag) =>
    if !constant_time_compare calc_tag received_tag 16 then
      Except.ok (c, false, output)
    else
      let c := c.set_counter 1
      match c.process (some ciphertext) (some output) with
      | Except.error e => Except.error e
      | Except.ok (c, output) => Except.ok (c, true, output)

/-! ## Derived notions used in the statements -/

/-- The 64 keystream bytes produced by the next call of `blockFunction`. -/
def ChaCha20.keyBlock (c : ChaCha20) : List Nat := (c.blockFunction 64).2

/-- The cipher after one call of `blockFunction`. -/
def ChaCha20.next (c : ChaCha20) : ChaCha20 := (c.blockFunction 64).1

/-- The keystream of `n` successive calls of `blockFunction`. -/
def stream : Nat → ChaCha20 → List Nat
  | 0, _ => []
  | n + 1, c => c.keyBlock ++ stream n c.next

/-- The cipher after `n` successive calls of `blockFunction`. -/
def advance : Nat → ChaCha20 → ChaCha20
  | 0, c => c
  | n + 1, c => advance n c.next

/-- The keystream block at counter `k` (as set by `set_counter`). -/
def KS (c : ChaCha20) (k : Nat) : List Nat := (c.set_counter k).keyBlock

/-- The bytes waiting in the partial buffer of the MAC. -/
def Poly1305.pending (p : Poly1305) : List Nat := readAt p.partial_buf 0 p.partial_len

/-- The class invariant of the MAC object: fewer than 16 pending bytes in a
16-byte buffer. -/
def Poly1305.WF (p : Poly1305) : Prop := p.partial_len < 16 ∧ p.partial_buf.length = 16

/-- Two MAC objects with the same key, accumulator and pending bytes (bytes
of the partial buffer beyond `partial_len` are not compared). -/
def Poly1305.same (p q : Poly1305) : Prop :=
  p.r = q.r ∧ p.s0 = q.s0 ∧ p.s1 = q.s1 ∧ p.acc = q.acc ∧
    p.partial_len = q.partial_len ∧ p.pending = q.pending

/-- The accumulator after `process_block` on one full block. -/
def blockStep (r acc : Limbs) (block : List Nat) : Limbs :=
  mul_mod_p r (add_limbs acc (bytes_to_limbs block true 16))

/-- The accumulator after `process_block` on the first `k` full blocks of
`data`. -/
def blocksFold (r : Limbs) : Nat → Limbs → List Nat → Limbs
  | 0, acc, _ => acc
  | k + 1, acc, data => blocksFold r k (blockStep r acc (readAt data 0 16)) (data.drop 16)

/-- The number of zero bytes that pad `n` bytes to a multiple of 16. -/
def padLen (n : Nat) : Nat := (16 - n % 16) % 16

/-- The 8 little-endian bytes of a length held in a `uint64_t`. -/
def le64 (n : Nat) : List Nat := leBytes 8 (n % 18446744073709551616)

/-- The byte string authenticated by the RFC 8439 AEAD construction:
`aad ‖ pad ‖ ct ‖ pad ‖ le64(|aad|) ‖ le64(|ct|)`. -/
def macData (aad ct : List Nat) : List Nat :=
  aad ++ List.replicate (padLen aad.length) 0 ++ ct ++ List.replicate (padLen ct.length) 0
    ++ le64 aad.length ++ le64 ct.length

/-- The repository's Poly1305 run over one byte string: the constructor on the
key block, one `update` with the whole string, `final_`. -/
def polyTag (key data : List Nat) : List Nat :=
  (((Poly1305.new key).update data).final_).2

/-- The tag `t` with bit `i` flipped (bit `i % 8` of byte `i / 8`). -/
def flipBit (t : List Nat) (i : Nat) : List Nat :=
  t.set (i / 8) (t.getD (i / 8) 0 ^^^ 2 ^ (i % 8))

/-! ## Test vectors of RFC 8439 -/

/-- Key bytes `00 01 .. 1f` (§2.3.2 and §2.4.2). -/
def rfcKey : List Nat :=
  [0x00, 0x01, 0x02, 0x03, 0x04, 0x05, 0x06, 0x07, 0x08, 0x09, 0x0a, 0x0b, 0x0c, 0x0d, 0x0e, 0x0f,
   0x10, 0x11, 0x12, 0x13, 0x14, 0x15, 0x16, 0x17, 0x18, 0x19, 0x1a, 0x1b, 0x1c, 0x1d, 0x1e, 0x1f]

/-- Nonce of §2.3.2. -/
def rfc232Nonce : List Nat :=
  [0x00, 0x00, 0x00, 0x09, 0x00, 0x00, 0x00, 0x4a, 0x00, 0x00, 0x00, 0x00]

/-- Keystream block of §2.3.2. -/
def rfc232Block : List Nat :=
  [0x10, 0xf1, 0xe7, 0xe4, 0xd1, 0x3b, 0x59, 0x15, 0x50, 0x0f, 0xdd, 0x1f, 0xa3, 0x20, 0x71, 0xc4,
   0xc7, 0xd1, 0xf4, 0xc7, 0x33, 0xc0, 0x68, 0x03, 0x04, 0x22, 0xaa, 0x9a, 0xc3, 0xd4, 0x6c, 0x4e,
   0xd2, 0x82, 0x64, 0x46, 0x07, 0x9f, 0xaa, 0x09, 0x14, 0xc2, 0xd7, 0x05, 0xd9, 0x8b, 0x02, 0xa2,
   0xb5, 0x12, 0x9c, 0xd1, 0xde, 0x16, 0x4e, 0xb9, 0xcb, 0xd0, 0x83, 0xe8, 0xa2, 0x50, 0x3c, 0x4e]

/-- Nonce of §2.4.2. -/
def rfc242Nonce : List Nat :=
  [0x00, 0x00, 0x00, 0x00, 0x00, 0x00, 0x00, 0x4a, 0x00, 0x00, 0x00, 0x00]

/-- The 114 ASCII bytes of "Ladies and Gentlemen of the class of '99: If I
could offer you only one tip for the future, sunscreen would be it." -/
def sunscreen : List Nat :=
  [0x4c, 0x61, 0x64, 0x69, 0x65, 0x73, 0x20, 0x61, 0x6e, 0x64, 0x20, 0x47, 0x65, 0x6e, 0x74, 0x6c,
   0x65, 0x6d, 0x65, 0x6e, 0x20, 0x6f, 0x66, 0x20, 0x74, 0x68, 0x65, 0x20, 0x63, 0x6c, 0x61, 0x73,
   0x73, 0x20, 0x6f, 0x66, 0x20, 0x27, 0x39, 0x39, 0x3a, 0x20, 0x49, 0x66, 0x20, 0x49, 0x20, 0x63,
   0x6f, 0x75, 0x6c, 0x64, 0x20, 0x6f, 0x66, 0x66, 0x65, 0x72, 0x20, 0x79, 0x6f, 0x75, 0x20, 0x6f,
   0x6e, 0x6c, 0x79, 0x20, 0x6f, 0x6e, 0x65, 0x20, 0x74, 0x69, 0x70, 0x20, 0x66, 0x6f, 0x72, 0x20,
   0x74, 0x68, 0x65, 0x20, 0x66, 0x75, 0x74, 0x75, 0x72, 0x65, 0x2c, 0x20, 0x73, 0x75, 0x6e, 0x73,
   0x63, 0x72, 0x65, 0x65, 0x6e, 0x20, 0x77, 0x6f, 0x75, 0x6c, 0x64, 0x20, 0x62, 0x65, 0x20, 0x69,
   0x74, 0x2e]

/-- Ciphertext of §2.4.2. -/
def rfc242Ciphertext : List Nat :=
  [0x6e, 0x2e, 0x35, 0x9a, 0x25, 0x68, 0xf9, 0x80, 0x41, 0xba, 0x07, 0x28, 0xdd, 0x0d, 0x69, 0x81,
   0xe9, 0x7e, 0x7a, 0xec, 0x1d, 0x43, 0x60, 0xc2, 0x0a, 0x27, 0xaf, 0xcc, 0xfd, 0x9f, 0xae, 0x0b,
   0xf9, 0x1b, 0x65, 0xc5, 0x52, 0x47, 0x33, 0xab, 0x8f, 0x59, 0x3d, 0xab, 0xcd, 0x62, 0xb3, 0x57,
   0x16, 0x39, 0xd6, 0x24, 0xe6, 0x51, 0x52, 0xab, 0x8f, 0x53, 0x0c, 0x35, 0x9f, 0x08, 0x61, 0xd8,
   0x07, 0xca, 0x0d, 0xbf, 0x50, 0x0d, 0x6a, 0x61, 0x56, 0xa3, 0x8e, 0x08, 0x8a, 0x22, 0xb6, 0x5e,
   0x52, 0xbc, 0x51, 0x4d, 0x16, 0xcc, 0xf8, 0x06, 0x81, 0x8c, 0xe9, 0x1a, 0xb7, 0x79, 0x37, 0x36,
   0x5a, 0xf9, 0x0b, 0xbf, 0x74, 0xa3, 0x5b, 0xe6, 0xb4, 0x0b, 0x8e, 0xed, 0xf2, 0x78, 0x5e, 0x42,
   0x87, 0x4d]

/-- One-time key of §2.5.2. -/
def rfc252Key : List Nat :=
  [0x85, 0xd6, 0xbe, 0x78, 0x57, 0x55, 0x6d, 0x33, 0x7f, 0x44, 0x52, 0xfe, 0x42, 0xd5, 0x06, 0xa8,
   0x01, 0x03, 0x80, 0x8a, 0xfb, 0x0d, 0xb2, 0xfd, 0x4a, 0xbf, 0xf6, 0xaf, 0x41, 0x49, 0xf5, 0x1b]

/-- The 34 ASCII bytes of "Cryptographic Forum Research Group". -/
def rfc252Msg : List Nat :=
  [0x43, 0x72, 0x79, 0x70, 0x74, 0x6f, 0x67, 0x72, 0x61, 0x70, 0x68, 0x69, 0x63, 0x20, 0x46, 0x6f,
   0x72, 0x75, 0x6d, 0x20, 0x52, 0x65, 0x73, 0x65, 0x61, 0x72, 0x63, 0x68, 0x20, 0x47, 0x72, 0x6f,
   0x75, 0x70]

/-- Tag of §2.5.2. -/
def rfc252Tag : List Nat :=
  [0xa8, 0x06, 0x1d, 0xc1, 0x30, 0x51, 0x36, 0xc6, 0xc2, 0x2b, 0x8b, 0xaf, 0x0c, 0x01, 0x27, 0xa9]

/-- Key bytes `80 81 .. 9f` (§2.8.2). -/
def rfc282Key : List Nat :=
  [0x80, 0x81, 0x82, 0x83, 0x84, 0x85, 0x86, 0x87, 0x88, 0x89, 0x8a, 0x8b, 0x8c, 0x8d, 0x8e, 0x8f,
   0x90, 0x91, 0x92, 0x93, 0x94, 0x95, 0x96, 0x97, 0x98, 0x99, 0x9a, 0x9b, 0x9c, 0x9d, 0x9e, 0x9f]

/-- Nonce of §2.8.2. -/
def rfc282Nonce : List Nat :=
  [0x07, 0x00, 0x00, 0x00, 0x40, 0x41, 0x42, 0x43, 0x44, 0x45, 0x46, 0x47]

/-- Associated data of §2.8.2. -/
def rfc282Aad : List Nat :=
  [0x50, 0x51, 0x52, 0x53, 0xc0, 0xc1, 0xc2, 0xc3, 0xc4, 0xc5, 0xc6, 0xc7]

/-- Ciphertext of §2.8.2. -/
def rfc282Ciphertext : List Nat :=
  [0xd3, 0x1a, 0x8d, 0x34, 0x64, 0x8e, 0x60, 0xdb, 0x7b, 0x86, 0xaf, 0xbc, 0x53, 0xef, 0x7e, 0xc2,
   0xa4, 0xad, 0xed, 0x51, 0x29, 0x6e, 0x08, 0xfe, 0xa9, 0xe2, 0xb5, 0xa7, 0x36, 0xee, 0x62, 0xd6,
   0x3d, 0xbe, 0xa4, 0x5e, 0x8c, 0xa9, 0x67, 0x12, 0x82, 0xfa, 0xfb, 0x69, 0xda, 0x92, 0x72, 0x8b,
   0x1a, 0x71, 0xde, 0x0a, 0x9e, 0x06, 0x0b, 0x29, 0x05, 0xd6, 0xa5, 0xb6, 0x7e, 0xcd, 0x3b, 0x36,
   0x92, 0xdd, 0xbd, 0x7f, 0x2d, 0x77, 0x8b, 0x8c, 0x98, 0x03, 0xae, 0xe3, 0x28, 0x09, 0x1b, 0x58,
   0xfa, 0xb3, 0x24, 0xe4, 0xfa, 0xd6, 0x75, 0x94, 0x55, 0x85, 0x80, 0x8b, 0x48, 0x31, 0xd7, 0xbc,
   0x3f, 0xf4, 0xde, 0xf0, 0x8e, 0x4b, 0x7a, 0x9d, 0xe5, 0x76, 0xd2, 0x65, 0x86, 0xce, 0xc6, 0x4b,
   0x61, 0x16]

/-- Tag of §2.8.2. -/
def rfc282Tag : List Nat :=
  [0x1a, 0xe1, 0x0b, 0x59, 0x4f, 0x09, 0xe2, 0x6a, 0x7e, 0x90, 0x2e, 0xcb, 0xd0, 0x60, 0x06, 0x91]

/-- The cipher constructed from the key and nonce of §2.8.2, both loaded as
little-endian words. -/
def rfc282Cipher : ChaCha20 :=
  ChaCha20.init (_8bitarray_to32bitarray rfc282Key 32) (_8bitarray_to32bitarray rfc282Nonce 12)

/-! ## The RFC 8439 reference for Poly1305 -/

/-- The prime `2^130 - 5`. -/
def polyPrime : Nat := 2 ^ 130 - 5

/-- Clamping of `r`: the top four bits of bytes 3, 7, 11, 15 and the bottom two
bits of bytes 4, 8, 12 cleared. -/
def rfcClamp (r : Nat) : Nat := r &&& 0x0ffffffc0ffffffc0ffffffc0fffffff

/-- The message cut into blocks of 16 bytes, the last one possibly shorter
(`fuel` bounds the number of blocks). -/
def chunks16 : Nat → List Nat → List (List Nat)
  | 0, _ => []
  | _ + 1, [] => []
  | fuel + 1, b :: bs => (b :: bs).take 16 :: chunks16 fuel ((b :: bs).drop 16)

/-- The sum `c_1 * r^n + c_2 * r^(n-1) + ... + c_n * r^1`. -/
def rfcSum (r : Nat) : List Nat → Nat
  | [] => 0
  | c :: cs => c * r ^ (cs.length + 1) + rfcSum r cs

/-- The tag as the reference formula gives it:
`((sum of c_i * r^(n-i+1)) mod (2^130 - 5) + s) mod 2^128`, little-endian, with
`r` the clamped first 16 key bytes, `s` the next 16 key bytes and `c_i` block
`i` read little-endian plus `2^(8 * len_i)`. -/
def rfcPoly1305 (key msg : List Nat) : List Nat :=
  let r := rfcClamp (leNat (readAt key 0 16))
  let s := leNat (readAt key 16 16)
  let cs := (chunks16 msg.length msg).map (fun b => leNat b + 2 ^ (8 * b.length))
  leBytes 16 ((rfcSum r cs % polyPrime + s) % 2 ^ 128)

/-- A one-time key with `r = 1` and `s = 0`. -/
def unreducedKey : List Nat := [1] ++ List.replicate 31 0

/-- Two blocks whose values `c_1 + c_2` add up to exactly `2^130 - 5`. -/
def unreducedMsg : List Nat := List.replicate 16 0xff ++ [0xfc] ++ List.replicate 15 0xff

/-! ## Notions used in the statements on the cipher object -/

/-- `ChaCha20::process` seen from the caller: the cipher object and the output
pointer's buffer as they are once the call has returned or thrown, and the
exception thrown, if any. The test of the arguments is the first statement, so
a throwing call has touched neither. -/
def ChaCha20.processEffect (c : ChaCha20) (input output : Option (List Nat)) :
    ChaCha20 × Option (List Nat) × Option Error :=
  match input, output with
  | some input, some output =>
    if input.length = 0 then (c, some output, some Error.invalidArgument)
    else
      match processLoop (input.length / 64) c input output 0 with
      | (c1, output1, offset) =>
        ((processTail c1 input output1 offset).1,
          some (processTail c1 input output1 offset).2, none)
  | _, _ => (c, output, some Error.invalidArgument)

/-- The cipher `d` agrees with `c` on every state word other than word 12. -/
def ChaCha20.sameButCounter (c d : ChaCha20) : Prop :=
  ∀ i, i ≠ 12 → d.state.getD i 0 = c.state.getD i 0

/-- A call on a cipher object: one of the operations that take the cipher by
reference. -/
inductive CipherCall where
  | set_counter (counter : Nat)
  | blockFunction (to_copy : Nat)
  | process (input output : Option (List Nat))
  | encrypt (plaintext aad output : List Nat)
  | decrypt (ciphertext aad received_tag output : List Nat)

/-- The cipher after one call (an exception ends the run). -/
def CipherCall.run (c : ChaCha20) : CipherCall → Except Error ChaCha20
  | CipherCall.set_counter counter => Except.ok (c.set_counter counter)
  | CipherCall.blockFunction to_copy => Except.ok (c.blockFunction to_copy).1
  | CipherCall.process input output =>
    match c.process input output with
    | Except.ok (c, _) => Except.ok c
    | Except.error e => Except.error e
  | CipherCall.encrypt plaintext aad output =>
    match ChaChaAEAD.encrypt c plaintext aad output with
    | Except.ok (c, _, _) => Except.ok c
    | Except.error e => Except.error e
  | CipherCall.decrypt ciphertext aad received_tag output =>
    match ChaChaAEAD.decrypt c ciphertext aad received_tag output with
    | Except.ok (c, _, _) => Except.ok c
    | Except.error e => Except.error e

/-- The cipher after a sequence of calls. -/
def runCalls (c : ChaCha20) : List CipherCall → Except Error ChaCha20
  | [] => Except.ok c
  | call :: calls =>
    match call.run c with
    | Except.ok c => runCalls c calls
    | Except.error e => Except.error e

/-! ## Notions used in the statements on the MAC object -/

/-- Bytes 0..15 of the key block with the top four bits of bytes 3, 7, 11, 15
and the bottom two bits of bytes 4, 8, 12 cleared. -/
def clampedKeyBytes (block : List Nat) : List Nat :=
  (List.range 16).map (fun i =>
    if i = 3 ∨ i = 7 ∨ i = 11 ∨ i = 15 then block.getD i 0 % 16
    else if i = 4 ∨ i = 8 ∨ i = 12 then block.getD i 0 - block.getD i 0 % 4
    else block.getD i 0)

/-- The value `sum of limbs[i] * 2^(26 * i)` of five limbs. -/
def Limbs.value (a : Limbs) : Nat :=
  a.l0 + a.l1 * 2 ^ 26 + a.l2 * 2 ^ 52 + a.l3 * 2 ^ 78 + a.l4 * 2 ^ 104

/-- `Poly1305::~Poly1305()`: the storage of the object after the three calls
of `secure_zero_memory` on `r`, `s` and `acc` (the member `partial` is not
wiped). -/
def Poly1305.destructor (p : Poly1305) : Poly1305 :=
  Poly1305.mk (Limbs.mk 0 0 0 0 0) 0 0 (Limbs.mk 0 0 0 0 0) p.partial_buf p.partial_len

/-! ## Notions used in the statements on the partial buffer and the padding -/

/-- The copies into the member `partial` made by `update(data, len)`, in
order: for each `memcpy` with destination in `partial`, its destination offset
and its byte count. -/
def Poly1305.updateCopies (p : Poly1305) (data : List Nat) : List (Nat × Nat) :=
  let len := data.length
  let offset := 0
  let (p1, offset, copies) :=
    if 0 < p.partial_len then
      let take := min len (16 - p.partial_len)
      let buf := writeAt p.partial_buf p.partial_len (readAt data 0 take)
      let q := Poly1305.mk p.r p.s0 p.s1 p.acc buf (p.partial_len + take)
      let offset := offset + take
      if q.partial_len = 16 then
        let q := q.process_block q.partial_buf true 16
        (Poly1305.mk q.r q.s0 q.s1 q.acc q.partial_buf 0, offset, [(p.partial_len, take)])
      else (q, offset, [(p.partial_len, take)])
    else (p, offset, [])
  match updateLoop (len / 16) p1 data offset with
  | (_, offset) =>
    if offset < len then copies ++ [(0, len - offset)]
    else copies

/-! ## Exact and overflow-checked limb arithmetic -/

/-- The five sums `t0 .. t4` of `mul_mod_p` (schoolbook products with the
fold by 5), in exact integer arithmetic. -/
def mulSums (r acc : Limbs) : Limbs :=
  Limbs.mk
    (acc.l0 * r.l0 + acc.l1 * (r.l4 * 5) + acc.l2 * (r.l3 * 5) + acc.l3 * (r.l2 * 5)
      + acc.l4 * (r.l1 * 5))
    (acc.l0 * r.l1 + acc.l1 * r.l0 + acc.l2 * (r.l4 * 5) + acc.l3 * (r.l3 * 5)
      + acc.l4 * (r.l2 * 5))
    (acc.l0 * r.l2 + acc.l1 * r.l1 + acc.l2 * r.l0 + acc.l3 * (r.l4 * 5)
      + acc.l4 * (r.l3 * 5))
    (acc.l0 * r.l3 + acc.l1 * r.l2 + acc.l2 * r.l1 + acc.l3 * r.l0
      + acc.l4 * (r.l4 * 5))
    (acc.l0 * r.l4 + acc.l1 * r.l3 + acc.l2 * r.l2 + acc.l3 * r.l1 + acc.l4 * r.l0)

/-- The carry propagation of `mul_mod_p` over `t0 .. t4` and the fold of the
carry out of `t4`, in exact integer arithmetic. -/
def carryFold (t : Limbs) : Limbs :=
  let x1 := t.l1 + t.l0 / 67108864
  let x2 := t.l2 + x1 / 67108864
  let x3 := t.l3 + x2 / 67108864
  let x4 := t.l4 + x3 / 67108864
  let y0 := t.l0 % 67108864 + x4 / 67108864 * 5
  Limbs.mk (y0 % 67108864) (x1 % 67108864 + y0 / 67108864) (x2 % 67108864)
    (x3 % 67108864) (x4 % 67108864)

/-- The computation of `add_limbs`, in exact integer arithmetic. -/
def addExact (a b : Limbs) : Limbs :=
  let x0 := a.l0 + (b.l0 + 0)
  let x1 := a.l1 + (b.l1 + x0 / 67108864)
  let x2 := a.l2 + (b.l2 + x1 / 67108864)
  let x3 := a.l3 + (b.l3 + x2 / 67108864)
  let x4 := a.l4 + (b.l4 + x3 / 67108864)
  let y0 := x0 % 67108864 + x4 / 67108864 * 5
  Limbs.mk (y0 % 67108864) (x1 % 67108864 + y0 / 67108864) (x2 % 67108864)
    (x3 % 67108864) (x4 % 67108864)

/-- The bound on the accumulator limbs that `process_block` maintains: limbs 0,
2, 3, 4 below `2^26`, limb 1 below `2^26 + 32`. -/
def Limbs.accBound (a : Limbs) : Prop :=
  a.l0 < 2 ^ 26 ∧ a.l1 < 2 ^ 26 + 32 ∧ a.l2 < 2 ^ 26 ∧ a.l3 < 2 ^ 26 ∧ a.l4 < 2 ^ 26

/-- Every limb below `2^26`. -/
def Limbs.lt26 (a : Limbs) : Prop :=
  a.l0 < 2 ^ 26 ∧ a.l1 < 2 ^ 26 ∧ a.l2 < 2 ^ 26 ∧ a.l3 < 2 ^ 26 ∧ a.l4 < 2 ^ 26

/-- Every limb at most `2^26`. -/
def Limbs.le26 (a : Limbs) : Prop :=
  a.l0 ≤ 2 ^ 26 ∧ a.l1 ≤ 2 ^ 26 ∧ a.l2 ≤ 2 ^ 26 ∧ a.l3 ≤ 2 ^ 26 ∧ a.l4 ≤ 2 ^ 26

/-- The element `limbs[i]` (0 for an index outside the array). -/
def Limbs.get (a : Limbs) (i : Nat) : Nat :=
  match i with
  | 0 => a.l0
  | 1 => a.l1
  | 2 => a.l2
  | 3 => a.l3
  | 4 => a.l4
  | _ => 0

/-- The first statement of `final_`: a pending partial block is copied into a
zeroed 16-byte block and absorbed with `block_size = partial_len`. -/
def Poly1305.finalPartial (p : Poly1305) : Poly1305 :=
  if 0 < p.partial_len then
    let block := writeAt (List.replicate 16 0) 0 (readAt p.partial_buf 0 p.partial_len)
    p.process_block block true p.partial_len
  else p

/-- Horner evaluation `((...((h + c_1) * r + c_2) * r + ...) + c_m) * r`,
started from `h`. -/
def hornerFrom (r h : Nat) (cs : List Nat) : Nat :=
  cs.foldl (fun h c => (h + c) * r) h

/-- The block values of a message of `n` bytes: each of the `n / 16` full
blocks read little-endian plus `2^128`, then, when `l = n % 16` is not zero,
the tail read little-endian plus `2^(8 l)`. -/
def blockValues (msg : List Nat) : List Nat :=
  (List.range (msg.length / 16)).map (fun i => leNat (readAt msg (16 * i) 16) + 2 ^ 128)
    ++ (if msg.length % 16 = 0 then []
        else [leNat (msg.drop (16 * (msg.length / 16))) + 2 ^ (8 * (msg.length % 16))])

/-- A one-time key block with `r = 3` (and `s = 0`). -/
def limbKey : List Nat := [3] ++ List.replicate 31 0

/-- A 16-byte block whose limbs are `0x1555555, 0x1555555, 0, 0, 0x555555`. -/
def limbMsg : List Nat :=
  [0x55, 0x55, 0x55, 0x55, 0x55, 0x55, 0x05, 0, 0, 0, 0, 0, 0, 0x56, 0x55, 0x55]

/-- A `uint64_t` addition that fails when the exact sum does not fit in 64
bits. -/
def checkedAdd (a b : Nat) : Option Nat :=
  if a + b < 18446744073709551616 then some (a + b) else none

/-- A `uint64_t` multiplication that fails when the exact product does not fit
in 64 bits. -/
def checkedMul (a b : Nat) : Option Nat :=
  if a * b < 18446744073709551616 then some (a * b) else none

/-- One iteration of the loop of `add_limbs` with checked arithmetic. -/
def addStepChecked (a b carry : Nat) : Option (Nat × Nat) :=
  (checkedAdd b carry).bind fun y =>
  (checkedAdd a y).bind fun x =>
  some (x &&& mask26, x >>> 26)

/-- `Poly1305::add_limbs(a, b)` with every addition and multiplication
checked: `none` as soon as one exact result is `2^64` or more. -/
def add_limbs_checked (a b : Limbs) : Option Limbs :=
  (addStepChecked a.l0 b.l0 0).bind fun s0 =>
  (addStepChecked a.l1 b.l1 s0.2).bind fun s1 =>
  (addStepChecked a.l2 b.l2 s1.2).bind fun s2 =>
  (addStepChecked a.l3 b.l3 s2.2).bind fun s3 =>
  (addStepChecked a.l4 b.l4 s3.2).bind fun s4 =>
  (checkedMul s4.2 5).bind fun m =>
  (checkedAdd s0.1 m).bind fun a0 =>
  let carry := a0 >>> 26
  let a0 := a0 &&& mask26
  (checkedAdd s1.1 carry).bind fun a1 =>
  some (Limbs.mk a0 a1 s2.1 s3.1 s4.1)

/-- The sum `p0 + p1 + p2 + p3 + p4` of five checked products, added left to
right with checked additions. -/
def checkedSum5 (p0 p1 p2 p3 p4 : Option Nat) : Option Nat :=
  p0.bind fun x0 => p1.bind fun x1 => (checkedAdd x0 x1).bind fun y1 =>
  p2.bind fun x2 => (checkedAdd y1 x2).bind fun y2 =>
  p3.bind fun x3 => (checkedAdd y2 x3).bind fun y3 =>
  p4.bind fun x4 => checkedAdd y3 x4

/-- The products and sums `t0 .. t4` of `mul_mod_p` with every multiplication
and addition checked. -/
def mulSumsChecked (r acc : Limbs) : Option Limbs :=
  let a0 := acc.l0; let a1 := acc.l1; let a2 := acc.l2; let a3 := acc.l3; let a4 := acc.l4
  let r0 := r.l0; let r1 := r.l1; let r2 := r.l2; let r3 := r.l3; let r4 := r.l4
  (checkedMul r1 5).bind fun r1_5 =>
  (checkedMul r2 5).bind fun r2_5 =>
  (checkedMul r3 5).bind fun r3_5 =>
  (checkedMul r4 5).bind fun r4_5 =>
  (checkedSum5 (checkedMul a0 r0) (checkedMul a1 r4_5) (checkedMul a2 r3_5)
    (checkedMul a3 r2_5) (checkedMul a4 r1_5)).bind fun t0 =>
  (checkedSum5 (checkedMul a0 r1) (checkedMul a1 r0) (checkedMul a2 r4_5)
    (checkedMul a3 r3_5) (checkedMul a4 r2_5)).bind fun t1 =>
  (checkedSum5 (checkedMul a0 r2) (checkedMul a1 r1) (checkedMul a2 r0)
    (checkedMul a3 r4_5) (checkedMul a4 r3_5)).bind fun t2 =>
  (checkedSum5 (checkedMul a0 r3) (checkedMul a1 r2) (checkedMul a2 r1)
    (checkedMul a3 r0) (checkedMul a4 r4_5)).bind fun t3 =>
  (checkedSum5 (checkedMul a0 r4) (checkedMul a1 r3) (checkedMul a2 r2)
    (checkedMul a3 r1) (checkedMul a4 r0)).bind fun t4 =>
  some (Limbs.mk t0 t1 t2 t3 t4)

/-- The carry propagation and the final fold of `mul_mod_p` on the sums
`t0 .. t4`, with every addition and multiplication checked. -/
def carryChecked (t : Limbs) : Option Limbs :=
  let c := t.l0 >>> 26; let acc0 := t.l0 &&& mask26
  (checkedAdd t.l1 c).bind fun t1 =>
  let c := t1 >>> 26; let acc1 := t1 &&& mask26
  (checkedAdd t.l2 c).bind fun t2 =>
  let c := t2 >>> 26; let acc2 := t2 &&& mask26
  (checkedAdd t.l3 c).bind fun t3 =>
  let c := t3 >>> 26; let acc3 := t3 &&& mask26
  (checkedAdd t.l4 c).bind fun t4 =>
  let c := t4 >>> 26; let acc4 := t4 &&& mask26
  (checkedMul c 5).bind fun c5 =>
  (checkedAdd acc0 c5).bind fun acc0 =>
  let c := acc0 >>> 26; let acc0 := acc0 &&& mask26
  (checkedAdd acc1 c).bind fun acc1 =>
  some (Limbs.mk acc0 acc1 acc2 acc3 acc4)

/-- `Poly1305::mul_mod_p(r, acc)` with every addition and multiplication
checked: `none` as soon as one exact result is `2^64` or more. -/
def mul_mod_p_checked (r acc : Limbs) : Option Limbs :=
  (mulSumsChecked r acc).bind carryChecked

/-- `Poly1305::process_block` with the additions and multiplications of
`add_limbs` and `mul_mod_p` checked. -/
def Poly1305.process_block_checked (p : Poly1305) (block : List Nat)
    (is_message_block : Bool) (block_size : Nat) : Option Poly1305 :=
  let msg_limbs := bytes_to_limbs block is_message_block block_size
  (add_limbs_checked p.acc msg_limbs).bind fun acc =>
  (mul_mod_p_checked p.r acc).bind fun acc =>
  some (Poly1305.mk p.r p.s0 p.s1 acc p.partial_buf p.partial_len)

/-! ## Theorems -/

/-! ### Buffers and the stream cipher -/

theorem readAt_length (buf : List Nat) (off n : Nat) (h : off + n ≤ buf.length) :
    (readAt buf off n).length = n := by
  simp [readAt]; omega

theorem readAt_zero_len (buf : List Nat) (off : Nat) : readAt buf off 0 = [] := by
  simp [readAt]

theorem readAt_add (buf : List Nat) (off m n : Nat) :
    readAt buf off m ++ readAt buf (off + m) n = readAt buf off (m + n) := by
  simp only [readAt]
  rw [List.take_add, List.drop_drop]

theorem readAt_all (buf : List Nat) (off n : Nat) (h : buf.length ≤ off + n) :
    readAt buf off n = buf.drop off := by
  simp only [readAt]
  apply List.take_of_length_le
  simp; omega

theorem writeAt_nil (buf : List Nat) (off : Nat) : writeAt buf off [] = buf := by
  simp [writeAt]

theorem writeAt_length (buf : List Nat) (off : Nat) (bytes : List Nat)
    (h : off + bytes.length ≤ buf.length) : (writeAt buf off bytes).length = buf.length := by
  simp [writeAt]; omega

theorem writeAt_writeAt (buf : List Nat) (off : Nat) (xs ys : List Nat)
    (h : off + xs.length ≤ buf.length) :
    writeAt (writeAt buf off xs) (off + xs.length) ys = writeAt buf off (xs ++ ys) := by
  have h1 : (buf.take off ++ xs).length = off + xs.length := by
    rw [List.length_append, List.length_take]; omega
  simp only [writeAt]
  rw [← h1, List.take_left', List.drop_append, List.drop_drop, h1, List.length_append]
  simp [Nat.add_assoc, Nat.add_comm]
  rfl

theorem xorBytes_length (a b : List Nat) : (xorBytes a b).length = min a.length b.length := by
  simp [xorBytes]

theorem xorBytes_append (a b a2 b2 : List Nat) (h : a.length = b.length) :
    xorBytes (a ++ a2) (b ++ b2) = xorBytes a b ++ xorBytes a2 b2 := by
  simp only [xorBytes]
  exact List.zipWith_append _ _ _ _ _ h

theorem xorBytes_take (a b : List Nat) (n : Nat) (h : a.length ≤ n) :
    xorBytes a (b.take n) = xorBytes a b := by
  induction a generalizing b n with
  | nil => simp [xorBytes]
  | cons x xs ih =>
    cases b with
    | nil => simp [xorBytes]
    | cons y ys =>
      cases n with
      | zero => simp at h
      | succ n =>
        simp only [xorBytes, List.take_succ_cons, List.zipWith_cons_cons, List.cons.injEq, true_and]
        exact ih ys n (by simpa using h)

theorem xorBytes_xorBytes (a k : List Nat) (h : a.length ≤ k.length) :
    xorBytes (xorBytes a k) k = a := by
  induction a generalizing k with
  | nil => simp [xorBytes]
  | cons x xs ih =>
    cases k with
    | nil => simp at h
    | cons y ys =>
      simp only [xorBytes, List.zipWith_cons_cons, List.cons.injEq]
      constructor
      · rw [Nat.xor_assoc, Nat.xor_self, Nat.xor_zero]
      · exact ih ys (by simpa using h)

theorem ChaCha20.ext_state {c d : ChaCha20} (h : c.state = d.state) : c = d := by
  cases c; cases d; cases h; rfl

theorem blockFunction_eq (c : ChaCha20) : c.blockFunction 64 = (c.next, c.keyBlock) := rfl

theorem leBytes_length (n x : Nat) : (leBytes n x).length = n := by
  induction n generalizing x with
  | zero => rfl
  | succ n ih => simp [leBytes, ih]

theorem flatten_leBytes_length (ws : List Nat) :
    ((ws.map (fun w => leBytes 4 w)).flatten).length = 4 * ws.length := by
  induction ws with
  | nil => rfl
  | cons w ws ih => simp [leBytes_length, ih]; omega

theorem keyBlock_length (c : ChaCha20) : c.keyBlock.length = 64 := by
  simp only [ChaCha20.keyBlock, ChaCha20.blockFunction]
  rw [List.length_take, flatten_leBytes_length]
  simp [blockWords]

theorem stream_length (n : Nat) (c : ChaCha20) : (stream n c).length = 64 * n := by
  induction n generalizing c with
  | zero => rfl
  | succ n ih => simp [stream, ih, keyBlock_length]; omega

theorem stream_succ_last (n : Nat) (c : ChaCha20) :
    stream (n + 1) c = stream n c ++ (advance n c).keyBlock := by
  induction n generalizing c with
  | zero => simp [stream, advance]
  | succ n ih => rw [stream, ih c.next, stream, advance, List.append_assoc]

theorem advance_succ_last (n : Nat) (c : ChaCha20) :
    advance (n + 1) c = (advance n c).next := by
  induction n generalizing c with
  | zero => rfl
  | succ n ih => rw [advance, ih c.next, advance]

theorem processLoop_spec (input : List Nat) :
    ∀ (fuel : Nat) (c : ChaCha20) (output : List Nat) (offset : Nat),
      offset ≤ input.length → input.length ≤ output.length →
      (input.length - offset) / 64 ≤ fuel →
      processLoop fuel c input output offset =
        (advance ((input.length - offset) / 64) c,
         writeAt output offset
           (xorBytes (readAt input offset (64 * ((input.length - offset) / 64)))
             (stream ((input.length - offset) / 64) c)),
         offset + 64 * ((input.length - offset) / 64)) := by
  intro fuel
  induction fuel with
  | zero =>
    intro c output offset _ _ hf
    have hk : (input.length - offset) / 64 = 0 := by omega
    simp [processLoop, hk, advance, stream, readAt_zero_len, xorBytes, writeAt_nil]
  | succ fuel ih =>
    intro c output offset ho hlen hf
    by_cases hge : 64 ≤ input.length - offset
    · obtain ⟨k, hk⟩ : ∃ k, (input.length - offset) / 64 = k + 1 :=
        ⟨(input.length - offset) / 64 - 1, by omega⟩
      have hk2 : (input.length - (offset + 64)) / 64 = k := by omega
      have hks := keyBlock_length c
      have hr1 : (readAt input offset 32).length = 32 := readAt_length _ _ _ (by omega)
      have hr2 : (readAt c.keyBlock 0 32).length = 32 := readAt_length _ _ _ (by omega)
      have hx1 : (xorBytes (readAt input offset 32) (readAt c.keyBlock 0 32)).length = 32 := by
        rw [xorBytes_length, hr1, hr2]; rfl
      have hstep : process256_chunk input (offset + 32)
          (process256_chunk input offset output offset c.keyBlock 0) (offset + 32) c.keyBlock 32
          = writeAt output offset (xorBytes (readAt input offset 64) c.keyBlock) := by
        simp only [process256_chunk]
        have := writeAt_writeAt output offset
          (xorBytes (readAt input offset 32) (readAt c.keyBlock 0 32))
          (xorBytes (readAt input (offset + 32) 32) (readAt c.keyBlock 32 32))
          (by rw [hx1]; omega)
        rw [hx1] at this
        rw [this, ← xorBytes_append _ _ _ _ (by rw [hr1, hr2])]
        have e1 := readAt_add input offset 32 32
        have e2 := readAt_add c.keyBlock 0 32 32
        simp only [Nat.zero_add] at e2
        rw [e1, e2, readAt_all c.keyBlock 0 (32 + 32) (by omega)]
        rfl
      rw [processLoop, if_pos hge, blockFunction_eq]
      simp only [hstep]
      have hw : (writeAt output offset (xorBytes (readAt input offset 64) c.keyBlock)).length
          = output.length := by
        apply writeAt_length
        rw [xorBytes_length, readAt_length _ _ _ (by omega), hks]; omega
      rw [ih c.next _ (offset + 64) (by omega) (by rw [hw]; exact hlen) (by omega)]
      rw [hk2, hk]
      have hx : (xorBytes (readAt input offset 64) c.keyBlock).length = 64 := by
        rw [xorBytes_length, readAt_length _ _ _ (by omega), hks]; rfl
      have := writeAt_writeAt output offset (xorBytes (readAt input offset 64) c.keyBlock)
        (xorBytes (readAt input (offset + 64) (64 * k)) (stream k c.next)) (by rw [hx]; omega)
      rw [hx] at this
      rw [this, ← xorBytes_append _ _ _ _ (by rw [readAt_length _ _ _ (by omega), hks])]
      rw [readAt_add]
      have e3 : 64 + 64 * k = 64 * (k + 1) := by omega
      have e4 : offset + 64 + 64 * k = offset + 64 * (k + 1) := by omega
      rw [e3, e4]
      rfl
    · have hk : (input.length - offset) / 64 = 0 := by omega
      rw [processLoop, if_neg hge]
      simp [hk, advance, stream, readAt_zero_len, xorBytes, writeAt_nil]

theorem chunk_step (input output ks : List Nat) (offset lo sz : Nat)
    (h1 : offset + lo + sz ≤ input.length) (h2 : input.length ≤ output.length)
    (h3 : lo + sz ≤ ks.length) :
    writeAt (writeAt output offset (xorBytes (readAt input offset lo) (readAt ks 0 lo)))
        (offset + lo) (xorBytes (readAt input (offset + lo) sz) (readAt ks lo sz))
      = writeAt output offset
          (xorBytes (readAt input offset (lo + sz)) (readAt ks 0 (lo + sz))) := by
  have hr1 : (readAt input offset lo).length = lo := readAt_length _ _ _ (by omega)
  have hr2 : (readAt ks 0 lo).length = lo := readAt_length _ _ _ (by omega)
  have hx : (xorBytes (readAt input offset lo) (readAt ks 0 lo)).length = lo := by
    rw [xorBytes_length, hr1, hr2]; simp
  have := writeAt_writeAt output offset (xorBytes (readAt input offset lo) (readAt ks 0 lo))
    (xorBytes (readAt input (offset + lo) sz) (readAt ks lo sz)) (by rw [hx]; omega)
  rw [hx] at this
  rw [this, ← xorBytes_append _ _ _ _ (by rw [hr1, hr2]), readAt_add]
  have e2 := readAt_add ks 0 lo sz
  simp only [Nat.zero_add] at e2
  rw [e2]

theorem processTail_spec (c : ChaCha20) (input output : List Nat) (offset : Nat)
    (h1 : offset < input.length) (h2 : input.length - offset < 64)
    (h3 : input.length ≤ output.length) :
    processTail c input output offset =
      (c.next, writeAt output offset
        (xorBytes (readAt input offset (input.length - offset)) c.keyBlock)) := by
  have hks := keyBlock_length c
  have hG0 : output = writeAt output offset
      (xorBytes (readAt input offset 0) (readAt c.keyBlock 0 0)) := by
    simp [readAt_zero_len, xorBytes, writeAt_nil]
  have hstep := fun lo sz h => chunk_step input output c.keyBlock offset lo sz h h3
  have hfin : xorBytes (readAt input offset (input.length - offset))
        (readAt c.keyBlock 0 (input.length - offset))
      = xorBytes (readAt input offset (input.length - offset)) c.keyBlock := by
    simp only [readAt, List.drop_zero]
    apply xorBytes_take
    simp
  rw [← hfin]
  unfold processTail
  rw [if_pos h1, blockFunction_eq]
  simp only [process256_chunk, process128_chunk, process64_chunk, process_manually]
  generalize hrem : input.length - offset = rem at *
  conv_lhs => rw [hG0]
  have hfinish : ∀ lo, lo ≤ rem → 0 < rem - lo →
      writeAt (writeAt output offset
          (xorBytes (readAt input offset lo) (readAt c.keyBlock 0 lo))) (offset + lo)
          (xorBytes (readAt input (offset + lo) (rem - lo)) (readAt c.keyBlock lo (rem - lo)))
        = writeAt output offset
          (xorBytes (readAt input offset rem) (readAt c.keyBlock 0 rem)) := by
    intro lo hlo _
    rw [hstep lo (rem - lo) (by omega) (by omega), show lo + (rem - lo) = rem by omega]
  have hdone : ∀ lo, lo ≤ rem → ¬ 0 < rem - lo →
      writeAt output offset (xorBytes (readAt input offset lo) (readAt c.keyBlock 0 lo))
        = writeAt output offset
          (xorBytes (readAt input offset rem) (readAt c.keyBlock 0 rem)) := by
    intro lo hlo h
    rw [show lo = rem by omega]
  split_ifs
  all_goals simp only []
  all_goals (try rw [hstep 0 32 (by omega) (by omega)])
  all_goals (try rw [hstep 0 16 (by omega) (by omega)])
  all_goals (try rw [hstep 0 8 (by omega) (by omega)])
  all_goals (try rw [hstep _ 16 (by omega) (by omega)])
  all_goals (try rw [hstep _ 8 (by omega) (by omega)])
  all_goals (first | rw [hfinish _ (by omega) (by assumption)] | rw [hdone _ (by omega) (by assumption)])

theorem processTail_done (c : ChaCha20) (input output : List Nat) (offset : Nat)
    (h : ¬ offset < input.length) : processTail c input output offset = (c, output) := by
  unfold processTail
  rw [if_neg h]

/-- What `process` computes on present buffers: the input XORed with the
keystream of the blocks it draws, the rest of the output buffer untouched, and
the cipher advanced by one `blockFunction` call per started 64-byte block. -/
theorem process_spec (c : ChaCha20) (input output : List Nat)
    (h1 : 0 < input.length) (h2 : input.length ≤ output.length) :
    c.process (some input) (some output) =
      Except.ok (advance ((input.length + 63) / 64) c,
        xorBytes input (stream ((input.length + 63) / 64) c) ++ output.drop input.length) := by
  have hloop := processLoop_spec input (input.length / 64) c output 0 (Nat.zero_le _) h2
    (by simp)
  simp only [Nat.sub_zero, Nat.zero_add] at hloop
  have hxl : (xorBytes (readAt input 0 (64 * (input.length / 64)))
      (stream (input.length / 64) c)).length = 64 * (input.length / 64) := by
    rw [xorBytes_length, readAt_length _ _ _ (by omega), stream_length]; simp
  unfold ChaCha20.process
  simp only []
  rw [if_neg (by omega), hloop]
  simp only []
  congr 1
  by_cases hrem : input.length % 64 = 0
  · have hn : 64 * (input.length / 64) = input.length := by omega
    have hm : (input.length + 63) / 64 = input.length / 64 := by omega
    rw [processTail_done _ _ _ _ (by omega), hm, hn]
    have : readAt input 0 input.length = input := by simp [readAt]
    rw [this]
    simp only [writeAt, List.take_zero, List.nil_append, Nat.zero_add]
    rw [xorBytes_length, stream_length, hn]
    simp
  · have hm : (input.length + 63) / 64 = input.length / 64 + 1 := by omega
    have hw : (writeAt output 0 (xorBytes (readAt input 0 (64 * (input.length / 64)))
        (stream (input.length / 64) c))).length = output.length :=
      writeAt_length _ _ _ (by rw [hxl]; omega)
    rw [processTail_spec _ _ _ _ (by omega) (by omega) (by rw [hw]; exact h2)]
    rw [hm, advance_succ_last, stream_succ_last]
    congr 1
    have := writeAt_writeAt output 0 (xorBytes (readAt input 0 (64 * (input.length / 64)))
        (stream (input.length / 64) c))
      (xorBytes (readAt input (64 * (input.length / 64))
        (input.length - 64 * (input.length / 64))) (advance (input.length / 64) c).keyBlock)
      (by rw [hxl]; omega)
    rw [hxl, Nat.zero_add] at this
    rw [this, ← xorBytes_append _ _ _ _
      (by rw [readAt_length _ _ _ (by omega), stream_length])]
    have e := readAt_add input 0 (64 * (input.length / 64))
      (input.length - 64 * (input.length / 64))
    rw [Nat.zero_add] at e
    rw [e, show 64 * (input.length / 64) + (input.length - 64 * (input.length / 64))
      = input.length by omega]
    have : readAt input 0 input.length = input := by simp [readAt]
    rw [this]
    simp only [writeAt, List.take_zero, List.nil_append, Nat.zero_add]
    rw [xorBytes_length, List.length_append, stream_length, keyBlock_length]
    rw [show min input.length (64 * (input.length / 64) + 64) = input.length by omega]

/-! ### The counter -/

theorem set_counter_set_counter (c : ChaCha20) (k j : Nat) :
    (c.set_counter k).set_counter j = c.set_counter j := by
  apply ChaCha20.ext_state
  simp [ChaCha20.set_counter, List.set_set]

theorem set_counter_next (c : ChaCha20) (k : Nat) :
    (c.set_counter k).next = c.set_counter (k + 1) := by
  apply ChaCha20.ext_state
  have h := c.size
  simp only [ChaCha20.next, ChaCha20.blockFunction, ChaCha20.set_counter, List.set_set]
  congr 1
  rw [List.getD_eq_getElem?_getD, List.getElem?_set_self (by omega)]
  simp [Nat.add_mod]

theorem advance_set_counter (j : Nat) (c : ChaCha20) (k : Nat) :
    advance j (c.set_counter k) = c.set_counter (k + j) := by
  induction j generalizing k with
  | zero => rfl
  | succ j ih => rw [advance, set_counter_next, ih, Nat.add_assoc, Nat.add_comm 1 j]

theorem next_set_counter (c : ChaCha20) (k : Nat) :
    c.next.set_counter k = c.set_counter k := by
  apply ChaCha20.ext_state
  simp [ChaCha20.next, ChaCha20.blockFunction, ChaCha20.set_counter, List.set_set]

theorem advance_then_set_counter (j : Nat) (c : ChaCha20) (k : Nat) :
    (advance j c).set_counter k = c.set_counter k := by
  induction j generalizing c with
  | zero => rfl
  | succ j ih => rw [advance, ih, next_set_counter]

theorem stream_getD (m : Nat) (c : ChaCha20) (i : Nat) (h : i < 64 * m) :
    (stream m c).getD i 0 = (advance (i / 64) c).keyBlock.getD (i % 64) 0 := by
  induction m generalizing c i with
  | zero => omega
  | succ m ih =>
    rw [stream]
    by_cases hi : i < 64
    · rw [List.getD_append _ _ _ _ (by rw [keyBlock_length]; exact hi)]
      rw [Nat.div_eq_of_lt hi, Nat.mod_eq_of_lt hi]
      rfl
    · rw [List.getD_append_right _ _ _ _ (by rw [keyBlock_length]; omega), keyBlock_length]
      rw [ih c.next (i - 64) (by omega)]
      have e1 : i / 64 = (i - 64) / 64 + 1 := by omega
      have e2 : i % 64 = (i - 64) % 64 := by omega
      rw [e1, e2, advance]

theorem xorBytes_getD (a b : List Nat) (i : Nat) (h1 : i < a.length) (h2 : i < b.length) :
    (xorBytes a b).getD i 0 = a.getD i 0 ^^^ b.getD i 0 := by
  simp only [xorBytes, List.getD_eq_getElem?_getD]
  rw [List.getElem?_zipWith]
  simp [List.getElem?_eq_getElem h1, List.getElem?_eq_getElem h2]

/-! ### The MAC: `update` in terms of pending bytes -/

theorem readAt_drop (buf : List Nat) (o off n : Nat) :
    readAt (buf.drop o) off n = readAt buf (o + off) n := by
  simp [readAt, List.drop_drop, Nat.add_comm]

theorem readAt_writeAt_self (buf xs : List Nat) (off : Nat) (h : off ≤ buf.length) :
    readAt (writeAt buf off xs) off xs.length = xs := by
  simp only [readAt, writeAt]
  have h1 : (buf.take off).length = off := by rw [List.length_take]; omega
  rw [List.append_assoc]
  conv_lhs => rw [List.drop_left' h1]
  simp

theorem readAt_writeAt_head (buf xs : List Nat) (off : Nat) (h : off ≤ buf.length) :
    readAt (writeAt buf off xs) 0 (off + xs.length) = buf.take off ++ xs := by
  simp only [readAt, writeAt, List.drop_zero]
  have h1 : (buf.take off ++ xs).length = off + xs.length := by
    rw [List.length_append, List.length_take]; omega
  rw [← h1, List.take_left']
  rfl

theorem process_block_full (p : Poly1305) (block : List Nat) :
    p.process_block block true 16 =
      Poly1305.mk p.r p.s0 p.s1 (blockStep p.r p.acc block) p.partial_buf p.partial_len := rfl

theorem updateLoop_spec (data : List Nat) :
    ∀ (fuel : Nat) (p : Poly1305) (offset : Nat),
      offset ≤ data.length → (data.length - offset) / 16 ≤ fuel →
      updateLoop fuel p data offset =
        (Poly1305.mk p.r p.s0 p.s1
            (blocksFold p.r ((data.length - offset) / 16) p.acc (data.drop offset))
            p.partial_buf p.partial_len,
          offset + 16 * ((data.length - offset) / 16)) := by
  intro fuel
  induction fuel with
  | zero =>
    intro p offset _ hf
    have hk : (data.length - offset) / 16 = 0 := by omega
    simp [updateLoop, hk, blocksFold]
  | succ fuel ih =>
    intro p offset ho hf
    by_cases hge : offset + 16 ≤ data.length
    · obtain ⟨k, hk⟩ : ∃ k, (data.length - offset) / 16 = k + 1 :=
        ⟨(data.length - offset) / 16 - 1, by omega⟩
      have hk2 : (data.length - (offset + 16)) / 16 = k := by omega
      rw [updateLoop, if_pos hge, ih _ _ (by omega) (by omega), hk2, hk, process_block_full]
      simp only [blocksFold, readAt_drop, Nat.add_zero, List.drop_drop]
      rw [show offset + 16 + 16 * k = offset + 16 * (k + 1) by omega]
    · have hk : (data.length - offset) / 16 = 0 := by omega
      rw [updateLoop, if_neg hge]
      simp [hk, blocksFold]

theorem pending_length (p : Poly1305) (h : p.partial_len ≤ p.partial_buf.length) :
    p.pending.length = p.partial_len := by
  rw [Poly1305.pending, readAt_length _ _ _ (by omega)]

theorem update_view_empty (p : Poly1305) (data : List Nat) (hwf : p.WF)
    (h0 : ¬ 0 < p.partial_len) :
    (p.update data).r = p.r ∧ (p.update data).s0 = p.s0 ∧ (p.update data).s1 = p.s1 ∧
    (p.update data).acc = blocksFold p.r (data.length / 16) p.acc data ∧
    (p.update data).partial_len = data.length % 16 ∧
    (p.update data).pending = data.drop (16 * (data.length / 16)) ∧
    (p.update data).WF := by
  obtain ⟨hpl, hbuf⟩ := hwf
  have hloop := updateLoop_spec data (data.length / 16) p 0 (Nat.zero_le _) (by simp)
  simp only [Nat.sub_zero, Nat.zero_add, List.drop_zero] at hloop
  by_cases hr : 16 * (data.length / 16) < data.length
  · have hu : p.update data = Poly1305.mk p.r p.s0 p.s1
        (blocksFold p.r (data.length / 16) p.acc data)
        (writeAt p.partial_buf 0 (readAt data (16 * (data.length / 16))
          (data.length - 16 * (data.length / 16))))
        (data.length - 16 * (data.length / 16)) := by
      unfold Poly1305.update
      simp only [if_neg h0, hloop, if_pos hr]
    have hl : (readAt data (16 * (data.length / 16))
        (data.length - 16 * (data.length / 16))).length
        = data.length - 16 * (data.length / 16) := readAt_length _ _ _ (by omega)
    rw [hu]
    refine ⟨rfl, rfl, rfl, rfl, ?_, ?_, ?_, ?_⟩
    · show data.length - 16 * (data.length / 16) = data.length % 16
      omega
    · show readAt (writeAt _ 0 _) 0 _ = _
      have := readAt_writeAt_self p.partial_buf
        (readAt data (16 * (data.length / 16)) (data.length - 16 * (data.length / 16))) 0
        (Nat.zero_le _)
      rw [hl] at this
      rw [this, readAt_all _ _ _ (by omega)]
    · show data.length - 16 * (data.length / 16) < 16
      omega
    · show (writeAt _ 0 _).length = 16
      rw [writeAt_length _ _ _ (by rw [hl]; omega)]
      exact hbuf
  · have hu : p.update data = Poly1305.mk p.r p.s0 p.s1
        (blocksFold p.r (data.length / 16) p.acc data) p.partial_buf p.partial_len := by
      unfold Poly1305.update
      simp only [if_neg h0, hloop, if_neg hr]
    rw [hu]
    refine ⟨rfl, rfl, rfl, rfl, ?_, ?_, hpl, hbuf⟩
    · show p.partial_len = data.length % 16
      omega
    · show readAt p.partial_buf 0 p.partial_len = _
      rw [show p.partial_len = 0 by omega, readAt_zero_len,
        List.drop_of_length_le (by omega)]

theorem update_view_short (p : Poly1305) (data : List Nat) (hwf : p.WF)
    (h0 : 0 < p.partial_len) (hlen : data.length < 16 - p.partial_len) :
    p.update data = Poly1305.mk p.r p.s0 p.s1 p.acc
      (writeAt p.partial_buf p.partial_len data) (p.partial_len + data.length) := by
  obtain ⟨hpl, hbuf⟩ := hwf
  have hmin : min data.length (16 - p.partial_len) = data.length := by omega
  have hne : ¬ p.partial_len + data.length = 16 := by omega
  have hrd : readAt data 0 data.length = data := by simp [readAt]
  have hloop := updateLoop_spec data (data.length / 16)
    (Poly1305.mk p.r p.s0 p.s1 p.acc (writeAt p.partial_buf p.partial_len data)
      (p.partial_len + data.length)) data.length (Nat.le_refl _) (by simp)
  simp only [Nat.sub_self, Nat.zero_div, Nat.mul_zero, Nat.add_zero, blocksFold] at hloop
  unfold Poly1305.update
  simp only [if_pos h0, hmin, hrd, if_neg hne, Nat.zero_add, hloop, Nat.lt_irrefl, if_false]

theorem update_view_fill (p : Poly1305) (data : List Nat) (hwf : p.WF)
    (h0 : 0 < p.partial_len) (hlen : 16 - p.partial_len ≤ data.length) :
    p.update data =
      (Poly1305.mk p.r p.s0 p.s1
        (blockStep p.r p.acc
          (writeAt p.partial_buf p.partial_len (readAt data 0 (16 - p.partial_len))))
        (writeAt p.partial_buf p.partial_len (readAt data 0 (16 - p.partial_len))) 0).update
        (data.drop (16 - p.partial_len)) := by
  obtain ⟨hpl, hbuf⟩ := hwf
  have hmin : min data.length (16 - p.partial_len) = 16 - p.partial_len := by omega
  have heq : p.partial_len + (16 - p.partial_len) = 16 := by omega
  have hdl : (data.drop (16 - p.partial_len)).length = data.length - (16 - p.partial_len) := by
    simp
  have hloop1 := updateLoop_spec data (data.length / 16)
    (Poly1305.mk p.r p.s0 p.s1
      (blockStep p.r p.acc
        (writeAt p.partial_buf p.partial_len (readAt data 0 (16 - p.partial_len))))
      (writeAt p.partial_buf p.partial_len (readAt data 0 (16 - p.partial_len))) 0)
    (16 - p.partial_len) hlen (by omega)
  have hloop2 := updateLoop_spec (data.drop (16 - p.partial_len))
    ((data.drop (16 - p.partial_len)).length / 16)
    (Poly1305.mk p.r p.s0 p.s1
      (blockStep p.r p.acc
        (writeAt p.partial_buf p.partial_len (readAt data 0 (16 - p.partial_len))))
      (writeAt p.partial_buf p.partial_len (readAt data 0 (16 - p.partial_len))) 0)
    0 (Nat.zero_le _) (by simp)
  simp only [Nat.sub_zero, Nat.zero_add, List.drop_zero] at hloop2
  conv_rhs => unfold Poly1305.update
  simp only [Nat.lt_irrefl, if_false, hloop2]
  unfold Poly1305.update
  simp only [if_pos h0, hmin, heq, if_true, Nat.zero_add, process_block_full, hloop1]
  rw [hdl]
  by_cases hr : 16 - p.partial_len + 16 * ((data.length - (16 - p.partial_len)) / 16)
      < data.length
  · rw [if_pos hr, if_pos (by omega)]
    simp only [readAt_drop]
    rw [show data.length - (16 - p.partial_len + 16 * ((data.length - (16 - p.partial_len)) / 16))
      = data.length - (16 - p.partial_len) - 16 * ((data.length - (16 - p.partial_len)) / 16)
      by omega]
  · rw [if_neg hr, if_neg (by omega)]

/-- What `update` does, in terms of the pending bytes: with `all` the pending
bytes followed by `data`, every complete 16-byte block of `all` is absorbed and
the remainder is left pending. -/
theorem update_view (p : Poly1305) (data : List Nat) (hwf : p.WF) :
    (p.update data).r = p.r ∧ (p.update data).s0 = p.s0 ∧ (p.update data).s1 = p.s1 ∧
    (p.update data).acc
      = blocksFold p.r ((p.pending ++ data).length / 16) p.acc (p.pending ++ data) ∧
    (p.update data).partial_len = (p.pending ++ data).length % 16 ∧
    (p.update data).pending
      = (p.pending ++ data).drop (16 * ((p.pending ++ data).length / 16)) ∧
    (p.update data).WF := by
  have hwf2 := hwf
  obtain ⟨hpl, hbuf⟩ := hwf2
  have hpend : p.pending = p.partial_buf.take p.partial_len := by
    simp [Poly1305.pending, readAt]
  have hpl2 : p.pending.length = p.partial_len := pending_length p (by omega)
  by_cases h0 : 0 < p.partial_len
  · by_cases hlen : data.length < 16 - p.partial_len
    · rw [update_view_short p data hwf h0 hlen]
      have hk : (p.pending ++ data).length / 16 = 0 := by
        rw [List.length_append, hpl2]; omega
      refine ⟨rfl, rfl, rfl, ?_, ?_, ?_, ?_, ?_⟩
      · rw [hk]; rfl
      · show p.partial_len + data.length = _
        rw [List.length_append, hpl2]; omega
      · show readAt (writeAt _ _ _) 0 _ = _
        rw [readAt_writeAt_head _ _ _ (by omega), hk, hpend]
        rfl
      · show p.partial_len + data.length < 16
        omega
      · show (writeAt _ _ _).length = 16
        rw [writeAt_length _ _ _ (by omega)]
        exact hbuf
    · have hlen2 : 16 - p.partial_len ≤ data.length := by omega
      have hb1 : writeAt p.partial_buf p.partial_len (readAt data 0 (16 - p.partial_len))
          = readAt (p.pending ++ data) 0 16 := by
        have hrl : (List.take (16 - p.partial_len) data).length = 16 - p.partial_len := by
          rw [List.length_take]; omega
        have htl : (List.take p.partial_len p.partial_buf).length = p.partial_len := by
          rw [List.length_take]; omega
        simp only [writeAt, readAt, List.drop_zero, hrl, hpend]
        rw [List.drop_of_length_le (l := p.partial_buf) (by omega), List.append_nil,
          List.take_append_eq_append_take, htl,
          List.take_of_length_le (l := List.take p.partial_len p.partial_buf) (by omega)]
      have hd1 : data.drop (16 - p.partial_len) = (p.pending ++ data).drop 16 := by
        rw [List.drop_append_eq_append_drop, hpl2,
          List.drop_of_length_le (l := p.pending) (by omega), List.nil_append]
      have hdl : (data.drop (16 - p.partial_len)).length
          = data.length - (16 - p.partial_len) := by simp
      have hal : (p.pending ++ data).length = p.partial_len + data.length := by
        rw [List.length_append, hpl2]
      have hk : (p.pending ++ data).length / 16
          = (data.length - (16 - p.partial_len)) / 16 + 1 := by
        rw [hal]; omega
      rw [update_view_fill p data hwf h0 hlen2]
      have hv := update_view_empty
        (Poly1305.mk p.r p.s0 p.s1
          (blockStep p.r p.acc
            (writeAt p.partial_buf p.partial_len (readAt data 0 (16 - p.partial_len))))
          (writeAt p.partial_buf p.partial_len (readAt data 0 (16 - p.partial_len))) 0)
        (data.drop (16 - p.partial_len))
        ⟨by show 0 < 16; omega, by
          show (writeAt _ _ _).length = 16
          rw [writeAt_length _ _ _ (by rw [readAt_length _ _ _ (by omega)]; omega)]
          exact hbuf⟩
        (Nat.lt_irrefl 0)
      obtain ⟨v1, v2, v3, v4, v5, v6, v7⟩ := hv
      refine ⟨v1, v2, v3, ?_, ?_, ?_, v7⟩
      · rw [v4, hk, hdl, blocksFold, ← hb1, ← hd1]
      · rw [v5, hdl, hal]; omega
      · rw [v6, hdl, hk, hd1, List.drop_drop]
        congr 1
        omega
  · have hp0 : p.pending = [] := by
      rw [Poly1305.pending, show p.partial_len = 0 by omega, readAt_zero_len]
    rw [hp0, List.nil_append]
    exact update_view_empty p data hwf h0

theorem blocksFold_initial (r : Limbs) (k : Nat) (acc : Limbs) (xs ys : List Nat)
    (h : 16 * k ≤ xs.length) : blocksFold r k acc (xs ++ ys) = blocksFold r k acc xs := by
  induction k generalizing acc xs with
  | zero => rfl
  | succ k ih =>
    have e1 : readAt (xs ++ ys) 0 16 = readAt xs 0 16 := by
      simp only [readAt, List.drop_zero]
      rw [List.take_append_of_le_length (by omega)]
    have e2 : (xs ++ ys).drop 16 = xs.drop 16 ++ ys := by
      rw [List.drop_append_of_le_length (by omega)]
    rw [blocksFold, blocksFold, e1, e2, ih _ _ (by rw [List.length_drop]; omega)]

theorem blocksFold_add (r : Limbs) (k1 k2 : Nat) (acc : Limbs) (data : List Nat) :
    blocksFold r (k1 + k2) acc data
      = blocksFold r k2 (blocksFold r k1 acc data) (data.drop (16 * k1)) := by
  induction k1 generalizing acc data with
  | zero => simp [blocksFold]
  | succ k1 ih =>
    rw [show k1 + 1 + k2 = (k1 + k2) + 1 by omega, blocksFold, blocksFold, ih, List.drop_drop]
    congr 2
    omega

theorem same_refl (p : Poly1305) : p.same p := ⟨rfl, rfl, rfl, rfl, rfl, rfl⟩

theorem same_symm {p q : Poly1305} (h : p.same q) : q.same p := by
  obtain ⟨h1, h2, h3, h4, h5, h6⟩ := h
  exact ⟨h1.symm, h2.symm, h3.symm, h4.symm, h5.symm, h6.symm⟩

theorem same_trans {p q t : Poly1305} (h : p.same q) (g : q.same t) : p.same t := by
  obtain ⟨h1, h2, h3, h4, h5, h6⟩ := h
  obtain ⟨g1, g2, g3, g4, g5, g6⟩ := g
  exact ⟨h1.trans g1, h2.trans g2, h3.trans g3, h4.trans g4, h5.trans g5, h6.trans g6⟩

theorem update_WF (p : Poly1305) (data : List Nat) (hwf : p.WF) : (p.update data).WF :=
  (update_view p data hwf).2.2.2.2.2.2

theorem update_same {p q : Poly1305} (data : List Nat) (hp : p.WF) (hq : q.WF)
    (h : p.same q) : (p.update data).same (q.update data) := by
  obtain ⟨h1, h2, h3, h4, _, h6⟩ := h
  obtain ⟨a1, a2, a3, a4, a5, a6, _⟩ := update_view p data hp
  obtain ⟨b1, b2, b3, b4, b5, b6, _⟩ := update_view q data hq
  refine ⟨?_, ?_, ?_, ?_, ?_, ?_⟩
  · rw [a1, b1, h1]
  · rw [a2, b2, h2]
  · rw [a3, b3, h3]
  · rw [a4, b4, h1, h4, h6]
  · rw [a5, b5, h6]
  · rw [a6, b6, h6]

theorem update_nil_same (p : Poly1305) (hp : p.WF) : (p.update []).same p := by
  obtain ⟨a1, a2, a3, a4, a5, a6, _⟩ := update_view p [] hp
  have hl : p.pending.length = p.partial_len := pending_length p (by have := hp.1; have := hp.2; omega)
  have hk : (p.pending ++ []).length / 16 = 0 := by
    rw [List.append_nil, hl]; have := hp.1; omega
  rw [hk] at a4 a6
  refine ⟨a1, a2, a3, ?_, ?_, ?_⟩
  · rw [a4]; rfl
  · rw [a5, List.append_nil, hl]; have := hp.1; omega
  · rw [a6]; simp

/-- Feeding `d1` and then `d2` leaves the MAC in the same logical state as
feeding `d1 ++ d2` at once. -/
theorem update_update_same (p : Poly1305) (d1 d2 : List Nat) (hp : p.WF) :
    ((p.update d1).update d2).same (p.update (d1 ++ d2)) := by
  obtain ⟨a1, a2, a3, a4, a5, a6, a7⟩ := update_view p d1 hp
  obtain ⟨b1, b2, b3, b4, b5, b6, _⟩ := update_view (p.update d1) d2 a7
  obtain ⟨c1, c2, c3, c4, c5, c6, _⟩ := update_view p (d1 ++ d2) hp
  have hl2 : ((p.update d1).pending ++ d2).length
      = (p.pending ++ d1).length % 16 + d2.length := by
    rw [a6, List.length_append, List.length_drop]; omega
  have hl : (p.pending ++ (d1 ++ d2)).length = (p.pending ++ d1).length + d2.length := by
    simp only [List.length_append]; omega
  have hk : (p.pending ++ (d1 ++ d2)).length / 16
      = (p.pending ++ d1).length / 16 + ((p.update d1).pending ++ d2).length / 16 := by
    rw [hl, hl2]; omega
  have hdrop : (p.pending ++ (d1 ++ d2)).drop (16 * ((p.pending ++ d1).length / 16))
      = (p.update d1).pending ++ d2 := by
    rw [a6, ← List.append_assoc, List.drop_append_of_le_length (by omega)]
  refine ⟨?_, ?_, ?_, ?_, ?_, ?_⟩
  · rw [b1, a1, c1]
  · rw [b2, a2, c2]
  · rw [b3, a3, c3]
  · have hpre : blocksFold p.r ((p.pending ++ d1).length / 16) p.acc (p.pending ++ (d1 ++ d2))
        = blocksFold p.r ((p.pending ++ d1).length / 16) p.acc (p.pending ++ d1) := by
      rw [← List.append_assoc]
      exact blocksFold_initial _ _ _ (p.pending ++ d1) d2 (by omega)
    rw [b4, c4, hk, blocksFold_add, hdrop, a1, a4, hpre]
  · rw [b5, c5, hl, hl2]; omega
  · rw [b6, c6, hk, Nat.mul_add, ← List.drop_drop, hdrop]

theorem final_same {p q : Poly1305} (h : p.same q) : p.final_.2 = q.final_.2 := by
  obtain ⟨r, s0, s1, acc, buf, len⟩ := p
  obtain ⟨r2, s02, s12, acc2, buf2, len2⟩ := q
  obtain ⟨h1, h2, h3, h4, h5, h6⟩ := h
  simp only [Poly1305.pending] at h1 h2 h3 h4 h5 h6
  subst h1 h2 h3 h4 h5
  unfold Poly1305.final_
  simp only [h6, Poly1305.process_block]
  by_cases hl : 0 < len
  · simp only [if_pos hl]
  · simp only [if_neg hl]

/-! ### The AEAD composition -/

theorem new_WF (block : List Nat) : (Poly1305.new block).WF := by
  constructor
  · show 0 < 16
    omega
  · show (List.replicate 16 0).length = 16
    simp

theorem poly_pad16_same (p : Poly1305) (len : Nat) (hp : p.WF) :
    (poly_pad16 p len).same (p.update (List.replicate (padLen len) 0)) ∧
      (poly_pad16 p len).WF := by
  have hand : len &&& 15 = len % 16 := Nat.and_pow_two_sub_one_eq_mod len 4
  unfold poly_pad16
  simp only [hand]
  by_cases hr : len % 16 = 0
  · have hz : padLen len = 0 := by simp [padLen, hr]
    simp only [hr, ne_eq, not_true_eq_false, if_false, hz, List.replicate_zero]
    exact ⟨same_symm (update_nil_same p hp), hp⟩
  · have hz : padLen len = 16 - len % 16 := by
      simp only [padLen]; omega
    have hrd : readAt (List.replicate 16 0) 0 (16 - len % 16)
        = List.replicate (16 - len % 16) 0 := by
      simp only [readAt, List.drop_zero, List.take_replicate]
      congr 1
      omega
    simp only [ne_eq, hr, not_false_eq_true, if_true, hz, hrd]
    exact ⟨same_refl _, update_WF _ _ hp⟩

theorem absorb_same (p : Poly1305) (x : List Nat) (hp : p.WF) :
    (if x.length ≠ 0 then poly_pad16 (p.update x) x.length else p).same
        (p.update (x ++ List.replicate (padLen x.length) 0)) ∧
      (if x.length ≠ 0 then poly_pad16 (p.update x) x.length else p).WF := by
  by_cases hx : x.length = 0
  · have hnil : x = [] := List.length_eq_zero.mp hx
    subst hnil
    simp only [List.length_nil, ne_eq, not_true_eq_false, if_false, List.nil_append]
    have hz : padLen 0 = 0 := by simp [padLen]
    rw [hz, List.replicate_zero]
    exact ⟨same_symm (update_nil_same p hp), hp⟩
  · simp only [ne_eq, hx, not_false_eq_true, if_true]
    obtain ⟨h1, h2⟩ := poly_pad16_same (p.update x) x.length (update_WF _ _ hp)
    exact ⟨same_trans h1 (update_update_same p x _ hp), h2⟩

/-- The tag computed by the update sequence of `encrypt` and `decrypt` is the
tag of a single `update` over the concatenated byte string. -/
theorem mac_sequence_eq (p : Poly1305) (aad ct : List Nat) (hp : p.WF) :
    macLengthsFinal
        (if ct.length ≠ 0 then
          poly_pad16 ((if aad.length ≠ 0 then poly_pad16 (p.update aad) aad.length else p).update
            ct) ct.length
         else (if aad.length ≠ 0 then poly_pad16 (p.update aad) aad.length else p))
        aad.length ct.length
      = ((p.update (macData aad ct)).final_).2 := by
  obtain ⟨a1, a2⟩ := absorb_same p aad hp
  obtain ⟨b1, b2⟩ := absorb_same
    (if aad.length ≠ 0 then poly_pad16 (p.update aad) aad.length else p) ct a2
  have hq := update_WF p (aad ++ List.replicate (padLen aad.length) 0) hp
  have s2 := same_trans b1 (update_same (ct ++ List.replicate (padLen ct.length) 0) a2 hq a1)
  have s3 := same_trans s2 (update_update_same p _ _ hp)
  have w3 := update_WF p
    (aad ++ List.replicate (padLen aad.length) 0 ++ (ct ++ List.replicate (padLen ct.length) 0))
    hp
  have s4 := same_trans (update_same (le64 aad.length) b2 w3 s3) (update_update_same p _ _ hp)
  have w4 := update_WF p
    (aad ++ List.replicate (padLen aad.length) 0 ++ (ct ++ List.replicate (padLen ct.length) 0)
      ++ le64 aad.length) hp
  have s5 := same_trans (update_same (le64 ct.length) (update_WF _ _ b2) w4 s4)
    (update_update_same p _ _ hp)
  have := final_same s5
  simp only [macLengthsFinal, u64]
  simp only [le64] at this
  rw [this, macData]
  simp only [le64, List.append_assoc]

theorem xorBytes_zeros (n : Nat) (ks : List Nat) (h : n ≤ ks.length) :
    xorBytes (List.replicate n 0) ks = ks.take n := by
  induction n generalizing ks with
  | zero => simp [xorBytes]
  | succ n ih =>
    cases ks with
    | nil => simp at h
    | cons k ks =>
      simp only [xorBytes, List.replicate_succ, List.zipWith_cons_cons, List.take_succ_cons,
        Nat.zero_xor, List.cons.injEq, true_and]
      exact ih ks (by simpa using h)

theorem polyKeyGen_spec (c : ChaCha20) :
    polyKeyGen c = Except.ok (c.set_counter 1, Poly1305.new (KS c 0)) := by
  unfold polyKeyGen
  simp only []
  rw [process_spec _ _ _ (by simp) (by simp)]
  simp only [List.length_replicate]
  have h1 : (64 + 63) / 64 = 1 := by decide
  rw [h1, advance_set_counter 1 c 0]
  have hs : stream 1 (c.set_counter 0) = KS c 0 := by
    simp [stream, KS]
  have hl : (KS c 0).length = 64 := keyBlock_length _
  rw [hs, xorBytes_zeros 64 _ (by omega), List.take_of_length_le (by omega)]
  simp

theorem KS_set_counter (c : ChaCha20) (j k : Nat) : KS (c.set_counter j) k = KS c k := by
  simp only [KS, set_counter_set_counter]

/-- The steps of `encrypt` on a non-empty plaintext and a large enough output
buffer. -/
theorem encrypt_spec (c : ChaCha20) (plaintext aad output : List Nat)
    (h1 : 0 < plaintext.length) (h2 : plaintext.length ≤ output.length) :
    encrypt c plaintext aad output =
      Except.ok (c.set_counter (1 + (plaintext.length + 63) / 64),
        xorBytes plaintext (stream ((plaintext.length + 63) / 64) (c.set_counter 1))
          ++ output.drop plaintext.length,
        polyTag (KS c 0) (macData aad
          (xorBytes plaintext (stream ((plaintext.length + 63) / 64) (c.set_counter 1))))) := by
  have hxl : (xorBytes plaintext
      (stream ((plaintext.length + 63) / 64) (c.set_counter 1))).length = plaintext.length := by
    rw [xorBytes_length, stream_length]; omega
  unfold encrypt
  rw [polyKeyGen_spec]
  simp only [set_counter_set_counter]
  rw [process_spec _ _ _ h1 h2]
  simp only [advance_set_counter]
  have hrd : readAt (xorBytes plaintext
        (stream ((plaintext.length + 63) / 64) (c.set_counter 1))
        ++ output.drop plaintext.length) 0 plaintext.length
      = xorBytes plaintext (stream ((plaintext.length + 63) / 64) (c.set_counter 1)) := by
    simp only [readAt, List.drop_zero]
    rw [List.take_append_of_le_length (by omega), List.take_of_length_le (by omega)]
  rw [hrd]
  have hm := mac_sequence_eq (Poly1305.new (KS c 0)) aad
    (xorBytes plaintext (stream ((plaintext.length + 63) / 64) (c.set_counter 1)))
    (new_WF _)
  rw [hxl] at hm
  have hne : plaintext.length ≠ 0 := by omega
  simp only [hne, ne_eq, not_false_eq_true, if_true] at hm ⊢
  rw [hm, polyTag]

/-- The tag that `decrypt` computes. -/
theorem decryptTag_spec (c : ChaCha20) (ciphertext aad : List Nat) :
    decryptTag c ciphertext aad =
      Except.ok (c.set_counter 1, polyTag (KS c 0) (macData aad ciphertext)) := by
  unfold decryptTag
  rw [polyKeyGen_spec]
  simp only []
  rw [mac_sequence_eq _ _ _ (new_WF _), polyTag]

/-! ### Tag comparison -/

theorem nat_or_eq_zero (a b : Nat) : a ||| b = 0 ↔ a = 0 ∧ b = 0 := by
  constructor
  · intro h
    have ht : ∀ i, (a.testBit i || b.testBit i) = false := by
      intro i
      rw [← Nat.testBit_or, h, Nat.zero_testBit]
    constructor
    · apply Nat.eq_of_testBit_eq
      intro i
      have := ht i
      rw [Nat.zero_testBit]
      cases hx : a.testBit i <;> simp_all
    · apply Nat.eq_of_testBit_eq
      intro i
      have := ht i
      rw [Nat.zero_testBit]
      cases hx : b.testBit i <;> simp_all
  · rintro ⟨rfl, rfl⟩
    rfl

/-- The accumulator `diff` of `constant_time_compare` after `n` iterations. -/
theorem ctc_fold (a b : List Nat) (ha : ∀ x ∈ a, x < 256) (hb : ∀ x ∈ b, x < 256) (n : Nat) :
    (List.range n).foldl (fun diff i => (diff ||| (a.getD i 0 ^^^ b.getD i 0)) % 256) 0 < 256 ∧
    ((List.range n).foldl (fun diff i => (diff ||| (a.getD i 0 ^^^ b.getD i 0)) % 256) 0 = 0
      ↔ ∀ i, i < n → a.getD i 0 = b.getD i 0) := by
  have hget : ∀ (l : List Nat), (∀ x ∈ l, x < 256) → ∀ i, l.getD i 0 < 256 := by
    intro l hl i
    rw [List.getD_eq_getElem?_getD]
    cases h : l[i]? with
    | none => simp
    | some v => exact hl v (List.getElem?_mem h)
  induction n with
  | zero => simp
  | succ n ih =>
    obtain ⟨ih1, ih2⟩ := ih
    rw [List.range_succ, List.foldl_append]
    simp only [List.foldl_cons, List.foldl_nil]
    have hx : a.getD n 0 ^^^ b.getD n 0 < 2 ^ 8 :=
      Nat.xor_lt_two_pow (hget a ha n) (hget b hb n)
    have hor := Nat.or_lt_two_pow (x := (List.range n).foldl
      (fun diff i => (diff ||| (a.getD i 0 ^^^ b.getD i 0)) % 256) 0) (n := 8) ih1 hx
    rw [Nat.mod_eq_of_lt hor]
    refine ⟨hor, ?_⟩
    rw [nat_or_eq_zero, ih2, Nat.xor_eq_zero]
    constructor
    · rintro ⟨h1, h2⟩ i hi
      by_cases hin : i < n
      · exact h1 i hin
      · rw [show i = n by omega]; exact h2
    · intro h
      exact ⟨fun i hi => h i (by omega), h n (by omega)⟩

theorem constant_time_compare_iff (a b : List Nat) (hla : a.length = 16) (hlb : b.length = 16)
    (ha : ∀ x ∈ a, x < 256) (hb : ∀ x ∈ b, x < 256) :
    constant_time_compare a b 16 = true ↔ a = b := by
  unfold constant_time_compare
  rw [beq_iff_eq, (ctc_fold a b ha hb 16).2]
  constructor
  · intro h
    apply List.ext_getElem (by rw [hla, hlb])
    intro i h1 h2
    have := h i (by omega)
    rw [List.getD_eq_getElem?_getD, List.getD_eq_getElem?_getD,
      List.getElem?_eq_getElem h1, List.getElem?_eq_getElem h2] at this
    simpa using this
  · rintro rfl i _
    rfl

theorem constant_time_compare_self (a : List Nat) (n : Nat) :
    constant_time_compare a a n = true := by
  unfold constant_time_compare
  rw [beq_iff_eq]
  induction n with
  | zero => rfl
  | succ n ih =>
    rw [List.range_succ, List.foldl_append, ih]
    simp

theorem leBytes_lt (n x : Nat) : ∀ b ∈ leBytes n x, b < 256 := by
  induction n generalizing x with
  | zero => simp [leBytes]
  | succ n ih =>
    intro b hb
    simp only [leBytes, List.mem_cons] at hb
    rcases hb with rfl | hb
    · omega
    · exact ih _ b hb

theorem final_tag_form (p : Poly1305) :
    ∃ low high, p.final_.2 = leBytes 8 low ++ leBytes 8 high := by
  unfold Poly1305.final_
  simp only [carryStep]
  exact ⟨_, _, rfl⟩

theorem final_tag_length (p : Poly1305) : p.final_.2.length = 16 := by
  obtain ⟨low, high, h⟩ := final_tag_form p
  rw [h, List.length_append, leBytes_length, leBytes_length]

theorem final_tag_bytes (p : Poly1305) : ∀ b ∈ p.final_.2, b < 256 := by
  obtain ⟨low, high, h⟩ := final_tag_form p
  rw [h]
  intro b hb
  rcases List.mem_append.mp hb with hb | hb
  · exact leBytes_lt _ _ b hb
  · exact leBytes_lt _ _ b hb

theorem flipBit_ne (t : List Nat) (i : Nat) (ht : t.length = 16) (hi : i < 128) :
    flipBit t i ≠ t := by
  intro h
  have hlt : i / 8 < t.length := by omega
  have h2 : (flipBit t i)[i / 8]? = t[i / 8]? := by rw [h]
  simp only [flipBit, List.getD_eq_getElem?_getD] at h2
  rw [List.getElem?_set_self hlt, List.getElem?_eq_getElem hlt] at h2
  simp only [Option.getD_some, Option.some.injEq] at h2
  have h3 : t[i / 8] ^^^ 2 ^ (i % 8) ^^^ t[i / 8] = 0 := Nat.xor_eq_zero.mpr h2
  rw [Nat.xor_comm, ← Nat.xor_assoc, Nat.xor_self, Nat.zero_xor] at h3
  have : 0 < 2 ^ (i % 8) := Nat.two_pow_pos _
  omega

theorem flipBit_length (t : List Nat) (i : Nat) : (flipBit t i).length = t.length := by
  simp [flipBit]

theorem flipBit_bytes (t : List Nat) (i : Nat) (ht : ∀ b ∈ t, b < 256) :
    ∀ b ∈ flipBit t i, b < 256 := by
  intro b hb
  simp only [flipBit] at hb
  rcases List.mem_or_eq_of_mem_set hb with h | h
  · exact ht b h
  · rw [h]
    have h1 : t.getD (i / 8) 0 < 2 ^ 8 := by
      rw [List.getD_eq_getElem?_getD]
      cases hv : t[i / 8]? with
      | none => simp
      | some v => exact ht v (List.getElem?_mem hv)
    have h2 : 2 ^ (i % 8) < 2 ^ 8 := Nat.pow_lt_pow_right (by decide) (Nat.mod_lt _ (by decide))
    exact Nat.xor_lt_two_pow h1 h2

/-! ### The claims -/

theorem process_ok (c : ChaCha20) (input output : List Nat) (h : 0 < input.length) :
    ∃ r, c.process (some input) (some output) = Except.ok r := by
  unfold ChaCha20.process
  simp only []
  rw [if_neg (by omega)]
  exact ⟨_, rfl⟩

theorem decrypt_spec (c : ChaCha20) (ciphertext aad received_tag output : List Nat)
    (h1 : 0 < ciphertext.length) (ht : received_tag.length = 16)
    (hb : ∀ b ∈ received_tag, b < 256) :
    ∃ c2 verdict out2, decrypt c ciphertext aad received_tag output
        = Except.ok (c2, verdict, out2) ∧
      (verdict = true ↔ received_tag = polyTag (KS c 0) (macData aad ciphertext)) := by
  unfold decrypt
  rw [decryptTag_spec]
  simp only []
  have hiff := constant_time_compare_iff (polyTag (KS c 0) (macData aad ciphertext))
    received_tag (final_tag_length _) ht (final_tag_bytes _) hb
  by_cases hcmp : constant_time_compare (polyTag (KS c 0) (macData aad ciphertext))
      received_tag 16 = true
  · obtain ⟨r, hr⟩ := process_ok ((c.set_counter 1).set_counter 1) ciphertext output h1
    simp only [hcmp, Bool.not_true, Bool.false_eq_true, if_false, hr]
    exact ⟨r.1, true, r.2, rfl, by simp [(hiff.mp hcmp).symm]⟩
  · simp only [Bool.not_eq_true] at hcmp
    simp only [hcmp, Bool.not_false, if_true]
    refine ⟨_, false, _, rfl, ?_⟩
    constructor
    · intro h; cases h
    · intro h
      have := hiff.mpr h.symm
      rw [hcmp] at this
      cases this

/-- C1. AEAD round trip: for every cipher state (hence every key and nonce),
every associated data `A` and every plaintext `M` of at least one byte,
`encrypt` returns a ciphertext and a tag, and `decrypt` on the same cipher, that
ciphertext, `A` and that tag returns `true` and stores exactly `M` at the start
of its output buffer (the bytes of the buffer past `M` are left as they were). -/
theorem aead_round_trip (c : ChaCha20) (M A out out2 : List Nat)
    (hM : 1 ≤ M.length) (hout : M.length ≤ out.length) (hout2 : M.length ≤ out2.length) :
    ∃ c1 out1 T, encrypt c M A out = Except.ok (c1, out1, T) ∧
      ∃ c2, decrypt c1 (readAt out1 0 M.length) A T out2
        = Except.ok (c2, true, M ++ out2.drop M.length) := by
  have hxl : (xorBytes M (stream ((M.length + 63) / 64) (c.set_counter 1))).length
      = M.length := by
    rw [xorBytes_length, stream_length]; omega
  have hrd : readAt (xorBytes M (stream ((M.length + 63) / 64) (c.set_counter 1))
        ++ out.drop M.length) 0 M.length
      = xorBytes M (stream ((M.length + 63) / 64) (c.set_counter 1)) := by
    simp only [readAt, List.drop_zero]
    rw [List.take_append_of_le_length (by omega), List.take_of_length_le (by omega)]
  refine ⟨_, _, _, encrypt_spec c M A out hM hout, ?_⟩
  rw [hrd]
  unfold decrypt
  rw [decryptTag_spec]
  simp only [KS_set_counter, constant_time_compare_self, Bool.not_true, Bool.false_eq_true,
    if_false, set_counter_set_counter]
  rw [process_spec _ _ _ (by rw [hxl]; exact hM) (by rw [hxl]; exact hout2)]
  rw [hxl, xorBytes_xorBytes _ _ (by rw [stream_length]; omega)]
  exact ⟨_, rfl⟩

theorem new_take32 (block : List Nat) : Poly1305.new (block.take 32) = Poly1305.new block := by
  have hg : ∀ i, i < 32 → (block.take 32).getD i 0 = block.getD i 0 := by
    intro i hi
    rw [List.getD_eq_getElem?_getD, List.getD_eq_getElem?_getD, List.getElem?_take_of_lt hi]
  have hr1 : readAt (block.take 32) 16 8 = readAt block 16 8 := by
    simp only [readAt, List.drop_take, List.take_take]
    rfl
  have hr2 : readAt (block.take 32) 24 8 = readAt block 24 8 := by
    simp only [readAt, List.drop_take, List.take_take]
    rfl
  unfold Poly1305.new
  simp only [hr1, hr2, hg 0 (by decide), hg 1 (by decide), hg 2 (by decide), hg 3 (by decide),
    hg 4 (by decide), hg 5 (by decide), hg 6 (by decide), hg 7 (by decide), hg 8 (by decide),
    hg 9 (by decide), hg 10 (by decide), hg 11 (by decide), hg 12 (by decide),
    hg 13 (by decide), hg 14 (by decide), hg 15 (by decide)]

/-- C2. `encrypt` implements the RFC 8439 AEAD construction: for every cipher
state (hence every key and nonce), every associated data `A` and every
plaintext `P` of `n ≥ 1` bytes, `encrypt` returns a ciphertext `C` with
`C[i] = P[i] XOR KS(1 + i / 64)[i % 64]` for all `i < n`, and the tag is the
repository's Poly1305 (constructor, `update`, `final_`) keyed with the first 32
bytes of `KS(0)` over
`A ‖ zeros((16 - a % 16) % 16) ‖ C ‖ zeros((16 - n % 16) % 16) ‖ le64(a) ‖ le64(n)`. -/
theorem encrypt_is_rfc8439_construction (c : ChaCha20) (P A out : List Nat)
    (hP : 1 ≤ P.length) (hout : P.length ≤ out.length) :
    ∃ c1 out1 tag, encrypt c P A out = Except.ok (c1, out1, tag) ∧
      (∀ i, i < P.length →
        out1.getD i 0 = P.getD i 0 ^^^ (KS c (1 + i / 64)).getD (i % 64) 0) ∧
      tag = (((Poly1305.new ((KS c 0).take 32)).update
          (A ++ List.replicate ((16 - A.length % 16) % 16) 0
            ++ readAt out1 0 P.length ++ List.replicate ((16 - P.length % 16) % 16) 0
            ++ leBytes 8 (A.length % 2 ^ 64) ++ leBytes 8 (P.length % 2 ^ 64))).final_).2 := by
  have hxl : (xorBytes P (stream ((P.length + 63) / 64) (c.set_counter 1))).length
      = P.length := by
    rw [xorBytes_length, stream_length]; omega
  have hrd : readAt (xorBytes P (stream ((P.length + 63) / 64) (c.set_counter 1))
        ++ out.drop P.length) 0 P.length
      = xorBytes P (stream ((P.length + 63) / 64) (c.set_counter 1)) := by
    simp only [readAt, List.drop_zero]
    rw [List.take_append_of_le_length (by omega), List.take_of_length_le (by omega)]
  refine ⟨_, _, _, encrypt_spec c P A out hP hout, ?_, ?_⟩
  · intro i hi
    rw [List.getD_append _ _ _ _ (by rw [hxl]; exact hi),
      xorBytes_getD _ _ _ hi (by rw [stream_length]; omega),
      stream_getD _ _ _ (by omega), advance_set_counter]
    rfl
  · rw [hrd, new_take32]
    simp only [polyTag, macData, padLen, le64, hxl]
    rfl

/-- C3. The verdict of `decrypt` is exactly tag equality: for every cipher
state, associated data, ciphertext of at least one byte and received tag of 16
bytes, `decrypt` returns `true` if and only if the received tag equals the
Poly1305 tag over (AAD, ciphertext, lengths); and for the ciphertext and tag
that `encrypt` produced, flipping any one of the 128 bits of the tag makes
`decrypt` return `false`. -/
theorem decrypt_verdict_is_tag_equality (c : ChaCha20) (A : List Nat) :
    (∀ C T out : List Nat, 1 ≤ C.length → T.length = 16 → (∀ b ∈ T, b < 256) →
      ∃ c2 verdict out2, decrypt c C A T out = Except.ok (c2, verdict, out2) ∧
        (verdict = true ↔ T = polyTag (KS c 0) (macData A C))) ∧
    (∀ (M out out2 : List Nat) (i : Nat), 1 ≤ M.length → M.length ≤ out.length → i < 128 →
      ∃ c1 out1 T, encrypt c M A out = Except.ok (c1, out1, T) ∧
        ∃ c2 out3, decrypt c1 (readAt out1 0 M.length) A (flipBit T i) out2
          = Except.ok (c2, false, out3)) := by
  constructor
  · intro C T out hC hT hb
    exact decrypt_spec c C A T out hC hT hb
  · intro M out out2 i hM hout hi
    have hxl : (xorBytes M (stream ((M.length + 63) / 64) (c.set_counter 1))).length
        = M.length := by
      rw [xorBytes_length, stream_length]; omega
    have hrd : readAt (xorBytes M (stream ((M.length + 63) / 64) (c.set_counter 1))
          ++ out.drop M.length) 0 M.length
        = xorBytes M (stream ((M.length + 63) / 64) (c.set_counter 1)) := by
      simp only [readAt, List.drop_zero]
      rw [List.take_append_of_le_length (by omega), List.take_of_length_le (by omega)]
    refine ⟨_, _, _, encrypt_spec c M A out hM hout, ?_⟩
    rw [hrd]
    obtain ⟨c2, verdict, out3, hd, hv⟩ := decrypt_spec
      (c.set_counter (1 + (M.length + 63) / 64))
      (xorBytes M (stream ((M.length + 63) / 64) (c.set_counter 1))) A
      (flipBit (polyTag (KS c 0) (macData A
        (xorBytes M (stream ((M.length + 63) / 64) (c.set_counter 1))))) i) out2
      (by rw [hxl]; exact hM)
      (by rw [flipBit_length]; exact final_tag_length _)
      (flipBit_bytes _ _ (final_tag_bytes _))
    rw [KS_set_counter] at hv
    have hne := flipBit_ne (polyTag (KS c 0) (macData A
      (xorBytes M (stream ((M.length + 63) / 64) (c.set_counter 1))))) i
      (final_tag_length _) hi
    have hf : verdict = false := by
      cases verdict with
      | false => rfl
      | true => exact absurd (hv.mp rfl) hne
    rw [hf] at hd
    exact ⟨c2, out3, hd⟩

/-- C4. Decrypt-after-verify: whenever `decrypt` returns `false`, the output
buffer after the call is the output buffer before the call. -/
theorem decrypt_failure_leaves_output (c : ChaCha20) (C A T out : List Nat)
    (c2 : ChaCha20) (out2 : List Nat)
    (h : decrypt c C A T out = Except.ok (c2, false, out2)) : out2 = out := by
  unfold decrypt at h
  rw [decryptTag_spec] at h
  simp only [] at h
  by_cases hcmp : constant_time_compare (polyTag (KS c 0) (macData A C)) T 16 = true
  · simp only [hcmp, Bool.not_true, Bool.false_eq_true, if_false] at h
    cases hp : ((c.set_counter 1).set_counter 1).process (some C) (some out) with
    | error e => rw [hp] at h; cases h
    | ok r =>
      rw [hp] at h
      simp only [Except.ok.injEq, Prod.mk.injEq] at h
      exact absurd h.2.1 (by decide)
  · simp only [Bool.not_eq_true] at hcmp
    simp only [hcmp, Bool.not_false, if_true, Except.ok.injEq, Prod.mk.injEq] at h
    exact h.2.2.symm

/-- Witness of C1 at the cipher of RFC 8439 §2.8.2 with a three-byte message. -/
theorem aead_round_trip_witness :
    1 ≤ ([1, 2, 3] : List Nat).length ∧
    ([1, 2, 3] : List Nat).length ≤ ([0, 0, 0] : List Nat).length ∧
    ([1, 2, 3] : List Nat).length ≤ ([7, 7, 7, 7] : List Nat).length ∧
    ∃ c1 out1 T, encrypt rfc282Cipher [1, 2, 3] [9] [0, 0, 0] = Except.ok (c1, out1, T) ∧
      ∃ c2, decrypt c1 (readAt out1 0 ([1, 2, 3] : List Nat).length) [9] T [7, 7, 7, 7]
        = Except.ok (c2, true, [1, 2, 3] ++ List.drop ([1, 2, 3] : List Nat).length [7, 7, 7, 7]) :=
  ⟨by decide, by decide, by decide,
    aead_round_trip rfc282Cipher [1, 2, 3] [9] [0, 0, 0] [7, 7, 7, 7]
      (by decide) (by decide) (by decide)⟩

/-- Witness of C2 at the cipher of RFC 8439 §2.8.2 with a three-byte message. -/
theorem encrypt_is_rfc8439_construction_witness :
    1 ≤ ([1, 2, 3] : List Nat).length ∧
    ([1, 2, 3] : List Nat).length ≤ ([0, 0, 0] : List Nat).length ∧
    ∃ c1 out1 tag, encrypt rfc282Cipher [1, 2, 3] [9] [0, 0, 0] = Except.ok (c1, out1, tag) ∧
      (∀ i, i < ([1, 2, 3] : List Nat).length →
        out1.getD i 0
          = ([1, 2, 3] : List Nat).getD i 0 ^^^ (KS rfc282Cipher (1 + i / 64)).getD (i % 64) 0) ∧
      tag = (((Poly1305.new ((KS rfc282Cipher 0).take 32)).update
          ([9] ++ List.replicate ((16 - ([9] : List Nat).length % 16) % 16) 0
            ++ readAt out1 0 ([1, 2, 3] : List Nat).length
            ++ List.replicate ((16 - ([1, 2, 3] : List Nat).length % 16) % 16) 0
            ++ leBytes 8 (([9] : List Nat).length % 2 ^ 64)
            ++ leBytes 8 (([1, 2, 3] : List Nat).length % 2 ^ 64))).final_).2 :=
  ⟨by decide, by decide,
    encrypt_is_rfc8439_construction rfc282Cipher [1, 2, 3] [9] [0, 0, 0] (by decide) (by decide)⟩

/-- Witness of C3: the verdict on the all-zero tag for a one-byte ciphertext,
and a flipped bit of the tag of a three-byte message. -/
theorem decrypt_verdict_is_tag_equality_witness :
    (1 ≤ ([5] : List Nat).length ∧ (List.replicate 16 0).length = 16 ∧
      (∀ b ∈ List.replicate 16 0, b < 256) ∧
      ∃ c2 verdict out2, decrypt rfc282Cipher [5] [9] (List.replicate 16 0) [0]
          = Except.ok (c2, verdict, out2) ∧
        (verdict = true ↔ List.replicate 16 0 = polyTag (KS rfc282Cipher 0) (macData [9] [5]))) ∧
    (1 ≤ ([1, 2, 3] : List Nat).length ∧
      ([1, 2, 3] : List Nat).length ≤ ([0, 0, 0] : List Nat).length ∧ 77 < 128 ∧
      ∃ c1 out1 T, encrypt rfc282Cipher [1, 2, 3] [9] [0, 0, 0] = Except.ok (c1, out1, T) ∧
        ∃ c2 out3, decrypt c1 (readAt out1 0 ([1, 2, 3] : List Nat).length) [9] (flipBit T 77)
          [7, 7, 7] = Except.ok (c2, false, out3)) :=
  ⟨⟨by decide, by decide, by decide,
      (decrypt_verdict_is_tag_equality rfc282Cipher [9]).1 [5] (List.replicate 16 0) [0]
        (by decide) (by decide) (by decide)⟩,
    ⟨by decide, by decide, by decide,
      (decrypt_verdict_is_tag_equality rfc282Cipher [9]).2 [1, 2, 3] [0, 0, 0] [7, 7, 7] 77
        (by decide) (by decide) (by decide)⟩⟩

set_option maxRecDepth 100000 in
/-- A rejected call of `decrypt`: the all-zero tag on a one-byte ciphertext. -/
theorem decrypt_rejects_zero_tag :
    decrypt rfc282Cipher [5] [9] (List.replicate 16 0) [7, 7]
      = Except.ok (rfc282Cipher.set_counter 1, false, [7, 7]) := by
  decide!

/-- Witness of C4 at the rejected call `decrypt_rejects_zero_tag`. -/
theorem decrypt_failure_leaves_output_witness :
    decrypt rfc282Cipher [5] [9] (List.replicate 16 0) [7, 7]
        = Except.ok (rfc282Cipher.set_counter 1, false, [7, 7]) ∧
      ([7, 7] : List Nat) = [7, 7] :=
  ⟨decrypt_rejects_zero_tag,
    decrypt_failure_leaves_output rfc282Cipher [5] [9] (List.replicate 16 0) [7, 7]
      (rfc282Cipher.set_counter 1) [7, 7] decrypt_rejects_zero_tag⟩

set_option maxRecDepth 100000 in
/-- C5. RFC 8439 §2.8.2: with key bytes `80..9f` and the nonce
`07 00 00 00 40 41 42 43 44 45 46 47` loaded as little-endian words, the AAD
`50 51 52 53 c0 c1 c2 c3 c4 c5 c6 c7` and the 114-byte plaintext, `encrypt`
produces the 114-byte ciphertext of the RFC and the tag
`1a e1 0b 59 4f 09 e2 6a 7e 90 2e cb d0 60 06 91`. -/
theorem rfc8439_aead_vector :
    ChaCha20.new (some (_8bitarray_to32bitarray rfc282Key 32))
        (some (_8bitarray_to32bitarray rfc282Nonce 12)) = Except.ok rfc282Cipher ∧
    encrypt rfc282Cipher sunscreen rfc282Aad (List.replicate 114 0)
      = Except.ok (rfc282Cipher.set_counter 3, rfc282Ciphertext, rfc282Tag) := by
  decide!

/-- C6, as the code behaves: `encrypt` on a zero-length plaintext throws
`invalid_argument` (from `process`), with any associated data and from any
cipher state; no tag is produced. -/
theorem encrypt_empty_plaintext_throws (c : ChaCha20) (aad output : List Nat) :
    encrypt c [] aad output = Except.error Error.invalidArgument := by
  unfold encrypt
  rw [polyKeyGen_spec]
  rfl

set_option maxRecDepth 100000 in
/-- C7, as the code behaves: with `r = 1`, `s = 0` and two blocks whose values
add up to `2^130 - 5`, `final_` writes `fb ff .. ff` (the unreduced accumulator
`2^130 - 5` modulo `2^128`), while the reference formula gives the all-zero
tag. -/
theorem final_skips_reduction :
    polyTag unreducedKey unreducedMsg
        = [0xfb, 0xff, 0xff, 0xff, 0xff, 0xff, 0xff, 0xff,
           0xff, 0xff, 0xff, 0xff, 0xff, 0xff, 0xff, 0xff] ∧
      rfcPoly1305 unreducedKey unreducedMsg = List.replicate 16 0 ∧
      polyTag unreducedKey unreducedMsg ≠ rfcPoly1305 unreducedKey unreducedMsg := by
  decide!

set_option maxRecDepth 100000 in
/-- C8. RFC 8439 §2.5.2: the MAC constructed from the key `85 d6 be 78 ..`,
updated with "Cryptographic Forum Research Group" and finalized yields the tag
`a8 06 1d c1 30 51 36 c6 c2 2b 8b af 0c 01 27 a9`. -/
theorem rfc8439_poly1305_vector :
    (((Poly1305.new rfc252Key).update rfc252Msg).final_).2 = rfc252Tag := by
  decide!

set_option maxRecDepth 100000 in
/-- C9. RFC 8439 §2.3.2: with key bytes `00..1f` and the nonce
`00 00 00 09 00 00 00 4a 00 00 00 00` loaded as little-endian words and the
counter set to 1, processing 64 zero bytes yields the 64-byte keystream block
of the RFC, beginning `10 f1 e7 e4 d1 3b 59 15 50 0f dd 1f a3 20 71 c4`. -/
theorem rfc8439_block_vector :
    ((ChaCha20.init (_8bitarray_to32bitarray rfcKey 32)
        (_8bitarray_to32bitarray rfc232Nonce 12)).set_counter 1).process
        (some (List.replicate 64 0)) (some (List.replicate 64 0))
      = Except.ok ((ChaCha20.init (_8bitarray_to32bitarray rfcKey 32)
          (_8bitarray_to32bitarray rfc232Nonce 12)).set_counter 2, rfc232Block) ∧
    rfc232Block.take 16 = [0x10, 0xf1, 0xe7, 0xe4, 0xd1, 0x3b, 0x59, 0x15,
      0x50, 0x0f, 0xdd, 0x1f, 0xa3, 0x20, 0x71, 0xc4] := by
  decide!

set_option maxRecDepth 100000 in
/-- C10. RFC 8439 §2.4.2: with key bytes `00..1f`, the nonce
`00 00 00 00 00 00 00 4a 00 00 00 00` and the counter set to 1, `process` on the
114-byte plaintext outputs the 114-byte ciphertext of the RFC, beginning
`6e 2e 35 9a 25 68 f9 80` and ending `87 4d`. -/
theorem rfc8439_encryption_vector :
    ((ChaCha20.init (_8bitarray_to32bitarray rfcKey 32)
        (_8bitarray_to32bitarray rfc242Nonce 12)).set_counter 1).process
        (some sunscreen) (some (List.replicate 114 0))
      = Except.ok ((ChaCha20.init (_8bitarray_to32bitarray rfcKey 32)
          (_8bitarray_to32bitarray rfc242Nonce 12)).set_counter 3, rfc242Ciphertext) ∧
    rfc242Ciphertext.take 8 = [0x6e, 0x2e, 0x35, 0x9a, 0x25, 0x68, 0xf9, 0x80] ∧
    rfc242Ciphertext.drop 112 = [0x87, 0x4d] := by
  decide!

/-! ### The cipher state across calls -/

theorem processLoop_state (input : List Nat) :
    ∀ (fuel : Nat) (c : ChaCha20) (output : List Nat) (offset : Nat),
      offset ≤ input.length → (input.length - offset) / 64 ≤ fuel →
      (processLoop fuel c input output offset).1 = advance ((input.length - offset) / 64) c ∧
      (processLoop fuel c input output offset).2.2
        = offset + 64 * ((input.length - offset) / 64) := by
  intro fuel
  induction fuel with
  | zero =>
    intro c output offset _ hf
    have hk : (input.length - offset) / 64 = 0 := by omega
    simp [processLoop, hk, advance]
  | succ fuel ih =>
    intro c output offset ho hf
    by_cases hge : 64 ≤ input.length - offset
    · obtain ⟨k, hk⟩ : ∃ k, (input.length - offset) / 64 = k + 1 :=
        ⟨(input.length - offset) / 64 - 1, by omega⟩
      have hk2 : (input.length - (offset + 64)) / 64 = k := by omega
      rw [processLoop, if_pos hge, blockFunction_eq]
      simp only []
      obtain ⟨i1, i2⟩ := ih c.next
        (process256_chunk input (offset + 32)
          (process256_chunk input offset output offset c.keyBlock 0) (offset + 32)
          c.keyBlock 32) (offset + 64) (by omega) (by omega)
      rw [i1, i2, hk2, hk, advance]
      exact ⟨rfl, by omega⟩
    · have hk : (input.length - offset) / 64 = 0 := by omega
      rw [processLoop, if_neg hge]
      simp [hk, advance]

theorem processTail_state (c : ChaCha20) (input output : List Nat) (offset : Nat) :
    (processTail c input output offset).1 = if offset < input.length then c.next else c := by
  unfold processTail
  by_cases h : offset < input.length
  · rw [if_pos h, if_pos h, blockFunction_eq]
  · rw [if_neg h, if_neg h]

/-- The cipher after a successful `process`: one `blockFunction` call per
started 64-byte block, whatever the output buffer. -/
theorem process_state (c : ChaCha20) (input output : List Nat) (h1 : 0 < input.length) :
    ∃ out1, c.process (some input) (some output)
      = Except.ok (advance ((input.length + 63) / 64) c, out1) := by
  obtain ⟨l1, l2⟩ := processLoop_state input (input.length / 64) c output 0
    (Nat.zero_le _) (by simp)
  simp only [Nat.sub_zero, Nat.zero_add] at l1 l2
  unfold ChaCha20.process
  simp only []
  rw [if_neg (by omega)]
  refine ⟨(processTail (processLoop (input.length / 64) c input output 0).1 input
    (processLoop (input.length / 64) c input output 0).2.1
    (processLoop (input.length / 64) c input output 0).2.2).2, ?_⟩
  congr 1
  apply Prod.ext
  · show (processTail _ _ _ _).1 = _
    rw [processTail_state, l1, l2]
    by_cases hr : 64 * (input.length / 64) < input.length
    · rw [if_pos hr, ← advance_succ_last]
      congr 1
      omega
    · rw [if_neg hr]
      congr 1
      omega
  · rfl

theorem next_getD_ne (c : ChaCha20) (i : Nat) (h : i ≠ 12) :
    c.next.state.getD i 0 = c.state.getD i 0 := by
  simp only [ChaCha20.next, ChaCha20.blockFunction, List.getD_eq_getElem?_getD]
  rw [List.getElem?_set_ne (Ne.symm h)]

theorem next_getD_counter (c : ChaCha20) :
    c.next.state.getD 12 0 = (c.state.getD 12 0 + 1) % 4294967296 := by
  have h := c.size
  simp only [ChaCha20.next, ChaCha20.blockFunction, List.getD_eq_getElem?_getD]
  rw [List.getElem?_set_self (by omega)]
  rfl

theorem sameButCounter_refl (c : ChaCha20) : c.sameButCounter c := fun _ _ => rfl

theorem sameButCounter_trans {c d e : ChaCha20} (h : c.sameButCounter d)
    (g : d.sameButCounter e) : c.sameButCounter e :=
  fun i hi => (g i hi).trans (h i hi)

theorem sameButCounter_set_counter (c : ChaCha20) (k : Nat) :
    c.sameButCounter (c.set_counter k) := by
  intro i hi
  simp only [ChaCha20.set_counter, List.getD_eq_getElem?_getD]
  rw [List.getElem?_set_ne (Ne.symm hi)]

theorem sameButCounter_blockFunction (c : ChaCha20) (n : Nat) :
    c.sameButCounter (c.blockFunction n).1 := by
  intro i hi
  simp only [ChaCha20.blockFunction, List.getD_eq_getElem?_getD]
  rw [List.getElem?_set_ne (Ne.symm hi)]

theorem sameButCounter_advance (j : Nat) (c : ChaCha20) : c.sameButCounter (advance j c) := by
  induction j generalizing c with
  | zero => exact sameButCounter_refl c
  | succ j ih =>
    rw [advance]
    exact sameButCounter_trans (fun i hi => next_getD_ne c i hi) (ih c.next)

theorem advance_counter (j : Nat) (c : ChaCha20) (hj : 0 < j) :
    (advance j c).state.getD 12 0 = (c.state.getD 12 0 + j) % 4294967296 := by
  induction j with
  | zero => omega
  | succ j ih =>
    rw [advance_succ_last, next_getD_counter]
    by_cases h0 : j = 0
    · subst h0
      rfl
    · rw [ih (by omega)]
      omega

theorem set_counter_self (c : ChaCha20) (h : c.state.getD 12 0 < 4294967296) :
    c.set_counter (c.state.getD 12 0) = c := by
  apply ChaCha20.ext_state
  have hs := c.size
  simp only [ChaCha20.set_counter, Nat.mod_eq_of_lt h]
  apply List.ext_getElem?
  intro n
  by_cases hn : n = 12
  · subst hn
    rw [List.getElem?_set_self (by omega), List.getD_eq_getElem?_getD,
      List.getElem?_eq_getElem (by omega)]
    rfl
  · rw [List.getElem?_set_ne (Ne.symm hn)]

theorem stream_add (a b : Nat) (c : ChaCha20) :
    stream (a + b) c = stream a c ++ stream b (advance a c) := by
  induction a generalizing c with
  | zero => simp [stream, advance]
  | succ a ih =>
    rw [show a + 1 + b = (a + b) + 1 by omega, stream, ih, stream, advance, List.append_assoc]

theorem advance_add (a b : Nat) (c : ChaCha20) :
    advance (a + b) c = advance b (advance a c) := by
  induction a generalizing c with
  | zero => simp [advance]
  | succ a ih => rw [show a + 1 + b = (a + b) + 1 by omega, advance, ih, advance]

theorem process_sameButCounter (c : ChaCha20) (input output : Option (List Nat))
    (c1 : ChaCha20) (out1 : List Nat) (h : c.process input output = Except.ok (c1, out1)) :
    c.sameButCounter c1 := by
  cases input with
  | none => cases output <;> cases h
  | some input =>
    cases output with
    | none => cases h
    | some output =>
      by_cases h0 : input.length = 0
      · unfold ChaCha20.process at h
        simp only [h0, if_true] at h
        cases h
      · obtain ⟨o, ho⟩ := process_state c input output (by omega)
        rw [ho] at h
        simp only [Except.ok.injEq, Prod.mk.injEq] at h
        rw [← h.1]
        exact sameButCounter_advance _ c

theorem encrypt_sameButCounter (c : ChaCha20) (plaintext aad output : List Nat)
    (c1 : ChaCha20) (out1 tag : List Nat)
    (h : encrypt c plaintext aad output = Except.ok (c1, out1, tag)) :
    c.sameButCounter c1 := by
  unfold encrypt at h
  rw [polyKeyGen_spec] at h
  simp only [] at h
  cases hp : ((c.set_counter 1).set_counter 1).process (some plaintext) (some output) with
  | error e => rw [hp] at h; cases h
  | ok r =>
    rw [hp] at h
    simp only [Except.ok.injEq, Prod.mk.injEq] at h
    rw [← h.1]
    have := process_sameButCounter _ _ _ r.1 r.2 hp
    rw [set_counter_set_counter] at this
    exact sameButCounter_trans (sameButCounter_set_counter c 1) this

theorem decrypt_sameButCounter (c : ChaCha20) (ciphertext aad received_tag output : List Nat)
    (c1 : ChaCha20) (verdict : Bool) (out1 : List Nat)
    (h : decrypt c ciphertext aad received_tag output = Except.ok (c1, verdict, out1)) :
    c.sameButCounter c1 := by
  unfold decrypt at h
  rw [decryptTag_spec] at h
  simp only [] at h
  by_cases hcmp : constant_time_compare (polyTag (KS c 0) (macData aad ciphertext))
      received_tag 16 = true
  · simp only [hcmp, Bool.not_true, Bool.false_eq_true, if_false] at h
    cases hp : ((c.set_counter 1).set_counter 1).process (some ciphertext) (some output) with
    | error e => rw [hp] at h; cases h
    | ok r =>
      rw [hp] at h
      simp only [Except.ok.injEq, Prod.mk.injEq] at h
      rw [← h.1]
      have := process_sameButCounter _ _ _ r.1 r.2 hp
      rw [set_counter_set_counter] at this
      exact sameButCounter_trans (sameButCounter_set_counter c 1) this
  · simp only [Bool.not_eq_true] at hcmp
    simp only [hcmp, Bool.not_false, if_true, Except.ok.injEq, Prod.mk.injEq] at h
    rw [← h.1]
    exact sameButCounter_set_counter c 1

theorem call_sameButCounter (c : ChaCha20) (call : CipherCall) (c1 : ChaCha20)
    (h : call.run c = Except.ok c1) : c.sameButCounter c1 := by
  cases call with
  | set_counter k =>
    change Except.ok (c.set_counter k) = Except.ok c1 at h
    injection h with h
    rw [← h]; exact sameButCounter_set_counter c k
  | blockFunction n =>
    change Except.ok (c.blockFunction n).1 = Except.ok c1 at h
    injection h with h
    rw [← h]; exact sameButCounter_blockFunction c n
  | process i o =>
    unfold CipherCall.run at h; simp only [] at h
    cases hp : c.process i o with
    | error e => rw [hp] at h; cases h
    | ok r =>
      rw [hp] at h
      simp only [Except.ok.injEq] at h
      rw [← h]
      exact process_sameButCounter c i o r.1 r.2 hp
  | encrypt p a o =>
    unfold CipherCall.run at h; simp only [] at h
    cases hp : ChaChaAEAD.encrypt c p a o with
    | error e => rw [hp] at h; cases h
    | ok r =>
      rw [hp] at h
      simp only [Except.ok.injEq] at h
      rw [← h]
      exact encrypt_sameButCounter c p a o r.1 r.2.1 r.2.2 hp
  | decrypt ct a t o =>
    unfold CipherCall.run at h; simp only [] at h
    cases hp : ChaChaAEAD.decrypt c ct a t o with
    | error e => rw [hp] at h; cases h
    | ok r =>
      rw [hp] at h
      simp only [Except.ok.injEq] at h
      rw [← h]
      exact decrypt_sameButCounter c ct a t o r.1 r.2.1 r.2.2 hp

theorem runCalls_sameButCounter (calls : List CipherCall) :
    ∀ (c c1 : ChaCha20), runCalls c calls = Except.ok c1 → c.sameButCounter c1 := by
  induction calls with
  | nil =>
    intro c c1 h
    simp only [runCalls, Except.ok.injEq] at h
    rw [← h]; exact sameButCounter_refl c
  | cons call calls ih =>
    intro c c1 h
    simp only [runCalls] at h
    cases hp : call.run c with
    | error e => rw [hp] at h; cases h
    | ok c2 =>
      rw [hp] at h
      exact sameButCounter_trans (call_sameButCounter c call c2 hp) (ih c2 c1 h)

theorem set_counter_mod (c : ChaCha20) (k : Nat) :
    c.set_counter (k % 4294967296) = c.set_counter k := by
  apply ChaCha20.ext_state
  simp only [ChaCha20.set_counter, Nat.mod_mod]

theorem process_out_take (c : ChaCha20) (input output : List Nat) (m : Nat)
    (h : input.length ≤ 64 * m) :
    readAt (xorBytes input (stream m c) ++ output.drop input.length) 0 input.length
      = xorBytes input (stream m c) := by
  have hxl : (xorBytes input (stream m c)).length = input.length := by
    rw [xorBytes_length, stream_length]; omega
  simp only [readAt, List.drop_zero]
  rw [List.take_append_of_le_length (by omega), List.take_of_length_le (by omega)]

/-- C11. Stream-cipher involution: for every cipher state (hence every key and
nonce), every counter value `k` and every buffer `X` of at least one byte,
`set_counter(k); Y = process(X); set_counter(k); process(Y)` returns `X` (the
bytes of the second output buffer past `X` are left as they were). -/
theorem process_involution (c : ChaCha20) (k : Nat) (X out out2 : List Nat)
    (hX : 1 ≤ X.length) (hout : X.length ≤ out.length) (hout2 : X.length ≤ out2.length) :
    ∃ c1 Y, (c.set_counter k).process (some X) (some out) = Except.ok (c1, Y) ∧
      ∃ c2, (c1.set_counter k).process (some (readAt Y 0 X.length)) (some out2)
        = Except.ok (c2, X ++ out2.drop X.length) := by
  have hxl : (xorBytes X (stream ((X.length + 63) / 64) (c.set_counter k))).length
      = X.length := by
    rw [xorBytes_length, stream_length]; omega
  refine ⟨_, _, process_spec _ X out hX hout, ?_⟩
  rw [process_out_take _ _ _ _ (by omega), advance_then_set_counter, set_counter_set_counter,
    process_spec _ _ _ (by rw [hxl]; exact hX) (by rw [hxl]; exact hout2), hxl,
    xorBytes_xorBytes _ _ (by rw [stream_length]; omega)]
  exact ⟨_, rfl⟩

/-- C12. `process` throws `invalid_argument` exactly when the input or the
output pointer is null or the length is zero; a throwing call leaves the cipher
object and the output buffer as they were; every other call returns normally,
with the result that `process` computes. -/
theorem process_invalid_argument (c : ChaCha20) (input output : Option (List Nat)) :
    ((c.processEffect input output).2.2 = some Error.invalidArgument ↔
      (input = none ∨ output = none ∨ ∃ l, input = some l ∧ l.length = 0)) ∧
    (c.process input output = Except.error Error.invalidArgument ↔
      (input = none ∨ output = none ∨ ∃ l, input = some l ∧ l.length = 0)) ∧
    ((c.processEffect input output).2.2 = some Error.invalidArgument →
      (c.processEffect input output).1 = c ∧ (c.processEffect input output).2.1 = output) ∧
    (¬ (input = none ∨ output = none ∨ ∃ l, input = some l ∧ l.length = 0) →
      (c.processEffect input output).2.2 = none ∧
      ∃ out1, (c.processEffect input output).2.1 = some out1 ∧
        c.process input output = Except.ok ((c.processEffect input output).1, out1)) := by
  cases input with
  | none =>
    refine ⟨⟨fun _ => Or.inl rfl, fun _ => ?_⟩, ⟨fun _ => Or.inl rfl, fun _ => ?_⟩,
      fun _ => ?_, fun h => absurd (Or.inl rfl) h⟩
    · cases output <;> rfl
    · cases output <;> rfl
    · cases output <;> exact ⟨rfl, rfl⟩
  | some input =>
    cases output with
    | none =>
      exact ⟨⟨fun _ => Or.inr (Or.inl rfl), fun _ => rfl⟩,
        ⟨fun _ => Or.inr (Or.inl rfl), fun _ => rfl⟩,
        fun _ => ⟨rfl, rfl⟩, fun h => absurd (Or.inr (Or.inl rfl)) h⟩
    | some output =>
      by_cases h0 : input.length = 0
      · have he : c.processEffect (some input) (some output)
            = (c, some output, some Error.invalidArgument) := by
          unfold ChaCha20.processEffect
          simp only [h0, if_true]
        have hp : c.process (some input) (some output)
            = Except.error Error.invalidArgument := by
          unfold ChaCha20.process
          simp only [h0, if_true]
        rw [he, hp]
        exact ⟨⟨fun _ => Or.inr (Or.inr ⟨input, rfl, h0⟩), fun _ => rfl⟩,
          ⟨fun _ => Or.inr (Or.inr ⟨input, rfl, h0⟩), fun _ => rfl⟩,
          fun _ => ⟨rfl, rfl⟩,
          fun h => absurd (Or.inr (Or.inr ⟨input, rfl, h0⟩)) h⟩
      · have hg : ¬ (some input = none ∨ some output = none ∨
            ∃ l, some input = some l ∧ l.length = 0) := by
          rintro (h | h | ⟨l, hl, hl0⟩)
          · cases h
          · cases h
          · cases hl; exact h0 hl0
        have he : c.processEffect (some input) (some output)
            = ((processTail (processLoop (input.length / 64) c input output 0).1 input
                (processLoop (input.length / 64) c input output 0).2.1
                (processLoop (input.length / 64) c input output 0).2.2).1,
              some (processTail (processLoop (input.length / 64) c input output 0).1 input
                (processLoop (input.length / 64) c input output 0).2.1
                (processLoop (input.length / 64) c input output 0).2.2).2, none) := by
          unfold ChaCha20.processEffect
          simp only [h0, if_false]
        have hp : c.process (some input) (some output)
            = Except.ok (processTail (processLoop (input.length / 64) c input output 0).1 input
                (processLoop (input.length / 64) c input output 0).2.1
                (processLoop (input.length / 64) c input output 0).2.2) := by
          unfold ChaCha20.process
          simp only [h0, if_false]
        rw [he, hp]
        refine ⟨⟨fun h => (by cases h), fun h => absurd h hg⟩,
          ⟨fun h => (by cases h), fun h => absurd h hg⟩, fun h => (by cases h),
          fun _ => ⟨rfl, _, rfl, rfl⟩⟩

theorem map_getD_range (l : List Nat) (n : Nat) (h : l.length = n) :
    (List.range n).map (fun i => l.getD i 0) = l := by
  apply List.ext_getElem (by simp [h])
  intro i h1 h2
  simp only [List.getElem_map, List.getElem_range, List.getD_eq_getElem?_getD,
    List.getElem?_eq_getElem h2, Option.getD_some]

theorem init_state (key nonce : List Nat) (hk : key.length = 8) (hn : nonce.length = 3) :
    (ChaCha20.init key nonce).state
      = [0x61707865, 0x3320646e, 0x79622d32, 0x6b206574] ++ key ++ [0] ++ nonce := by
  simp only [ChaCha20.init]
  rw [map_getD_range key 8 hk, map_getD_range nonce 3 hn]

/-- C13. Construction lays out the state as specified: for every key of 8 words
and nonce of 3 words, the constructor succeeds and the state is the four
constants `0x61707865, 0x3320646e, 0x79622d32, 0x6b206574`, the eight key words,
the counter `0`, and the three nonce words, in this order. -/
theorem constructor_layout (key nonce : List Nat) (hk : key.length = 8)
    (hn : nonce.length = 3) :
    ∃ c, ChaCha20.new (some key) (some nonce) = Except.ok c ∧
      c.state = [0x61707865, 0x3320646e, 0x79622d32, 0x6b206574] ++ key ++ [0] ++ nonce ∧
      c.state.getD 0 0 = 0x61707865 ∧ c.state.getD 1 0 = 0x3320646e ∧
      c.state.getD 2 0 = 0x79622d32 ∧ c.state.getD 3 0 = 0x6b206574 ∧
      (∀ i, i < 8 → c.state.getD (4 + i) 0 = key.getD i 0) ∧
      c.state.getD 12 0 = 0 ∧
      (∀ i, i < 3 → c.state.getD (13 + i) 0 = nonce.getD i 0) := by
  refine ⟨ChaCha20.init key nonce, rfl, init_state key nonce hk hn, rfl, rfl, rfl, rfl,
    ?_, rfl, ?_⟩
  · intro i hi
    simp only [ChaCha20.init]
    have h8 : i = 0 ∨ i = 1 ∨ i = 2 ∨ i = 3 ∨ i = 4 ∨ i = 5 ∨ i = 6 ∨ i = 7 := by omega
    rcases h8 with h | h | h | h | h | h | h | h <;> subst h <;> rfl
  · intro i hi
    simp only [ChaCha20.init]
    have h3 : i = 0 ∨ i = 1 ∨ i = 2 := by omega
    rcases h3 with h | h | h <;> subst h <;> rfl

/-- Witness of C13 at the key and nonce words of RFC 8439 §2.8.2. -/
theorem constructor_layout_witness :
    (_8bitarray_to32bitarray rfc282Key 32).length = 8 ∧
    (_8bitarray_to32bitarray rfc282Nonce 12).length = 3 ∧
    ∃ c, ChaCha20.new (some (_8bitarray_to32bitarray rfc282Key 32))
        (some (_8bitarray_to32bitarray rfc282Nonce 12)) = Except.ok c ∧
      c.state = [0x61707865, 0x3320646e, 0x79622d32, 0x6b206574]
        ++ _8bitarray_to32bitarray rfc282Key 32 ++ [0]
        ++ _8bitarray_to32bitarray rfc282Nonce 12 ∧
      c.state.getD 0 0 = 0x61707865 ∧ c.state.getD 1 0 = 0x3320646e ∧
      c.state.getD 2 0 = 0x79622d32 ∧ c.state.getD 3 0 = 0x6b206574 ∧
      (∀ i, i < 8 → c.state.getD (4 + i) 0 = (_8bitarray_to32bitarray rfc282Key 32).getD i 0) ∧
      c.state.getD 12 0 = 0 ∧
      (∀ i, i < 3 →
        c.state.getD (13 + i) 0 = (_8bitarray_to32bitarray rfc282Nonce 12).getD i 0) :=
  ⟨by decide, by decide,
    constructor_layout (_8bitarray_to32bitarray rfc282Key 32)
      (_8bitarray_to32bitarray rfc282Nonce 12) (by decide) (by decide)⟩

theorem take_set_of_le (l : List Nat) (n m a : Nat) (h : m ≤ n) :
    (l.set n a).take m = l.take m := by
  apply List.ext_getElem?
  intro i
  rw [List.getElem?_take, List.getElem?_take]
  split
  · rw [List.getElem?_set_ne (by omega)]
  · rfl

theorem sameButCounter_state {c d : ChaCha20} (h : c.sameButCounter d) :
    d.state = c.state.set 12 (d.state.getD 12 0) := by
  have hc := c.size
  have hd := d.size
  apply List.ext_getElem?
  intro n
  by_cases hn : n = 12
  · subst hn
    rw [List.getElem?_set_self (by omega), List.getD_eq_getElem?_getD,
      List.getElem?_eq_getElem (by omega)]
    rfl
  · rw [List.getElem?_set_ne (Ne.symm hn)]
    have := h n hn
    simp only [List.getD_eq_getElem?_getD] at this
    by_cases hlt : n < 16
    · have e1 := List.getElem?_eq_getElem (l := d.state) (show n < d.state.length by omega)
      have e2 := List.getElem?_eq_getElem (l := c.state) (show n < c.state.length by omega)
      rw [e1, e2] at this
      simp only [Option.getD_some] at this
      rw [e1, e2, this]
    · rw [List.getElem?_eq_none (by omega), List.getElem?_eq_none (by omega)]

/-- C14. State invariant: `set_counter`, `blockFunction`, `process`, `encrypt`
and `decrypt` leave every state word other than word 12 as it was; hence after
any sequence of these calls on a cipher constructed from a key of 8 words and a
nonce of 3 words, words 0..3 are still the four constants, words 4..11 the key
and words 13..15 the nonce. -/
theorem only_counter_changes :
    (∀ (c : ChaCha20) (k : Nat), c.sameButCounter (c.set_counter k)) ∧
    (∀ (c : ChaCha20) (n : Nat), c.sameButCounter (c.blockFunction n).1) ∧
    (∀ (c : ChaCha20) (input output : Option (List Nat)) (c1 : ChaCha20) (out1 : List Nat),
      c.process input output = Except.ok (c1, out1) → c.sameButCounter c1) ∧
    (∀ (c : ChaCha20) (input output : Option (List Nat)),
      c.sameButCounter (c.processEffect input output).1) ∧
    (∀ (c : ChaCha20) (plaintext aad output : List Nat) (c1 : ChaCha20) (out1 tag : List Nat),
      encrypt c plaintext aad output = Except.ok (c1, out1, tag) → c.sameButCounter c1) ∧
    (∀ (c : ChaCha20) (ciphertext aad received_tag output : List Nat) (c1 : ChaCha20)
        (verdict : Bool) (out1 : List Nat),
      decrypt c ciphertext aad received_tag output = Except.ok (c1, verdict, out1) →
        c.sameButCounter c1) ∧
    (∀ (key nonce : List Nat) (calls : List CipherCall) (c1 : ChaCha20),
      key.length = 8 → nonce.length = 3 →
      runCalls (ChaCha20.init key nonce) calls = Except.ok c1 →
        (ChaCha20.init key nonce).sameButCounter c1 ∧
        c1.state.take 4 = [0x61707865, 0x3320646e, 0x79622d32, 0x6b206574] ∧
        (c1.state.drop 4).take 8 = key ∧ c1.state.drop 13 = nonce) := by
  refine ⟨sameButCounter_set_counter, sameButCounter_blockFunction, process_sameButCounter,
    ?_, encrypt_sameButCounter, decrypt_sameButCounter, ?_⟩
  · intro c input output
    obtain ⟨_, _, h3, h4⟩ := process_invalid_argument c input output
    by_cases hg : (input = none ∨ output = none ∨ ∃ l, input = some l ∧ l.length = 0)
    · have he : (c.processEffect input output).1 = c := by
        rcases hg with h | h | ⟨l, hl, hl0⟩
        · subst h; cases output <;> rfl
        · subst h; cases input <;> rfl
        · subst hl
          cases output with
          | none => rfl
          | some o =>
            unfold ChaCha20.processEffect
            simp only [hl0, if_true]
      rw [he]
      exact sameButCounter_refl c
    · obtain ⟨_, o, _, hp⟩ := h4 hg
      exact process_sameButCounter c input output _ o hp
  · intro key nonce calls c1 hk hn hrun
    have hs := runCalls_sameButCounter calls _ _ hrun
    have hst := sameButCounter_state hs
    have hi := init_state key nonce hk hn
    refine ⟨hs, ?_, ?_, ?_⟩
    · rw [hst, List.take_set_of_lt _ _ (by decide), hi]
      rfl
    · rw [hst, List.drop_set, if_neg (by decide), take_set_of_le _ _ _ _ (by decide), hi]
      simp only [List.cons_append, List.nil_append, List.drop_succ_cons, List.drop_zero,
        List.append_assoc]
      rw [List.take_append_of_le_length (by omega), List.take_of_length_le (by omega)]
    · rw [hst, List.drop_set_of_lt _ _ (by decide), hi]
      have h12 : ([0x61707865, 0x3320646e, 0x79622d32, 0x6b206574] ++ key ++ [0]).length
          = 13 := by simp [hk]
      rw [← h12, List.drop_left]

/-- C18. The chunked XOR pipeline of `process` equals the byte-wise reference:
for every cipher state with counter `k` (a `uint32_t`) and every input of
`n ≥ 1` bytes, `process` returns normally and
`output[i] = input[i] XOR KS((k + i / 64) mod 2^32)[i mod 64]` for all `i < n`,
with `KS(j)` the 64 bytes of the block function at counter `j`; this covers
every tail length; the output buffer keeps its length and no byte at an index
`≥ n` is changed. -/
theorem process_is_bytewise_xor (c : ChaCha20) (input output : List Nat)
    (hc : c.state.getD 12 0 < 4294967296) (hn : 1 ≤ input.length)
    (ho : input.length ≤ output.length) :
    ∃ c1 out1, c.process (some input) (some output) = Except.ok (c1, out1) ∧
      (∀ i, i < input.length →
        out1.getD i 0 = input.getD i 0 ^^^
          (((c.set_counter ((c.state.getD 12 0 + i / 64) % 4294967296)).blockFunction 64).2).getD
            (i % 64) 0) ∧
      (∀ j, (((c.set_counter j).blockFunction 64).2).length = 64) ∧
      out1.length = output.length ∧
      out1.drop input.length = output.drop input.length := by
  have hxl : (xorBytes input (stream ((input.length + 63) / 64) c)).length
      = input.length := by
    rw [xorBytes_length, stream_length]; omega
  refine ⟨_, _, process_spec c input output hn ho, ?_, ?_, ?_, ?_⟩
  · intro i hi
    rw [List.getD_append _ _ _ _ (by rw [hxl]; exact hi),
      xorBytes_getD _ _ _ hi (by rw [stream_length]; omega),
      stream_getD _ _ _ (by omega), set_counter_mod]
    have : advance (i / 64) c = c.set_counter (c.state.getD 12 0 + i / 64) := by
      conv_lhs => rw [← set_counter_self c hc]
      rw [advance_set_counter]
    rw [this]
    rfl
  · intro j
    exact keyBlock_length _
  · rw [List.length_append, hxl, List.length_drop]; omega
  · exact List.drop_left' hxl

/-- Witness of C18 at the cipher of RFC 8439 §2.8.2 with a three-byte input. -/
theorem process_is_bytewise_xor_witness :
    rfc282Cipher.state.getD 12 0 < 4294967296 ∧ 1 ≤ ([1, 2, 3] : List Nat).length ∧
    ([1, 2, 3] : List Nat).length ≤ ([0, 0, 0, 9] : List Nat).length ∧
    ∃ c1 out1, rfc282Cipher.process (some [1, 2, 3]) (some [0, 0, 0, 9]) = Except.ok (c1, out1) ∧
      (∀ i, i < ([1, 2, 3] : List Nat).length →
        out1.getD i 0 = ([1, 2, 3] : List Nat).getD i 0 ^^^
          (((rfc282Cipher.set_counter
            ((rfc282Cipher.state.getD 12 0 + i / 64) % 4294967296)).blockFunction 64).2).getD
            (i % 64) 0) ∧
      (∀ j, (((rfc282Cipher.set_counter j).blockFunction 64).2).length = 64) ∧
      out1.length = ([0, 0, 0, 9] : List Nat).length ∧
      out1.drop ([1, 2, 3] : List Nat).length
        = ([0, 0, 0, 9] : List Nat).drop ([1, 2, 3] : List Nat).length :=
  ⟨by decide, by decide, by decide,
    process_is_bytewise_xor rfc282Cipher [1, 2, 3] [0, 0, 0, 9] (by decide) (by decide)
      (by decide)⟩

/-- C19. Counter advance with wrap: for every cipher state with counter `k` and
every input of `n ≥ 1` bytes, `process` returns normally and leaves state word
12 equal to `(k + ceil(n / 64)) mod 2^32`; one block drawn at counter
`0xFFFFFFFF` leaves the counter at 0, without an error. -/
theorem process_counter_advance (c : ChaCha20) (input output : List Nat)
    (hn : 1 ≤ input.length) :
    (∃ c1 out1, c.process (some input) (some output) = Except.ok (c1, out1) ∧
      c1.state.getD 12 0 = (c.state.getD 12 0 + (input.length + 63) / 64) % 4294967296) ∧
    (input.length ≤ 64 →
      ∃ c1 out1, (c.set_counter 0xFFFFFFFF).process (some input) (some output)
          = Except.ok (c1, out1) ∧
        c1.state.getD 12 0 = 0) := by
  constructor
  · obtain ⟨o, ho⟩ := process_state c input output hn
    exact ⟨_, o, ho, advance_counter _ c (by omega)⟩
  · intro h64
    obtain ⟨o, ho⟩ := process_state (c.set_counter 0xFFFFFFFF) input output hn
    refine ⟨_, o, ho, ?_⟩
    rw [show (input.length + 63) / 64 = 1 by omega, advance_set_counter]
    have hs := c.size
    simp only [ChaCha20.set_counter, List.getD_eq_getElem?_getD]
    rw [List.getElem?_set_self (by omega)]
    rfl

/-- Witness of C19 at the cipher of RFC 8439 §2.8.2 with a three-byte input. -/
theorem process_counter_advance_witness :
    1 ≤ ([1, 2, 3] : List Nat).length ∧ ([1, 2, 3] : List Nat).length ≤ 64 ∧
    (∃ c1 out1, rfc282Cipher.process (some [1, 2, 3]) (some [0, 0, 0]) = Except.ok (c1, out1) ∧
      c1.state.getD 12 0
        = (rfc282Cipher.state.getD 12 0 + (([1, 2, 3] : List Nat).length + 63) / 64)
          % 4294967296) ∧
    (∃ c1 out1, (rfc282Cipher.set_counter 0xFFFFFFFF).process (some [1, 2, 3]) (some [0, 0, 0])
        = Except.ok (c1, out1) ∧
      c1.state.getD 12 0 = 0) :=
  ⟨by decide, by decide,
    (process_counter_advance rfc282Cipher [1, 2, 3] [0, 0, 0] (by decide)).1,
    (process_counter_advance rfc282Cipher [1, 2, 3] [0, 0, 0] (by decide)).2 (by decide)⟩

/-- C20. Streaming continuation: for every cipher state, every `X` whose length
is a positive multiple of 64 and every non-empty `Y`, `process(X)` followed by
`process(Y)` on the same cipher produces the same bytes and leaves the same
cipher state (hence the same counter) as a single `process(X ‖ Y)`. -/
theorem process_streaming (c : ChaCha20) (X Y out1 out2 out3 : List Nat)
    (hX : 0 < X.length) (hX64 : X.length % 64 = 0) (hY : 0 < Y.length)
    (h1 : X.length ≤ out1.length) (h2 : Y.length ≤ out2.length)
    (h3 : (X ++ Y).length ≤ out3.length) :
    ∃ c1 o1 c2 o2 c3 o3,
      c.process (some X) (some out1) = Except.ok (c1, o1) ∧
      c1.process (some Y) (some out2) = Except.ok (c2, o2) ∧
      c.process (some (X ++ Y)) (some out3) = Except.ok (c3, o3) ∧
      c2 = c3 ∧
      readAt o1 0 X.length ++ readAt o2 0 Y.length = readAt o3 0 (X ++ Y).length := by
  have hl : (X ++ Y).length = X.length + Y.length := List.length_append _ _
  have hm : ((X ++ Y).length + 63) / 64 = (X.length + 63) / 64 + (Y.length + 63) / 64 := by
    rw [hl]; omega
  have hsx : (stream ((X.length + 63) / 64) c).length = X.length := by
    rw [stream_length]; omega
  refine ⟨_, _, _, _, _, _, process_spec c X out1 hX h1, process_spec _ Y out2 hY h2,
    process_spec c (X ++ Y) out3 (by rw [hl]; omega) h3, ?_, ?_⟩
  · rw [hm, advance_add]
  · rw [process_out_take _ _ _ _ (by omega), process_out_take _ _ _ _ (by omega),
      process_out_take _ _ _ _ (by omega), hm, stream_add,
      xorBytes_append _ _ _ _ hsx.symm]

/-- Witness of C20 at the cipher of RFC 8439 §2.8.2 with 64 zero bytes followed
by three bytes. -/
theorem process_streaming_witness :
    0 < (List.replicate 64 0).length ∧ (List.replicate 64 0).length % 64 = 0 ∧
    0 < ([1, 2, 3] : List Nat).length ∧
    (List.replicate 64 0).length ≤ (List.replicate 64 0).length ∧
    ([1, 2, 3] : List Nat).length ≤ ([0, 0, 0] : List Nat).length ∧
    (List.replicate 64 0 ++ [1, 2, 3]).length ≤ (List.replicate 67 0).length ∧
    ∃ c1 o1 c2 o2 c3 o3,
      rfc282Cipher.process (some (List.replicate 64 0)) (some (List.replicate 64 0))
        = Except.ok (c1, o1) ∧
      c1.process (some [1, 2, 3]) (some [0, 0, 0]) = Except.ok (c2, o2) ∧
      rfc282Cipher.process (some (List.replicate 64 0 ++ [1, 2, 3])) (some (List.replicate 67 0))
        = Except.ok (c3, o3) ∧
      c2 = c3 ∧
      readAt o1 0 (List.replicate 64 0).length ++ readAt o2 0 ([1, 2, 3] : List Nat).length
        = readAt o3 0 (List.replicate 64 0 ++ [1, 2, 3]).length :=
  ⟨by decide, by decide, by decide, by decide, by decide, by decide,
    process_streaming rfc282Cipher (List.replicate 64 0) [1, 2, 3] (List.replicate 64 0)
      [0, 0, 0] (List.replicate 67 0) (by decide) (by decide) (by decide) (by decide)
      (by decide) (by decide)⟩

/-- Witness of C11 at the cipher of RFC 8439 §2.8.2, counter 7, three bytes. -/
theorem process_involution_witness :
    1 ≤ ([1, 2, 3] : List Nat).length ∧
    ([1, 2, 3] : List Nat).length ≤ ([0, 0, 0] : List Nat).length ∧
    ([1, 2, 3] : List Nat).length ≤ ([5, 5, 5, 5] : List Nat).length ∧
    ∃ c1 Y, (rfc282Cipher.set_counter 7).process (some [1, 2, 3]) (some [0, 0, 0])
        = Except.ok (c1, Y) ∧
      ∃ c2, (c1.set_counter 7).process (some (readAt Y 0 ([1, 2, 3] : List Nat).length))
          (some [5, 5, 5, 5])
        = Except.ok (c2, [1, 2, 3] ++ List.drop ([1, 2, 3] : List Nat).length [5, 5, 5, 5]) :=
  ⟨by decide, by decide, by decide,
    process_involution rfc282Cipher 7 [1, 2, 3] [0, 0, 0] [5, 5, 5, 5]
      (by decide) (by decide) (by decide)⟩

/-- Witness of C12: a call with a zero-length input throws and changes nothing;
a call with one byte returns. -/
theorem process_invalid_argument_witness :
    ((rfc282Cipher.processEffect (some []) (some [7])).2.2 = some Error.invalidArgument ∧
      (rfc282Cipher.processEffect (some []) (some [7])).1 = rfc282Cipher ∧
      (rfc282Cipher.processEffect (some []) (some [7])).2.1 = some [7]) ∧
    ((rfc282Cipher.processEffect (some [1]) (some [7])).2.2 = none ∧
      ∃ out1, (rfc282Cipher.processEffect (some [1]) (some [7])).2.1 = some out1 ∧
        rfc282Cipher.process (some [1]) (some [7])
          = Except.ok ((rfc282Cipher.processEffect (some [1]) (some [7])).1, out1)) :=
  ⟨⟨(process_invalid_argument rfc282Cipher (some []) (some [7])).1.mpr
        (Or.inr (Or.inr ⟨[], rfl, rfl⟩)),
      (process_invalid_argument rfc282Cipher (some []) (some [7])).2.2.1
        ((process_invalid_argument rfc282Cipher (some []) (some [7])).1.mpr
          (Or.inr (Or.inr ⟨[], rfl, rfl⟩)))⟩,
    (process_invalid_argument rfc282Cipher (some [1]) (some [7])).2.2.2
      (by
        rintro (h | h | ⟨l, hl, hl0⟩)
        · cases h
        · cases h
        · cases hl; cases hl0)⟩

/-- Witness of C14: the constants, key and nonce of the cipher of RFC 8439
§2.8.2 after `set_counter(5)` and one `blockFunction`. -/
theorem only_counter_changes_witness :
    (_8bitarray_to32bitarray rfc282Key 32).length = 8 ∧
    (_8bitarray_to32bitarray rfc282Nonce 12).length = 3 ∧
    runCalls rfc282Cipher [CipherCall.set_counter 5, CipherCall.blockFunction 64]
      = Except.ok ((rfc282Cipher.set_counter 5).blockFunction 64).1 ∧
    rfc282Cipher.sameButCounter ((rfc282Cipher.set_counter 5).blockFunction 64).1 ∧
    ((rfc282Cipher.set_counter 5).blockFunction 64).1.state.take 4
      = [0x61707865, 0x3320646e, 0x79622d32, 0x6b206574] ∧
    (((rfc282Cipher.set_counter 5).blockFunction 64).1.state.drop 4).take 8
      = _8bitarray_to32bitarray rfc282Key 32 ∧
    ((rfc282Cipher.set_counter 5).blockFunction 64).1.state.drop 13
      = _8bitarray_to32bitarray rfc282Nonce 12 :=
  ⟨by decide, by decide, rfl,
    only_counter_changes.2.2.2.2.2.2 (_8bitarray_to32bitarray rfc282Key 32)
      (_8bitarray_to32bitarray rfc282Nonce 12)
      [CipherCall.set_counter 5, CipherCall.blockFunction 64]
      ((rfc282Cipher.set_counter 5).blockFunction 64).1 (by decide) (by decide) rfl⟩

/-! ### Bit operations as arithmetic -/

theorem and_shifted_mask (y lo n : Nat) :
    y &&& ((2 ^ n - 1) <<< lo) = ((y >>> lo) % 2 ^ n) <<< lo := by
  apply Nat.eq_of_testBit_eq
  intro j
  simp only [Nat.testBit_and, Nat.testBit_shiftLeft, Nat.testBit_two_pow_sub_one,
    Nat.testBit_mod_two_pow, Nat.testBit_shiftRight]
  by_cases h : lo ≤ j
  · have e : lo + (j - lo) = j := by omega
    simp only [ge_iff_le, h, decide_True, Bool.true_and, e]
    exact Bool.and_comm _ _
  · simp [h]

theorem or_eq_add_of_lt (x y k : Nat) (hx : x < 2 ^ k) (hy : y % 2 ^ k = 0) :
    x ||| y = x + y := by
  have hy2 : y = 2 ^ k * (y / 2 ^ k) := by
    have := Nat.div_add_mod y (2 ^ k)
    omega
  rw [hy2, Nat.or_comm, ← Nat.mul_add_lt_is_or hx, Nat.add_comm]

theorem and_mask26 (x : Nat) : x &&& mask26 = x % 67108864 := by
  have : mask26 = 2 ^ 26 - 1 := by decide
  rw [this, Nat.and_pow_two_sub_one_eq_mod]

theorem and_15 (x : Nat) : x &&& 15 = x % 16 :=
  Nat.and_pow_two_sub_one_eq_mod x 4

theorem and_252 (x : Nat) : x &&& 252 = 4 * (x / 4 % 64) := by
  have h := and_shifted_mask x 2 6
  have e : (2 ^ 6 - 1) <<< 2 = 252 := by decide
  rw [e] at h
  rw [h, Nat.shiftLeft_eq, Nat.shiftRight_eq_div_pow]
  omega

theorem and_0FFFFFFF (x : Nat) : x &&& 0x0FFFFFFF = x % 268435456 :=
  Nat.and_pow_two_sub_one_eq_mod x 28

theorem and_0FFFFFFC (x : Nat) : x &&& 0x0FFFFFFC = 4 * (x / 4 % 67108864) := by
  have h := and_shifted_mask x 2 26
  have e : (2 ^ 26 - 1) <<< 2 = 0x0FFFFFFC := by decide
  rw [e] at h
  rw [h, Nat.shiftLeft_eq, Nat.shiftRight_eq_div_pow]
  omega

/-- The five 26-bit limbs that the constructor cuts out of four 32-bit words
carry the same 128-bit value. -/
theorem limbs_of_words (b0 b1 b2 b3 : Nat) (h0 : b0 < 4294967296) (h1 : b1 < 4294967296)
    (h2 : b2 < 4294967296) (h3 : b3 < 4294967296) :
    (b0 &&& mask26)
      + (((b0 >>> 26) ||| ((b1 <<< 6) % 4294967296)) &&& mask26) * 2 ^ 26
      + (((b1 >>> 20) ||| ((b2 <<< 12) % 4294967296)) &&& mask26) * 2 ^ 52
      + (((b2 >>> 14) ||| ((b3 <<< 18) % 4294967296)) &&& mask26) * 2 ^ 78
      + ((b3 >>> 8) &&& mask26) * 2 ^ 104
      = b0 + b1 * 2 ^ 32 + b2 * 2 ^ 64 + b3 * 2 ^ 96 := by
  have o1 : (b0 >>> 26) ||| ((b1 <<< 6) % 4294967296) = b0 / 67108864 + (b1 * 64) % 4294967296 := by
    rw [Nat.shiftLeft_eq, Nat.shiftRight_eq_div_pow]
    exact or_eq_add_of_lt _ _ 6 (by omega) (by omega)
  have o2 : (b1 >>> 20) ||| ((b2 <<< 12) % 4294967296) = b1 / 1048576 + (b2 * 4096) % 4294967296 := by
    rw [Nat.shiftLeft_eq, Nat.shiftRight_eq_div_pow]
    exact or_eq_add_of_lt _ _ 12 (by omega) (by omega)
  have o3 : (b2 >>> 14) ||| ((b3 <<< 18) % 4294967296) = b2 / 16384 + (b3 * 262144) % 4294967296 := by
    rw [Nat.shiftLeft_eq, Nat.shiftRight_eq_div_pow]
    exact or_eq_add_of_lt _ _ 18 (by omega) (by omega)
  rw [o1, o2, o3]
  simp only [and_mask26, Nat.shiftRight_eq_div_pow]
  omega

theorem leNat_lt (l : List Nat) (h : ∀ b ∈ l, b < 256) : leNat l < 256 ^ l.length := by
  induction l with
  | nil => simp [leNat]
  | cons b bs ih =>
    have hb : b < 256 := h b (List.mem_cons_self _ _)
    have := ih (fun x hx => h x (List.mem_cons_of_mem _ hx))
    simp only [leNat, List.length_cons, Nat.pow_succ]
    omega

theorem getD_lt_of_bytes (l : List Nat) (h : ∀ b ∈ l, b < 256) (i : Nat) : l.getD i 0 < 256 := by
  rw [List.getD_eq_getElem?_getD]
  cases hv : l[i]? with
  | none => simp
  | some v => exact h v (List.getElem?_mem hv)

theorem readAt_bytes (l : List Nat) (h : ∀ b ∈ l, b < 256) (off n : Nat) :
    ∀ b ∈ readAt l off n, b < 256 := by
  intro b hb
  exact h b (List.mem_of_mem_drop (List.mem_of_mem_take hb))

theorem u64_leNat_readAt (l : List Nat) (h : ∀ b ∈ l, b < 256) (off : Nat) :
    u64 (leNat (readAt l off 8)) = leNat (readAt l off 8) := by
  have h1 := leNat_lt (readAt l off 8) (readAt_bytes l h off 8)
  have h2 : (readAt l off 8).length ≤ 8 := by
    simp only [readAt, List.length_take]; omega
  have h3 : 256 ^ (readAt l off 8).length ≤ 256 ^ 8 := Nat.pow_le_pow_right (by decide) h2
  have h4 : (256 : Nat) ^ 8 = 18446744073709551616 := by decide
  exact Nat.mod_eq_of_lt (by omega)

theorem new_r_value (block : List Nat) (hb : ∀ b ∈ block, b < 256) :
    (Poly1305.new block).r.value = leNat (clampedKeyBytes block) := by
  have hx := getD_lt_of_bytes block hb
  have hr16 : List.range 16 = [0, 1, 2, 3, 4, 5, 6, 7, 8, 9, 10, 11, 12, 13, 14, 15] := by
    decide
  have hrhs : leNat (clampedKeyBytes block)
      = block.getD 0 0 + 256 * (block.getD 1 0 + 256 * (block.getD 2 0 + 256 * (block.getD 3 0 % 16
        + 256 * ((block.getD 4 0 - block.getD 4 0 % 4) + 256 * (block.getD 5 0
        + 256 * (block.getD 6 0 + 256 * (block.getD 7 0 % 16
        + 256 * ((block.getD 8 0 - block.getD 8 0 % 4) + 256 * (block.getD 9 0
        + 256 * (block.getD 10 0 + 256 * (block.getD 11 0 % 16
        + 256 * ((block.getD 12 0 - block.getD 12 0 % 4) + 256 * (block.getD 13 0
        + 256 * (block.getD 14 0 + 256 * (block.getD 15 0 % 16
        + 256 * 0))))))))))))))) := by
    simp only [clampedKeyBytes, hr16, List.map, leNat]
    rfl
  have e : (Poly1305.new block).r.value
      = (Limbs.mk
        ((leNat [block.getD 0 0, block.getD 1 0, block.getD 2 0, block.getD 3 0 &&& 15]
          % 4294967296 &&& 0x0FFFFFFF) &&& mask26)
        ((((leNat [block.getD 0 0, block.getD 1 0, block.getD 2 0, block.getD 3 0 &&& 15]
          % 4294967296 &&& 0x0FFFFFFF) >>> 26) |||
          (((leNat [block.getD 4 0 &&& 252, block.getD 5 0, block.getD 6 0, block.getD 7 0 &&& 15]
          % 4294967296 &&& 0x0FFFFFFC) <<< 6) % 4294967296)) &&& mask26)
        ((((leNat [block.getD 4 0 &&& 252, block.getD 5 0, block.getD 6 0, block.getD 7 0 &&& 15]
          % 4294967296 &&& 0x0FFFFFFC) >>> 20) |||
          (((leNat [block.getD 8 0 &&& 252, block.getD 9 0, block.getD 10 0,
            block.getD 11 0 &&& 15] % 4294967296 &&& 0x0FFFFFFC) <<< 12) % 4294967296))
          &&& mask26)
        ((((leNat [block.getD 8 0 &&& 252, block.getD 9 0, block.getD 10 0,
            block.getD 11 0 &&& 15] % 4294967296 &&& 0x0FFFFFFC) >>> 14) |||
          (((leNat [block.getD 12 0 &&& 252, block.getD 13 0, block.getD 14 0,
            block.getD 15 0 &&& 15] % 4294967296 &&& 0x0FFFFFFC) <<< 18) % 4294967296))
          &&& mask26)
        (((leNat [block.getD 12 0 &&& 252, block.getD 13 0, block.getD 14 0,
            block.getD 15 0 &&& 15] % 4294967296 &&& 0x0FFFFFFC) >>> 8) &&& mask26)).value :=
    rfl
  rw [e, hrhs]
  simp only [Limbs.value]
  rw [limbs_of_words _ _ _ _
    (Nat.lt_of_le_of_lt Nat.and_le_right (by decide))
    (Nat.lt_of_le_of_lt Nat.and_le_right (by decide))
    (Nat.lt_of_le_of_lt Nat.and_le_right (by decide))
    (Nat.lt_of_le_of_lt Nat.and_le_right (by decide))]
  simp only [leNat, and_15, and_252, and_0FFFFFFF, and_0FFFFFFC]
  have h0 := hx 0; have h1 := hx 1; have h2 := hx 2; have h3 := hx 3
  have h4 := hx 4; have h5 := hx 5; have h6 := hx 6; have h7 := hx 7
  have h8 := hx 8; have h9 := hx 9; have h10 := hx 10; have h11 := hx 11
  have h12 := hx 12; have h13 := hx 13; have h14 := hx 14; have h15 := hx 15
  omega

theorem foldl_update_same (pieces : List (List Nat)) :
    ∀ (p : Poly1305), p.WF →
      (pieces.foldl Poly1305.update p).same (p.update pieces.flatten) ∧
      (pieces.foldl Poly1305.update p).WF := by
  induction pieces with
  | nil =>
    intro p hp
    exact ⟨same_symm (update_nil_same p hp), hp⟩
  | cons d ds ih =>
    intro p hp
    obtain ⟨h1, h2⟩ := ih (p.update d) (update_WF p d hp)
    simp only [List.foldl_cons, List.flatten_cons]
    exact ⟨same_trans h1 (update_update_same p d _ hp), h2⟩

/-- C15. Poly1305 `update` is chunking-independent: for every key block and
every list of consecutive pieces (empty pieces and pieces shorter than 16 bytes
included), the calls `update(D1), ..., update(Dk)` followed by `final_` yield the
same tag as one `update` of the concatenation followed by `final_`, and before
`final_` the two MAC objects have the same accumulator, the same number of
pending bytes, the same pending bytes and the same key. -/
theorem update_chunking_independent (block : List Nat) (pieces : List (List Nat)) :
    ((pieces.foldl Poly1305.update (Poly1305.new block)).final_).2
      = (((Poly1305.new block).update pieces.flatten).final_).2 ∧
    (pieces.foldl Poly1305.update (Poly1305.new block)).acc
      = ((Poly1305.new block).update pieces.flatten).acc ∧
    (pieces.foldl Poly1305.update (Poly1305.new block)).partial_len
      = ((Poly1305.new block).update pieces.flatten).partial_len ∧
    (pieces.foldl Poly1305.update (Poly1305.new block)).pending
      = ((Poly1305.new block).update pieces.flatten).pending ∧
    (pieces.foldl Poly1305.update (Poly1305.new block)).r
      = ((Poly1305.new block).update pieces.flatten).r ∧
    (pieces.foldl Poly1305.update (Poly1305.new block)).s0
      = ((Poly1305.new block).update pieces.flatten).s0 ∧
    (pieces.foldl Poly1305.update (Poly1305.new block)).s1
      = ((Poly1305.new block).update pieces.flatten).s1 := by
  obtain ⟨hs, _⟩ := foldl_update_same pieces (Poly1305.new block) (new_WF block)
  have ht := final_same hs
  obtain ⟨h1, h2, h3, h4, h5, h6⟩ := hs
  exact ⟨ht, h4, h5, h6, h1, h2, h3⟩

/-- C16. Poly1305 key setup: for every 64-byte block, after construction the
limbs of `r` carry the little-endian value of bytes 0..15 with the top four
bits of bytes 3, 7, 11, 15 and the bottom two bits of bytes 4, 8, 12 cleared,
every limb of `r` is below `2^26`, `s[0]` and `s[1]` are the little-endian
values of bytes 16..23 and 24..31, the accumulator is zero, and a block with
the same first 32 bytes gives the same MAC object. -/
theorem poly1305_key_setup (block : List Nat) (hlen : block.length = 64)
    (hb : ∀ b ∈ block, b < 256) :
    (Poly1305.new block).r.value = leNat (clampedKeyBytes block) ∧
    (clampedKeyBytes block).length = 16 ∧
    (Poly1305.new block).r.l0 < 2 ^ 26 ∧ (Poly1305.new block).r.l1 < 2 ^ 26 ∧
    (Poly1305.new block).r.l2 < 2 ^ 26 ∧ (Poly1305.new block).r.l3 < 2 ^ 26 ∧
    (Poly1305.new block).r.l4 < 2 ^ 26 ∧
    (Poly1305.new block).s0 = leNat (readAt block 16 8) ∧
    (Poly1305.new block).s1 = leNat (readAt block 24 8) ∧
    (readAt block 16 8).length = 8 ∧ (readAt block 24 8).length = 8 ∧
    (Poly1305.new block).acc = Limbs.mk 0 0 0 0 0 ∧
    (Poly1305.new block).partial_len = 0 ∧
    (∀ block2 : List Nat, block2.take 32 = block.take 32 →
      Poly1305.new block2 = Poly1305.new block) := by
  have hm : ∀ x : Nat, x &&& mask26 < 2 ^ 26 :=
    fun x => Nat.lt_of_le_of_lt Nat.and_le_right (by decide)
  refine ⟨new_r_value block hb, by simp [clampedKeyBytes], hm _, hm _, hm _, hm _, hm _,
    u64_leNat_readAt block hb 16, u64_leNat_readAt block hb 24,
    readAt_length _ _ _ (by omega), readAt_length _ _ _ (by omega), rfl, rfl, ?_⟩
  intro block2 h
  rw [← new_take32 block2, h, new_take32]

/-- Witness of C16 at the key block of RFC 8439 §2.5.2 followed by 32 zero
bytes. -/
theorem poly1305_key_setup_witness :
    (rfc252Key ++ List.replicate 32 0).length = 64 ∧
    (∀ b ∈ rfc252Key ++ List.replicate 32 0, b < 256) ∧
    (Poly1305.new (rfc252Key ++ List.replicate 32 0)).r.value
      = leNat (clampedKeyBytes (rfc252Key ++ List.replicate 32 0)) ∧
    (Poly1305.new (rfc252Key ++ List.replicate 32 0)).s0
      = leNat (readAt (rfc252Key ++ List.replicate 32 0) 16 8) :=
  ⟨by decide, by decide,
    (poly1305_key_setup (rfc252Key ++ List.replicate 32 0) (by decide) (by decide)).1,
    (poly1305_key_setup (rfc252Key ++ List.replicate 32 0) (by decide)
      (by decide)).2.2.2.2.2.2.2.1⟩

theorem final_keeps_key (p : Poly1305) :
    (p.final_).1.r = p.r ∧ (p.final_).1.s0 = p.s0 ∧ (p.final_).1.s1 = p.s1 := by
  unfold Poly1305.final_
  simp only [carryStep]
  by_cases h : 0 < p.partial_len
  · rw [if_pos h]
    exact ⟨rfl, rfl, rfl⟩
  · rw [if_neg h]
    exact ⟨rfl, rfl, rfl⟩

set_option maxRecDepth 100000 in
/-- C17 as stated fails: after `final_` on the key and message of RFC 8439
§2.5.2 the key fields `r` and `s` still hold the key. -/
theorem final_does_not_wipe :
    ¬ ((((Poly1305.new rfc252Key).update rfc252Msg).final_).1.acc = Limbs.mk 0 0 0 0 0 ∧
       (((Poly1305.new rfc252Key).update rfc252Msg).final_).1.r = Limbs.mk 0 0 0 0 0 ∧
       (((Poly1305.new rfc252Key).update rfc252Msg).final_).1.s0 = 0 ∧
       (((Poly1305.new rfc252Key).update rfc252Msg).final_).1.s1 = 0) := by
  decide!

/-- C17, amended. The wipe is done by the destructor: for every key block and
message, `final_` leaves `r` and `s` as the constructor set them, and once the
destructor has run on the finalized object, `acc[0..4]`, `r[0..4]` and
`s[0..1]` all read back as zero. -/
theorem destructor_wipes (block data : List Nat) :
    ((((Poly1305.new block).update data).final_).1.r = (Poly1305.new block).r ∧
      (((Poly1305.new block).update data).final_).1.s0 = (Poly1305.new block).s0 ∧
      (((Poly1305.new block).update data).final_).1.s1 = (Poly1305.new block).s1) ∧
    ((((Poly1305.new block).update data).final_).1.destructor.acc = Limbs.mk 0 0 0 0 0 ∧
      (((Poly1305.new block).update data).final_).1.destructor.r = Limbs.mk 0 0 0 0 0 ∧
      (((Poly1305.new block).update data).final_).1.destructor.s0 = 0 ∧
      (((Poly1305.new block).update data).final_).1.destructor.s1 = 0) := by
  obtain ⟨f1, f2, f3⟩ := final_keeps_key ((Poly1305.new block).update data)
  obtain ⟨u1, u2, u3, _⟩ := update_view (Poly1305.new block) data (new_WF block)
  exact ⟨⟨f1.trans u1, f2.trans u2, f3.trans u3⟩, rfl, rfl, rfl, rfl⟩

/-! ### The partial buffer -/

theorem updateLoop_offset (data : List Nat) (fuel : Nat) (p : Poly1305) (offset : Nat)
    (h1 : offset ≤ data.length) (h2 : (data.length - offset) / 16 ≤ fuel) :
    (updateLoop fuel p data offset).2 = offset + 16 * ((data.length - offset) / 16) := by
  rw [updateLoop_spec data fuel p offset h1 h2]

theorem updateCopies_bounds (p : Poly1305) (data : List Nat) (hwf : p.WF) :
    ∀ c ∈ p.updateCopies data, c.1 + c.2 ≤ 16 := by
  obtain ⟨hpl, _⟩ := hwf
  unfold Poly1305.updateCopies
  simp only []
  by_cases h0 : 0 < p.partial_len
  · simp only [if_pos h0, Nat.zero_add]
    by_cases h16 : p.partial_len + min data.length (16 - p.partial_len) = 16
    · simp only [if_pos h16]
      rw [updateLoop_offset _ _ _ _ (by omega) (by omega)]
      intro c hc
      split at hc
      · simp only [List.mem_append, List.mem_singleton] at hc
        rcases hc with hc | hc <;> subst hc <;> simp only [] <;> omega
      · simp only [List.mem_singleton] at hc
        subst hc; simp only []; omega
    · simp only [if_neg h16]
      rw [updateLoop_offset _ _ _ _ (by omega) (by omega)]
      intro c hc
      split at hc
      · simp only [List.mem_append, List.mem_singleton] at hc
        rcases hc with hc | hc <;> subst hc <;> simp only [] <;> omega
      · simp only [List.mem_singleton] at hc
        subst hc; simp only []; omega
  · simp only [if_neg h0]
    rw [updateLoop_offset _ _ _ _ (by omega) (by simp)]
    intro c hc
    split at hc
    · simp only [List.nil_append, List.mem_singleton] at hc
      subst hc; simp only []; omega
    · simp at hc

/-- C25. Partial-buffer invariant: after every sequence of `update` calls (of
any lengths, zero included) on a freshly constructed MAC, `partial_len < 16`,
`partial_len` is the total number of bytes fed so far modulo 16, the buffer is
still 16 bytes long, and every copy into the partial buffer made by a further
`update` call lies within indices 0..15. -/
theorem partial_buffer_invariant (block : List Nat) (pieces : List (List Nat)) :
    (pieces.foldl Poly1305.update (Poly1305.new block)).partial_len < 16 ∧
    (pieces.foldl Poly1305.update (Poly1305.new block)).partial_len
      = (pieces.map List.length).sum % 16 ∧
    (pieces.foldl Poly1305.update (Poly1305.new block)).partial_buf.length = 16 ∧
    (∀ data : List Nat,
      ∀ c ∈ (pieces.foldl Poly1305.update (Poly1305.new block)).updateCopies data,
        c.1 + c.2 ≤ 16) := by
  obtain ⟨hs, hw⟩ := foldl_update_same pieces (Poly1305.new block) (new_WF block)
  obtain ⟨_, _, _, _, h5, _⟩ := hs
  obtain ⟨_, _, _, _, v5, _, _⟩ := update_view (Poly1305.new block) pieces.flatten
    (new_WF block)
  have hp : (Poly1305.new block).pending = [] := rfl
  refine ⟨hw.1, ?_, hw.2, fun data => updateCopies_bounds _ data hw⟩
  rw [h5, v5, hp, List.nil_append, List.length_flatten]

/-! ### Independence from the entry counter -/

theorem set_counter_congr {c d : ChaCha20} (h : c.sameButCounter d) (k : Nat) :
    c.set_counter k = d.set_counter k := by
  apply ChaCha20.ext_state
  simp only [ChaCha20.set_counter]
  rw [sameButCounter_state h, List.set_set]

theorem polyKeyGen_congr {c d : ChaCha20} (h : c.sameButCounter d) :
    polyKeyGen c = polyKeyGen d := by
  rw [polyKeyGen_spec, polyKeyGen_spec, set_counter_congr h 1]
  simp only [KS, set_counter_congr h 0]

/-- C27. Independence from the entry counter: for two cipher states that agree
on every state word except the counter (word 12), `encrypt` on the same
plaintext, AAD and output buffer gives the same result (ciphertext, tag, exit
state or exception), and `decrypt` on the same ciphertext, AAD, tag and output
buffer gives the same result (verdict, output, exit state or exception). -/
theorem entry_counter_independence (c d : ChaCha20) (h : c.sameButCounter d) :
    (∀ plaintext aad output : List Nat,
      encrypt c plaintext aad output = encrypt d plaintext aad output) ∧
    (∀ ciphertext aad received_tag output : List Nat,
      decrypt c ciphertext aad received_tag output
        = decrypt d ciphertext aad received_tag output) := by
  constructor
  · intro plaintext aad output
    unfold encrypt
    rw [polyKeyGen_congr h]
  · intro ciphertext aad received_tag output
    unfold decrypt decryptTag
    rw [polyKeyGen_congr h]

/-- Witness of C27: the cipher of RFC 8439 §2.8.2 as constructed, and the same
cipher with its counter left at 5. -/
theorem entry_counter_independence_witness :
    rfc282Cipher.sameButCounter (rfc282Cipher.set_counter 5) ∧
    (∀ plaintext aad output : List Nat,
      encrypt rfc282Cipher plaintext aad output
        = encrypt (rfc282Cipher.set_counter 5) plaintext aad output) ∧
    (∀ ciphertext aad received_tag output : List Nat,
      decrypt rfc282Cipher ciphertext aad received_tag output
        = decrypt (rfc282Cipher.set_counter 5) ciphertext aad received_tag output) :=
  ⟨sameButCounter_set_counter rfc282Cipher 5,
    entry_counter_independence rfc282Cipher (rfc282Cipher.set_counter 5)
      (sameButCounter_set_counter rfc282Cipher 5)⟩

/-! ### The MAC input encoding -/

theorem leNat_leBytes (n x : Nat) : leNat (leBytes n x) = x % 256 ^ n := by
  induction n generalizing x with
  | zero => simp [leBytes, leNat, Nat.mod_one]
  | succ n ih =>
    simp only [leBytes, leNat, ih, Nat.pow_succ]
    have h1 := Nat.mod_mul_right_div_self x 256 (256 ^ n)
    have h2 : x % (256 ^ n * 256) = x % (256 * 256 ^ n) := by rw [Nat.mul_comm]
    rw [h2, Nat.mod_mul]

theorem le64_inj (a b : Nat) (ha : a < 2 ^ 64) (hb : b < 2 ^ 64) (h : le64 a = le64 b) :
    a = b := by
  have h2 := congrArg leNat h
  simp only [le64, leNat_leBytes] at h2
  have e : (256 : Nat) ^ 8 = 18446744073709551616 := by decide
  have e2 : (2 : Nat) ^ 64 = 18446744073709551616 := by decide
  rw [e] at h2
  rw [e2] at ha hb
  omega

theorem le64_length (a : Nat) : (le64 a).length = 8 := leBytes_length 8 _

/-- C28. The MAC input encoding is injective: for lengths below `2^64`, the
byte string `A ‖ zeros ‖ C ‖ zeros ‖ le64(|A|) ‖ le64(|C|)` that `encrypt` and
`decrypt` feed to the MAC determines `A` and `C`; the tag that `decrypt`
computes is the repository's Poly1305 over this byte string. -/
theorem macData_injective (A C A2 C2 : List Nat)
    (hA : A.length < 2 ^ 64) (hC : C.length < 2 ^ 64)
    (hA2 : A2.length < 2 ^ 64) (hC2 : C2.length < 2 ^ 64)
    (h : macData A C = macData A2 C2) :
    (A = A2 ∧ C = C2) ∧
    (∀ c : ChaCha20, decryptTag c C A
      = Except.ok (c.set_counter 1, polyTag (KS c 0) (macData A C))) := by
  refine ⟨?_, fun c => decryptTag_spec c C A⟩
  simp only [macData, List.append_assoc] at h
  have hlen := congrArg List.length h
  simp only [List.length_append, List.length_replicate, le64_length] at hlen
  have htail : le64 A.length ++ le64 C.length = le64 A2.length ++ le64 C2.length := by
    have h2 : (A ++ (List.replicate (padLen A.length) 0
          ++ (C ++ List.replicate (padLen C.length) 0)))
          ++ (le64 A.length ++ le64 C.length)
        = (A2 ++ (List.replicate (padLen A2.length) 0
          ++ (C2 ++ List.replicate (padLen C2.length) 0)))
          ++ (le64 A2.length ++ le64 C2.length) := by
      simpa only [List.append_assoc] using h
    exact List.append_inj_right' h2 (by simp only [List.length_append, le64_length])
  have hla : le64 A.length = le64 A2.length :=
    List.append_inj_left htail (by rw [le64_length, le64_length])
  have hlc : le64 C.length = le64 C2.length :=
    List.append_inj_right htail (by rw [le64_length, le64_length])
  have eA := le64_inj _ _ hA hA2 hla
  have eC := le64_inj _ _ hC hC2 hlc
  have hAeq : A = A2 := List.append_inj_left h eA
  have h2 := List.append_inj_right h eA
  have h3 := List.append_inj_right h2 (by rw [List.length_replicate, List.length_replicate, eA])
  exact ⟨hAeq, List.append_inj_left h3 eC⟩

/-- Witness of C28 at the AAD and ciphertext of RFC 8439 §2.8.2. -/
theorem macData_injective_witness :
    rfc282Aad.length < 2 ^ 64 ∧ rfc282Ciphertext.length < 2 ^ 64 ∧
    macData rfc282Aad rfc282Ciphertext = macData rfc282Aad rfc282Ciphertext ∧
    rfc282Aad = rfc282Aad ∧ rfc282Ciphertext = rfc282Ciphertext :=
  ⟨by decide, by decide, rfl,
    (macData_injective rfc282Aad rfc282Ciphertext rfc282Aad rfc282Ciphertext
      (by decide) (by decide) (by decide) (by decide) rfl).1⟩

set_option maxRecDepth 100000 in
/-- C26, as the code behaves: after `update` with the single byte `01` under the
key of RFC 8439 §2.5.2, `update_pad16(1)` followed by `final_` gives a tag that
differs from the tag after `update` with 15 zero bytes (which is also what
`poly_pad16` feeds) followed by `final_`. -/
theorem update_pad16_differs :
    ((((Poly1305.new rfc252Key).update [1]).update_pad16 1).final_).2
      = [249, 227, 17, 196, 238, 10, 198, 187, 128, 108, 195, 188, 97, 171, 25, 32] ∧
    ((((Poly1305.new rfc252Key).update [1]).update
        (List.replicate ((16 - 1 % 16) % 16) 0)).final_).2
      = [171, 101, 45, 158, 248, 13, 104, 5, 98, 217, 47, 208, 17, 169, 4, 46] ∧
    ((poly_pad16 ((Poly1305.new rfc252Key).update [1]) 1).final_).2
      = [171, 101, 45, 158, 248, 13, 104, 5, 98, 217, 47, 208, 17, 169, 4, 46] := by
  decide!

/-! ### Limb arithmetic -/

theorem shr26 (x : Nat) : x >>> 26 = x / 67108864 := Nat.shiftRight_eq_div_pow x 26

theorem u64_of_lt (x : Nat) (h : x < 18446744073709551616) : u64 x = x :=
  Nat.mod_eq_of_lt h

theorem mul_mod_p_eq_exact (r acc : Limbs)
    (hr0 : r.l0 < 2 ^ 26) (hr1 : r.l1 < 2 ^ 26) (hr2 : r.l2 < 2 ^ 26) (hr3 : r.l3 < 2 ^ 26)
    (hr4 : r.l4 < 2 ^ 26)
    (ha0 : acc.l0 ≤ 2 ^ 26) (ha1 : acc.l1 ≤ 2 ^ 26) (ha2 : acc.l2 ≤ 2 ^ 26)
    (ha3 : acc.l3 ≤ 2 ^ 26) (ha4 : acc.l4 ≤ 2 ^ 26) :
    mul_mod_p r acc = carryFold (mulSums r acc) := by
  obtain ⟨r0, r1, r2, r3, r4⟩ := r
  obtain ⟨a0, a1, a2, a3, a4⟩ := acc
  simp only [] at hr0 hr1 hr2 hr3 hr4 ha0 ha1 ha2 ha3 ha4
  have e26 : (2 : Nat) ^ 26 = 67108864 := by decide
  rw [e26] at hr0 hr1 hr2 hr3 hr4 ha0 ha1 ha2 ha3 ha4
  have p00 := Nat.mul_le_mul ha0 (Nat.le_of_lt hr0)
  have p01 := Nat.mul_le_mul ha0 (Nat.le_of_lt hr1)
  have p02 := Nat.mul_le_mul ha0 (Nat.le_of_lt hr2)
  have p03 := Nat.mul_le_mul ha0 (Nat.le_of_lt hr3)
  have p04 := Nat.mul_le_mul ha0 (Nat.le_of_lt hr4)
  have p10 := Nat.mul_le_mul ha1 (Nat.le_of_lt hr0)
  have p11 := Nat.mul_le_mul ha1 (Nat.le_of_lt hr1)
  have p12 := Nat.mul_le_mul ha1 (Nat.le_of_lt hr2)
  have p13 := Nat.mul_le_mul ha1 (Nat.le_of_lt hr3)
  have p20 := Nat.mul_le_mul ha2 (Nat.le_of_lt hr0)
  have p21 := Nat.mul_le_mul ha2 (Nat.le_of_lt hr1)
  have p22 := Nat.mul_le_mul ha2 (Nat.le_of_lt hr2)
  have p30 := Nat.mul_le_mul ha3 (Nat.le_of_lt hr0)
  have p31 := Nat.mul_le_mul ha3 (Nat.le_of_lt hr1)
  have p40 := Nat.mul_le_mul ha4 (Nat.le_of_lt hr0)
  have q14 := Nat.mul_le_mul ha1 (show r4 * 5 ≤ 67108864 * 5 by omega)
  have q23 := Nat.mul_le_mul ha2 (show r3 * 5 ≤ 67108864 * 5 by omega)
  have q24 := Nat.mul_le_mul ha2 (show r4 * 5 ≤ 67108864 * 5 by omega)
  have q32 := Nat.mul_le_mul ha3 (show r2 * 5 ≤ 67108864 * 5 by omega)
  have q33 := Nat.mul_le_mul ha3 (show r3 * 5 ≤ 67108864 * 5 by omega)
  have q34 := Nat.mul_le_mul ha3 (show r4 * 5 ≤ 67108864 * 5 by omega)
  have q41 := Nat.mul_le_mul ha4 (show r1 * 5 ≤ 67108864 * 5 by omega)
  have q42 := Nat.mul_le_mul ha4 (show r2 * 5 ≤ 67108864 * 5 by omega)
  have q43 := Nat.mul_le_mul ha4 (show r3 * 5 ≤ 67108864 * 5 by omega)
  have q44 := Nat.mul_le_mul ha4 (show r4 * 5 ≤ 67108864 * 5 by omega)
  simp only [mul_mod_p, carryFold, mulSums, add64, mul64, and_mask26, shr26]
  simp (disch := omega) only [u64_of_lt]

theorem polyPrime_eq : polyPrime = 1361129467683753853853498429727072845819 := by decide

theorem modEq_of_add_mul {x y k : Nat} (h : x + polyPrime * k = y) :
    x ≡ y [MOD polyPrime] := by
  unfold Nat.ModEq
  rw [← h, Nat.add_mul_mod_self_left]

theorem carryFold_value (t : Limbs) :
    ∃ k, (carryFold t).value + polyPrime * k = t.value := by
  obtain ⟨t0, t1, t2, t3, t4⟩ := t
  refine ⟨(t4 + (t3 + (t2 + (t1 + t0 / 67108864) / 67108864) / 67108864) / 67108864)
    / 67108864, ?_⟩
  simp only [carryFold, Limbs.value, polyPrime_eq]
  norm_num
  omega

theorem mulSums_value (r acc : Limbs) :
    ∃ k, (mulSums r acc).value + polyPrime * k = acc.value * r.value := by
  obtain ⟨r0, r1, r2, r3, r4⟩ := r
  obtain ⟨a0, a1, a2, a3, a4⟩ := acc
  refine ⟨a1 * r4 + (a2 * r3 + a2 * r4 * 2 ^ 26)
    + (a3 * r2 + a3 * r3 * 2 ^ 26 + a3 * r4 * 2 ^ 52)
    + (a4 * r1 + a4 * r2 * 2 ^ 26 + a4 * r3 * 2 ^ 52 + a4 * r4 * 2 ^ 78), ?_⟩
  simp only [mulSums, Limbs.value, polyPrime_eq]
  ring

theorem mul_mod_p_accBound (r acc : Limbs) (hr : r.lt26) (ha : acc.le26) :
    (mul_mod_p r acc).accBound := by
  obtain ⟨hr0, hr1, hr2, hr3, hr4⟩ := hr
  obtain ⟨ha0, ha1, ha2, ha3, ha4⟩ := ha
  rw [mul_mod_p_eq_exact r acc hr0 hr1 hr2 hr3 hr4 ha0 ha1 ha2 ha3 ha4]
  obtain ⟨r0, r1, r2, r3, r4⟩ := r
  obtain ⟨a0, a1, a2, a3, a4⟩ := acc
  simp only [] at hr0 hr1 hr2 hr3 hr4 ha0 ha1 ha2 ha3 ha4
  have e26 : (2 : Nat) ^ 26 = 67108864 := by decide
  rw [e26] at hr0 hr1 hr2 hr3 hr4 ha0 ha1 ha2 ha3 ha4
  have p00 := Nat.mul_le_mul ha0 (Nat.le_of_lt hr0)
  have p01 := Nat.mul_le_mul ha0 (Nat.le_of_lt hr1)
  have p02 := Nat.mul_le_mul ha0 (Nat.le_of_lt hr2)
  have p03 := Nat.mul_le_mul ha0 (Nat.le_of_lt hr3)
  have p04 := Nat.mul_le_mul ha0 (Nat.le_of_lt hr4)
  have p10 := Nat.mul_le_mul ha1 (Nat.le_of_lt hr0)
  have p11 := Nat.mul_le_mul ha1 (Nat.le_of_lt hr1)
  have p12 := Nat.mul_le_mul ha1 (Nat.le_of_lt hr2)
  have p13 := Nat.mul_le_mul ha1 (Nat.le_of_lt hr3)
  have p20 := Nat.mul_le_mul ha2 (Nat.le_of_lt hr0)
  have p21 := Nat.mul_le_mul ha2 (Nat.le_of_lt hr1)
  have p22 := Nat.mul_le_mul ha2 (Nat.le_of_lt hr2)
  have p30 := Nat.mul_le_mul ha3 (Nat.le_of_lt hr0)
  have p31 := Nat.mul_le_mul ha3 (Nat.le_of_lt hr1)
  have p40 := Nat.mul_le_mul ha4 (Nat.le_of_lt hr0)
  have q14 := Nat.mul_le_mul ha1 (show r4 * 5 ≤ 67108864 * 5 by omega)
  have q23 := Nat.mul_le_mul ha2 (show r3 * 5 ≤ 67108864 * 5 by omega)
  have q24 := Nat.mul_le_mul ha2 (show r4 * 5 ≤ 67108864 * 5 by omega)
  have q32 := Nat.mul_le_mul ha3 (show r2 * 5 ≤ 67108864 * 5 by omega)
  have q33 := Nat.mul_le_mul ha3 (show r3 * 5 ≤ 67108864 * 5 by omega)
  have q34 := Nat.mul_le_mul ha3 (show r4 * 5 ≤ 67108864 * 5 by omega)
  have q41 := Nat.mul_le_mul ha4 (show r1 * 5 ≤ 67108864 * 5 by omega)
  have q42 := Nat.mul_le_mul ha4 (show r2 * 5 ≤ 67108864 * 5 by omega)
  have q43 := Nat.mul_le_mul ha4 (show r3 * 5 ≤ 67108864 * 5 by omega)
  have q44 := Nat.mul_le_mul ha4 (show r4 * 5 ≤ 67108864 * 5 by omega)
  simp only [Limbs.accBound, carryFold, mulSums, e26]
  refine ⟨by omega, ?_, by omega, by omega, by omega⟩
  omega

theorem mul_mod_p_value (r acc : Limbs) (hr : r.lt26) (ha : acc.le26) :
    (mul_mod_p r acc).value ≡ acc.value * r.value [MOD polyPrime] := by
  obtain ⟨hr0, hr1, hr2, hr3, hr4⟩ := hr
  obtain ⟨ha0, ha1, ha2, ha3, ha4⟩ := ha
  rw [mul_mod_p_eq_exact r acc hr0 hr1 hr2 hr3 hr4 ha0 ha1 ha2 ha3 ha4]
  obtain ⟨k1, h1⟩ := carryFold_value (mulSums r acc)
  obtain ⟨k2, h2⟩ := mulSums_value r acc
  exact (modEq_of_add_mul h1).trans (modEq_of_add_mul h2)

theorem add_limbs_eq_exact (a b : Limbs) (ha : a.accBound) (hb : b.lt26) :
    add_limbs a b = addExact a b := by
  obtain ⟨ha0, ha1, ha2, ha3, ha4⟩ := ha
  obtain ⟨hb0, hb1, hb2, hb3, hb4⟩ := hb
  obtain ⟨b0, b1, b2, b3, b4⟩ := b
  obtain ⟨a0, a1, a2, a3, a4⟩ := a
  simp only [] at hb0 hb1 hb2 hb3 hb4 ha0 ha1 ha2 ha3 ha4
  have e26 : (2 : Nat) ^ 26 = 67108864 := by decide
  rw [e26] at hb0 hb1 hb2 hb3 hb4 ha0 ha1 ha2 ha3 ha4
  simp only [add_limbs, addStep, addExact, add64, mul64, and_mask26, shr26]
  simp (disch := omega) only [u64_of_lt]

theorem addExact_value (a b : Limbs) :
    ∃ k, (addExact a b).value + polyPrime * k = a.value + b.value := by
  obtain ⟨b0, b1, b2, b3, b4⟩ := b
  obtain ⟨a0, a1, a2, a3, a4⟩ := a
  refine ⟨(a4 + (b4 + (a3 + (b3 + (a2 + (b2 + (a1 + (b1 + (a0 + (b0 + 0)) / 67108864))
    / 67108864)) / 67108864)) / 67108864)) / 67108864, ?_⟩
  simp only [addExact, Limbs.value, polyPrime_eq]
  norm_num
  omega

theorem add_limbs_value (a b : Limbs) (ha : a.accBound) (hb : b.lt26) :
    (add_limbs a b).value ≡ a.value + b.value [MOD polyPrime] := by
  rw [add_limbs_eq_exact a b ha hb]
  obtain ⟨k, h⟩ := addExact_value a b
  exact modEq_of_add_mul h

theorem add_limbs_le26 (a b : Limbs) (ha : a.accBound) (hb : b.lt26) :
    (add_limbs a b).le26 := by
  rw [add_limbs_eq_exact a b ha hb]
  obtain ⟨ha0, ha1, ha2, ha3, ha4⟩ := ha
  obtain ⟨hb0, hb1, hb2, hb3, hb4⟩ := hb
  obtain ⟨b0, b1, b2, b3, b4⟩ := b
  obtain ⟨a0, a1, a2, a3, a4⟩ := a
  simp only [] at hb0 hb1 hb2 hb3 hb4 ha0 ha1 ha2 ha3 ha4
  have e26 : (2 : Nat) ^ 26 = 67108864 := by decide
  rw [e26] at hb0 hb1 hb2 hb3 hb4 ha0 ha1 ha2 ha3 ha4
  simp only [Limbs.le26, addExact, e26]
  omega

theorem leNat_append (a b : List Nat) : leNat (a ++ b) = leNat a + 256 ^ a.length * leNat b := by
  induction a with
  | nil => simp [leNat]
  | cons x xs ih =>
    show x + 256 * leNat (xs ++ b) = (x + 256 * leNat xs) + 256 ^ (xs.length + 1) * leNat b
    rw [ih, Nat.pow_succ]
    ring

theorem shl64_one (bit : Nat) (h : bit < 64) : shl64 1 bit = 2 ^ bit := by
  simp only [shl64, Nat.shiftLeft_eq, Nat.one_mul]
  exact u64_of_lt _ (Nat.pow_lt_pow_right (by decide) h)

theorem orAt_value (a : Limbs) (idx bit : Nat) (hi : idx < 5) (h : a.get idx < 2 ^ bit) :
    (a.orAt idx (2 ^ bit)).value = a.value + 2 ^ bit * 2 ^ (26 * idx) := by
  have hz : 2 ^ bit % 2 ^ bit = 0 := Nat.mod_self _
  have h5 : idx = 0 ∨ idx = 1 ∨ idx = 2 ∨ idx = 3 ∨ idx = 4 := by omega
  rcases h5 with rfl | rfl | rfl | rfl | rfl
  all_goals
    simp only [Limbs.get] at h
    simp only [Limbs.orAt, Limbs.value]
    rw [or_eq_add_of_lt _ _ bit h hz]
    ring

theorem orAt_lt26 (a : Limbs) (idx bit : Nat) (ha : a.lt26) (hb : bit < 26) :
    (a.orAt idx (2 ^ bit)).lt26 := by
  obtain ⟨h0, h1, h2, h3, h4⟩ := ha
  have hv : 2 ^ bit < 2 ^ 26 := Nat.pow_lt_pow_right (by decide) hb
  unfold Limbs.orAt
  split
  · exact ⟨Nat.or_lt_two_pow h0 hv, h1, h2, h3, h4⟩
  · exact ⟨h0, Nat.or_lt_two_pow h1 hv, h2, h3, h4⟩
  · exact ⟨h0, h1, Nat.or_lt_two_pow h2 hv, h3, h4⟩
  · exact ⟨h0, h1, h2, Nat.or_lt_two_pow h3 hv, h4⟩
  · exact ⟨h0, h1, h2, h3, Nat.or_lt_two_pow h4 hv⟩
  · exact ⟨h0, h1, h2, h3, h4⟩

theorem limb2_or (lo hi : Nat) (hlo : lo < 18446744073709551616) :
    (lo >>> 52) ||| shl64 hi 12
      = lo / 4503599627370496 + hi * 4096 % 18446744073709551616 := by
  rw [Nat.shiftRight_eq_div_pow]
  simp only [shl64, u64, Nat.shiftLeft_eq]
  exact or_eq_add_of_lt _ _ 12 (by omega) (by omega)

/-- The five limbs read from 16 bytes before the marker bit is set. -/
theorem bytes_to_limbs_eq (bytes : List Nat) (flag : Bool) (l : Nat) :
    bytes_to_limbs bytes flag l =
      (Limbs.mk
        (u64 (leNat (readAt bytes 0 8)) % 67108864)
        (u64 (leNat (readAt bytes 0 8)) / 67108864 % 67108864)
        ((u64 (leNat (readAt bytes 0 8)) / 4503599627370496
          + u64 (leNat (readAt bytes 8 8)) * 4096 % 18446744073709551616) % 67108864)
        (u64 (leNat (readAt bytes 8 8)) / 16384 % 67108864)
        (u64 (leNat (readAt bytes 8 8)) / 1099511627776)).orAt (l * 8 / 26)
          (2 ^ (l * 8 % 26)) := by
  have hlow : u64 (leNat (readAt bytes 0 8)) < 18446744073709551616 :=
    Nat.mod_lt _ (by decide)
  have o2 := limb2_or (u64 (leNat (readAt bytes 0 8))) (u64 (leNat (readAt bytes 8 8))) hlow
  simp only [bytes_to_limbs, o2]
  simp only [and_mask26, Nat.shiftRight_eq_div_pow,
    shl64_one _ (show l * 8 % 26 < 64 by omega)]

theorem bytes_to_limbs_lt26 (bytes : List Nat) (flag : Bool) (l : Nat) :
    (bytes_to_limbs bytes flag l).lt26 := by
  rw [bytes_to_limbs_eq]
  apply orAt_lt26 _ _ _ _ (by omega)
  have hhigh : u64 (leNat (readAt bytes 8 8)) < 18446744073709551616 :=
    Nat.mod_lt _ (by decide)
  refine ⟨?_, ?_, ?_, ?_, ?_⟩ <;> simp only [] <;> omega

theorem leNat_split16 (block : List Nat) (hlen : block.length = 16) :
    leNat block = leNat (readAt block 0 8) + 18446744073709551616 * leNat (readAt block 8 8) := by
  have h := readAt_add block 0 8 8
  have hall : readAt block 0 (8 + 8) = block := by
    simp only [readAt, List.drop_zero]
    exact List.take_of_length_le (by omega)
  rw [hall] at h
  conv_lhs => rw [← h]
  rw [leNat_append, readAt_length _ _ _ (by omega)]
  norm_num

/-- The value of the limbs that `bytes_to_limbs` builds from a 16-byte block
whose bytes from index `l` on are zero: the little-endian value of the block
plus the marker `2^(8 l)`. -/
theorem bytes_to_limbs_value (block : List Nat) (flag : Bool) (l : Nat)
    (hlen : block.length = 16) (hb : ∀ b ∈ block, b < 256) (hl : l ≤ 16)
    (hm : leNat block < 2 ^ (8 * l)) :
    (bytes_to_limbs block flag l).value = leNat block + 2 ^ (8 * l) := by
  have hlo := u64_leNat_readAt block hb 0
  have hhi := u64_leNat_readAt block hb 8
  have hlo2 : leNat (readAt block 0 8) < 18446744073709551616 := by
    rw [← hlo]; exact Nat.mod_lt _ (by decide)
  have hhi2 : leNat (readAt block 8 8) < 18446744073709551616 := by
    rw [← hhi]; exact Nat.mod_lt _ (by decide)
  have hsplit := leNat_split16 block hlen
  rw [bytes_to_limbs_eq, hlo, hhi]
  rw [hsplit] at hm ⊢
  generalize leNat (readAt block 0 8) = lo at *
  generalize leNat (readAt block 8 8) = hi at *
  rw [orAt_value _ _ _ (by omega)]
  · have hp : 2 ^ (l * 8 % 26) * 2 ^ (26 * (l * 8 / 26)) = 2 ^ (8 * l) := by
      rw [← Nat.pow_add]
      congr 1
      omega
    rw [hp]
    simp only [Limbs.value]
    omega
  · interval_cases l
    all_goals
      norm_num [Limbs.get] at hm ⊢
      omega

theorem new_r_lt26 (block : List Nat) : (Poly1305.new block).r.lt26 := by
  refine ⟨?_, ?_, ?_, ?_, ?_⟩ <;> simp only [Poly1305.new, and_mask26] <;>
    exact Nat.mod_lt _ (by decide)

/-- One call of `process_block` with `block_size = l` on limbs: the bound on
the accumulator is kept and the value becomes `(acc + LE(block) + 2^(8 l)) * r`
modulo `2^130 - 5`. -/
theorem process_block_limbs (r acc : Limbs) (block : List Nat) (flag : Bool) (l : Nat)
    (hr : r.lt26) (ha : acc.accBound) (hlen : block.length = 16)
    (hb : ∀ b ∈ block, b < 256) (hl : l ≤ 16) (hm : leNat block < 2 ^ (8 * l)) :
    (mul_mod_p r (add_limbs acc (bytes_to_limbs block flag l))).accBound ∧
    (mul_mod_p r (add_limbs acc (bytes_to_limbs block flag l))).value
      ≡ (acc.value + (leNat block + 2 ^ (8 * l))) * r.value [MOD polyPrime] := by
  have h1 := bytes_to_limbs_lt26 block flag l
  have h2 := add_limbs_le26 acc _ ha h1
  refine ⟨mul_mod_p_accBound r _ hr h2, ?_⟩
  refine (mul_mod_p_value r _ hr h2).trans ?_
  apply Nat.ModEq.mul_right
  rw [← bytes_to_limbs_value block flag l hlen hb hl hm]
  exact add_limbs_value acc _ ha h1

theorem blockStep_accBound (r acc : Limbs) (block : List Nat) (hr : r.lt26)
    (ha : acc.accBound) : (blockStep r acc block).accBound :=
  mul_mod_p_accBound r _ hr (add_limbs_le26 acc _ ha (bytes_to_limbs_lt26 block true 16))

theorem blocksFold_accBound (r : Limbs) (k : Nat) (acc : Limbs) (data : List Nat)
    (hr : r.lt26) (ha : acc.accBound) : (blocksFold r k acc data).accBound := by
  induction k generalizing acc data with
  | zero => exact ha
  | succ k ih => exact ih _ _ (blockStep_accBound r acc _ hr ha)

theorem zero_accBound : (Limbs.mk 0 0 0 0 0).accBound := by
  refine ⟨?_, ?_, ?_, ?_, ?_⟩ <;> simp

theorem foldl_update_inv (pieces : List (List Nat)) (p : Poly1305) (hwf : p.WF)
    (hr : p.r.lt26) (ha : p.acc.accBound) :
    (pieces.foldl Poly1305.update p).WF ∧ (pieces.foldl Poly1305.update p).r = p.r ∧
      (pieces.foldl Poly1305.update p).acc.accBound := by
  induction pieces generalizing p with
  | nil => exact ⟨hwf, rfl, ha⟩
  | cons d ds ih =>
    obtain ⟨a1, _, _, a4, _, _, a7⟩ := update_view p d hwf
    have hacc : (p.update d).acc.accBound := by
      rw [a4]
      exact blocksFold_accBound _ _ _ _ hr ha
    obtain ⟨i1, i2, i3⟩ := ih (p.update d) a7 (by rw [a1]; exact hr) hacc
    exact ⟨i1, by rw [List.foldl_cons, i2, a1], i3⟩

theorem hornerFrom_snoc (r h : Nat) (cs : List Nat) (c : Nat) :
    hornerFrom r h (cs ++ [c]) = (hornerFrom r h cs + c) * r := by
  simp [hornerFrom, List.foldl_append]

theorem blocksFold_value (r : Limbs) (k : Nat) (acc : Limbs) (data : List Nat)
    (hr : r.lt26) (ha : acc.accBound) (hb : ∀ b ∈ data, b < 256)
    (hk : 16 * k ≤ data.length) :
    (blocksFold r k acc data).value
      ≡ hornerFrom r.value acc.value
          ((List.range k).map (fun i => leNat (readAt data (16 * i) 16) + 2 ^ 128))
        [MOD polyPrime] := by
  induction k with
  | zero => exact Nat.ModEq.refl _
  | succ k ih =>
    have ih2 := ih (by omega)
    have hA := blocksFold_accBound r k acc data hr ha
    have hblk : (readAt data (16 * k) 16).length = 16 := readAt_length _ _ _ (by omega)
    have hbb := readAt_bytes data hb (16 * k) 16
    have hlt : leNat (readAt data (16 * k) 16) < 2 ^ (8 * 16) := by
      have := leNat_lt _ hbb
      rw [hblk] at this
      norm_num at this ⊢
      exact this
    have hstep := (process_block_limbs r (blocksFold r k acc data) (readAt data (16 * k) 16)
      true 16 hr hA hblk hbb (le_refl _) hlt).2
    have e : blocksFold r (k + 1) acc data
        = mul_mod_p r (add_limbs (blocksFold r k acc data)
            (bytes_to_limbs (readAt data (16 * k) 16) true 16)) := by
      rw [blocksFold_add r k 1 acc data]
      show blockStep r _ (readAt (data.drop (16 * k)) 0 16) = _
      rw [readAt_drop, Nat.add_zero]
      rfl
    rw [e, List.range_succ, List.map_append, List.map_singleton, hornerFrom_snoc]
    refine hstep.trans ?_
    exact Nat.ModEq.mul_right _ (Nat.ModEq.add_right _ ih2)

theorem leNat_zeros (n : Nat) : leNat (List.replicate n 0) = 0 := by
  induction n with
  | zero => rfl
  | succ n ih => simp [List.replicate_succ, leNat, ih]

theorem new_pending (block : List Nat) : (Poly1305.new block).pending = [] := by
  show readAt _ 0 0 = []
  exact readAt_zero_len _ _

theorem finalPartial_value (p : Poly1305) (hwf : p.WF) (hr : p.r.lt26) (ha : p.acc.accBound)
    (hb : ∀ b ∈ p.pending, b < 256) :
    p.finalPartial.acc.value
      ≡ hornerFrom p.r.value p.acc.value
          (if p.partial_len = 0 then [] else [leNat p.pending + 2 ^ (8 * p.partial_len)])
        [MOD polyPrime] := by
  obtain ⟨hpl, hbuf⟩ := hwf
  by_cases h0 : p.partial_len = 0
  · have e : p.finalPartial = p := by
      simp [Poly1305.finalPartial, h0]
    rw [e, if_pos h0]
    exact Nat.ModEq.refl _
  · rw [if_neg h0]
    have hlen : p.pending.length = p.partial_len := pending_length p (by omega)
    have hblock : writeAt (List.replicate 16 0) 0 p.pending
        = p.pending ++ List.replicate (16 - p.partial_len) 0 := by
      simp only [writeAt, List.take_zero, List.nil_append, Nat.zero_add, hlen,
        List.drop_replicate]
    have e : p.finalPartial.acc = mul_mod_p p.r (add_limbs p.acc
        (bytes_to_limbs (p.pending ++ List.replicate (16 - p.partial_len) 0) true
          p.partial_len)) := by
      rw [← hblock]
      simp [Poly1305.finalPartial, Nat.pos_of_ne_zero h0, Poly1305.process_block,
        Poly1305.pending]
    have hval : leNat (p.pending ++ List.replicate (16 - p.partial_len) 0) = leNat p.pending := by
      rw [leNat_append, leNat_zeros]
      simp
    have hlt : leNat p.pending < 2 ^ (8 * p.partial_len) := by
      have := leNat_lt _ hb
      rw [hlen] at this
      rw [Nat.pow_mul]
      exact this
    have hstep := (process_block_limbs p.r p.acc
      (p.pending ++ List.replicate (16 - p.partial_len) 0) true p.partial_len hr ha
      (by rw [List.length_append, hlen, List.length_replicate]; omega)
      (by
        intro b hbm
        rcases List.mem_append.mp hbm with h | h
        · exact hb b h
        · rw [List.eq_of_mem_replicate h]; decide)
      (by omega) (by rw [hval]; exact hlt)).2
    rw [hval] at hstep
    rw [e]
    show _ ≡ (p.acc.value + _) * p.r.value [MOD polyPrime]
    exact hstep

/-- C21. For every key block and every message of bytes, after `update(msg)`
on the freshly constructed MAC and the partial-block step of `final_`, the
value `sum of acc[i] * 2^(26 i)` is congruent modulo `2^130 - 5` to the Horner
evaluation `((...(c_1 * r + c_2) * r + ...) + c_m) * r` over the block values
of the message: `LE(block) + 2^128` for each full block, `LE(tail) + 2^(8 l)`
for a tail of `0 < l < 16` bytes. -/
theorem accumulator_horner (key msg : List Nat) (hmsg : ∀ b ∈ msg, b < 256) :
    ((Poly1305.new key).update msg).finalPartial.acc.value
      ≡ hornerFrom (Poly1305.new key).r.value 0 (blockValues msg) [MOD polyPrime] := by
  obtain ⟨a1, _, _, a4, a5, a6, a7⟩ := update_view (Poly1305.new key) msg (new_WF key)
  rw [new_pending, List.nil_append] at a4 a5 a6
  have hr : ((Poly1305.new key).update msg).r.lt26 := by
    rw [a1]; exact new_r_lt26 key
  have hk : 16 * (msg.length / 16) ≤ msg.length := by omega
  have hacc : ((Poly1305.new key).update msg).acc.accBound := by
    rw [a4]
    exact blocksFold_accBound _ _ _ _ (new_r_lt26 key) zero_accBound
  have hpb : ∀ b ∈ ((Poly1305.new key).update msg).pending, b < 256 := by
    rw [a6]
    intro b hb
    exact hmsg b (List.mem_of_mem_drop hb)
  have h1 := finalPartial_value _ a7 hr hacc hpb
  have h2 := blocksFold_value (Poly1305.new key).r (msg.length / 16) (Limbs.mk 0 0 0 0 0) msg
    (new_r_lt26 key) zero_accBound hmsg hk
  have hv : (Limbs.mk 0 0 0 0 0).value = 0 := by norm_num [Limbs.value]
  rw [hv] at h2
  rw [a1, a4, a5, a6] at h1
  refine h1.trans ?_
  unfold blockValues
  by_cases h0 : msg.length % 16 = 0
  · rw [if_pos h0, List.append_nil]
    exact h2
  · rw [if_neg h0, hornerFrom_snoc]
    show (_ + _) * _ ≡ _ [MOD polyPrime]
    exact Nat.ModEq.mul_right _ (Nat.ModEq.add_right _ h2)

/-- Witness of C21: the key and the 34-byte message of RFC 8439 §2.5.2 (two full
blocks and a tail of two bytes). -/
theorem accumulator_horner_witness :
    (∀ b ∈ rfc252Msg, b < 256) ∧
      ((Poly1305.new rfc252Key).update rfc252Msg).finalPartial.acc.value
        ≡ hornerFrom (Poly1305.new rfc252Key).r.value 0 (blockValues rfc252Msg)
          [MOD polyPrime] :=
  ⟨by decide, accumulator_horner rfc252Key rfc252Msg (by decide)⟩

/-- The tag that `final_` writes is the one it writes on the object left by
its partial-block step with `partial_len` cleared: `finalPartial` is the first
statement of `final_`. -/
theorem final_via_finalPartial (p : Poly1305) :
    p.final_.2 = (Poly1305.mk p.finalPartial.r p.finalPartial.s0 p.finalPartial.s1
      p.finalPartial.acc p.finalPartial.partial_buf 0).final_.2 := by
  by_cases h : 0 < p.partial_len
  · simp only [Poly1305.final_, Poly1305.finalPartial, h, if_true, Nat.lt_irrefl, if_false]
  · simp only [Poly1305.final_, Poly1305.finalPartial, h, if_false, Nat.lt_irrefl]

/-- C22. For every `r` that the constructor produces and every accumulator
whose limbs are at most `2^26`, the value of the limbs after `mul_mod_p` is
congruent modulo `2^130 - 5` to the product of the value of the accumulator
and the value of `r`. -/
theorem mul_mod_p_correct (block : List Nat) (acc : Limbs) (ha : acc.le26) :
    (Poly1305.new block).r.lt26 ∧
    (mul_mod_p (Poly1305.new block).r acc).value
      ≡ acc.value * (Poly1305.new block).r.value [MOD polyPrime] :=
  ⟨new_r_lt26 block, mul_mod_p_value _ acc (new_r_lt26 block) ha⟩

/-- Witness of C22: the key of RFC 8439 §2.5.2 and the accumulator with every limb
equal to `2^26`. -/
theorem mul_mod_p_correct_witness :
    (Limbs.mk 67108864 67108864 67108864 67108864 67108864).le26 ∧
    (Poly1305.new rfc252Key).r.lt26 ∧
    (mul_mod_p (Poly1305.new rfc252Key).r
        (Limbs.mk 67108864 67108864 67108864 67108864 67108864)).value
      ≡ (Limbs.mk 67108864 67108864 67108864 67108864 67108864).value
          * (Poly1305.new rfc252Key).r.value [MOD polyPrime] :=
  ⟨⟨by decide, by decide, by decide, by decide, by decide⟩,
    mul_mod_p_correct rfc252Key (Limbs.mk 67108864 67108864 67108864 67108864 67108864)
      ⟨by decide, by decide, by decide, by decide, by decide⟩⟩

set_option maxRecDepth 100000 in
/-- C24, as stated, fails: with `r = 3` and the block `limbMsg`, the
accumulator after `update` is `4, 2^26, 0, 0, 2`: limb 1 equals `2^26`. -/
theorem limb_one_reaches_two_pow_26 :
    ((Poly1305.new limbKey).update limbMsg).acc = Limbs.mk 4 67108864 0 0 2 ∧
      ¬ ((Poly1305.new limbKey).update limbMsg).acc.l1 < 2 ^ 26 := by
  have h : ((Poly1305.new limbKey).update limbMsg).acc = Limbs.mk 4 67108864 0 0 2 := by
    decide!
  refine ⟨h, ?_⟩
  rw [h]
  decide

/-- C24, amended. For every key block and every sequence of `update` calls on
the freshly constructed MAC, limbs 0, 2, 3, 4 of the accumulator are below
`2^26` and limb 1 is below `2^26 + 32`; from such an accumulator the limbs
that `add_limbs` leaves are at most `2^26`, and the limbs that `mul_mod_p`
leaves (the accumulator after `process_block`) satisfy the same bound again,
for every block and block size. -/
theorem limb_bound_invariant (block : List Nat) (pieces : List (List Nat))
    (blk : List Nat) (flag : Bool) (l : Nat) :
    (pieces.foldl Poly1305.update (Poly1305.new block)).acc.accBound ∧
    (add_limbs (pieces.foldl Poly1305.update (Poly1305.new block)).acc
      (bytes_to_limbs blk flag l)).le26 ∧
    (mul_mod_p (pieces.foldl Poly1305.update (Poly1305.new block)).r
      (add_limbs (pieces.foldl Poly1305.update (Poly1305.new block)).acc
        (bytes_to_limbs blk flag l))).accBound ∧
    ((pieces.foldl Poly1305.update (Poly1305.new block)).process_block blk flag l).acc.accBound
    := by
  obtain ⟨_, i2, i3⟩ := foldl_update_inv pieces (Poly1305.new block) (new_WF block)
    (new_r_lt26 block) zero_accBound
  have hr : (pieces.foldl Poly1305.update (Poly1305.new block)).r.lt26 := by
    rw [i2]; exact new_r_lt26 block
  have h1 := add_limbs_le26 _ _ i3 (bytes_to_limbs_lt26 blk flag l)
  have h2 := mul_mod_p_accBound _ _ hr h1
  exact ⟨i3, h1, h2, h2⟩

theorem checkedAdd_of_lt (a b : Nat) (h : a + b < 18446744073709551616) :
    checkedAdd a b = some (a + b) := if_pos h

theorem checkedMul_of_lt (a b : Nat) (h : a * b < 18446744073709551616) :
    checkedMul a b = some (a * b) := if_pos h

theorem addStepChecked_eq (a b c : Nat) (h : a + (b + c) < 18446744073709551616) :
    addStepChecked a b c = some ((a + (b + c)) % 67108864, (a + (b + c)) / 67108864) := by
  unfold addStepChecked
  rw [checkedAdd_of_lt b c (by omega), Option.some_bind, checkedAdd_of_lt a (b + c) h,
    Option.some_bind, and_mask26, shr26]

theorem add_limbs_checked_eq (a b : Limbs) (ha : a.accBound) (hb : b.lt26) :
    add_limbs_checked a b = some (add_limbs a b) := by
  rw [add_limbs_eq_exact a b ha hb]
  obtain ⟨ha0, ha1, ha2, ha3, ha4⟩ := ha
  obtain ⟨hb0, hb1, hb2, hb3, hb4⟩ := hb
  obtain ⟨b0, b1, b2, b3, b4⟩ := b
  obtain ⟨a0, a1, a2, a3, a4⟩ := a
  simp only [] at hb0 hb1 hb2 hb3 hb4 ha0 ha1 ha2 ha3 ha4
  have e26 : (2 : Nat) ^ 26 = 67108864 := by decide
  rw [e26] at hb0 hb1 hb2 hb3 hb4 ha0 ha1 ha2 ha3 ha4
  simp only [add_limbs_checked, addExact]
  rw [addStepChecked_eq a0 b0 0 (by omega), Option.some_bind]
  simp only []
  have hc0 : (a0 + (b0 + 0)) / 67108864 ≤ 2 := by omega
  generalize (a0 + (b0 + 0)) / 67108864 = c0 at hc0 ⊢
  have hm0 : (a0 + (b0 + 0)) % 67108864 < 67108864 := Nat.mod_lt _ (by decide)
  generalize (a0 + (b0 + 0)) % 67108864 = m0 at hm0 ⊢
  rw [addStepChecked_eq a1 b1 c0 (by omega), Option.some_bind]
  simp only []
  have hc1 : (a1 + (b1 + c0)) / 67108864 ≤ 2 := by omega
  generalize (a1 + (b1 + c0)) / 67108864 = c1 at hc1 ⊢
  have hm1 : (a1 + (b1 + c0)) % 67108864 < 67108864 := Nat.mod_lt _ (by decide)
  generalize (a1 + (b1 + c0)) % 67108864 = m1 at hm1 ⊢
  rw [addStepChecked_eq a2 b2 c1 (by omega), Option.some_bind]
  simp only []
  have hc2 : (a2 + (b2 + c1)) / 67108864 ≤ 2 := by omega
  generalize (a2 + (b2 + c1)) / 67108864 = c2 at hc2 ⊢
  rw [addStepChecked_eq a3 b3 c2 (by omega), Option.some_bind]
  simp only []
  have hc3 : (a3 + (b3 + c2)) / 67108864 ≤ 2 := by omega
  generalize (a3 + (b3 + c2)) / 67108864 = c3 at hc3 ⊢
  rw [addStepChecked_eq a4 b4 c3 (by omega), Option.some_bind]
  simp only []
  have hc4 : (a4 + (b4 + c3)) / 67108864 ≤ 2 := by omega
  generalize (a4 + (b4 + c3)) / 67108864 = c4 at hc4 ⊢
  rw [checkedMul_of_lt c4 5 (by omega), Option.some_bind,
    checkedAdd_of_lt m0 (c4 * 5) (by omega), Option.some_bind]
  simp only [and_mask26, shr26]
  rw [checkedAdd_of_lt m1 ((m0 + c4 * 5) / 67108864) (by omega), Option.some_bind]

theorem checkedSum5_mul (a b c d e f g h i j : Nat)
    (hs : a * b + c * d + e * f + g * h + i * j < 18446744073709551616) :
    checkedSum5 (checkedMul a b) (checkedMul c d) (checkedMul e f) (checkedMul g h)
        (checkedMul i j)
      = some (a * b + c * d + e * f + g * h + i * j) := by
  unfold checkedSum5
  rw [checkedMul_of_lt a b (by omega), checkedMul_of_lt c d (by omega),
    checkedMul_of_lt e f (by omega), checkedMul_of_lt g h (by omega),
    checkedMul_of_lt i j (by omega)]
  simp only [Option.some_bind]
  rw [checkedAdd_of_lt (a * b) (c * d) (by omega), Option.some_bind,
    checkedAdd_of_lt (a * b + c * d) (e * f) (by omega), Option.some_bind,
    checkedAdd_of_lt (a * b + c * d + e * f) (g * h) (by omega), Option.some_bind,
    checkedAdd_of_lt (a * b + c * d + e * f + g * h) (i * j) (by omega)]

theorem mulSumsChecked_eq (r acc : Limbs) (hr : r.lt26) (ha : acc.le26) :
    mulSumsChecked r acc = some (mulSums r acc) := by
  obtain ⟨hr0, hr1, hr2, hr3, hr4⟩ := hr
  obtain ⟨ha0, ha1, ha2, ha3, ha4⟩ := ha
  obtain ⟨r0, r1, r2, r3, r4⟩ := r
  obtain ⟨a0, a1, a2, a3, a4⟩ := acc
  simp only [] at hr0 hr1 hr2 hr3 hr4 ha0 ha1 ha2 ha3 ha4
  have e26 : (2 : Nat) ^ 26 = 67108864 := by decide
  rw [e26] at hr0 hr1 hr2 hr3 hr4 ha0 ha1 ha2 ha3 ha4
  have p00 := Nat.mul_le_mul ha0 (Nat.le_of_lt hr0)
  have p01 := Nat.mul_le_mul ha0 (Nat.le_of_lt hr1)
  have p02 := Nat.mul_le_mul ha0 (Nat.le_of_lt hr2)
  have p03 := Nat.mul_le_mul ha0 (Nat.le_of_lt hr3)
  have p04 := Nat.mul_le_mul ha0 (Nat.le_of_lt hr4)
  have p10 := Nat.mul_le_mul ha1 (Nat.le_of_lt hr0)
  have p11 := Nat.mul_le_mul ha1 (Nat.le_of_lt hr1)
  have p12 := Nat.mul_le_mul ha1 (Nat.le_of_lt hr2)
  have p13 := Nat.mul_le_mul ha1 (Nat.le_of_lt hr3)
  have p20 := Nat.mul_le_mul ha2 (Nat.le_of_lt hr0)
  have p21 := Nat.mul_le_mul ha2 (Nat.le_of_lt hr1)
  have p22 := Nat.mul_le_mul ha2 (Nat.le_of_lt hr2)
  have p30 := Nat.mul_le_mul ha3 (Nat.le_of_lt hr0)
  have p31 := Nat.mul_le_mul ha3 (Nat.le_of_lt hr1)
  have p40 := Nat.mul_le_mul ha4 (Nat.le_of_lt hr0)
  have q14 := Nat.mul_le_mul ha1 (show r4 * 5 ≤ 67108864 * 5 by omega)
  have q23 := Nat.mul_le_mul ha2 (show r3 * 5 ≤ 67108864 * 5 by omega)
  have q24 := Nat.mul_le_mul ha2 (show r4 * 5 ≤ 67108864 * 5 by omega)
  have q32 := Nat.mul_le_mul ha3 (show r2 * 5 ≤ 67108864 * 5 by omega)
  have q33 := Nat.mul_le_mul ha3 (show r3 * 5 ≤ 67108864 * 5 by omega)
  have q34 := Nat.mul_le_mul ha3 (show r4 * 5 ≤ 67108864 * 5 by omega)
  have q41 := Nat.mul_le_mul ha4 (show r1 * 5 ≤ 67108864 * 5 by omega)
  have q42 := Nat.mul_le_mul ha4 (show r2 * 5 ≤ 67108864 * 5 by omega)
  have q43 := Nat.mul_le_mul ha4 (show r3 * 5 ≤ 67108864 * 5 by omega)
  have q44 := Nat.mul_le_mul ha4 (show r4 * 5 ≤ 67108864 * 5 by omega)
  simp only [mulSumsChecked, mulSums]
  rw [checkedMul_of_lt r1 5 (by omega), Option.some_bind,
    checkedMul_of_lt r2 5 (by omega), Option.some_bind,
    checkedMul_of_lt r3 5 (by omega), Option.some_bind,
    checkedMul_of_lt r4 5 (by omega), Option.some_bind,
    checkedSum5_mul a0 r0 a1 (r4 * 5) a2 (r3 * 5) a3 (r2 * 5) a4 (r1 * 5) (by omega),
    Option.some_bind,
    checkedSum5_mul a0 r1 a1 r0 a2 (r4 * 5) a3 (r3 * 5) a4 (r2 * 5) (by omega),
    Option.some_bind,
    checkedSum5_mul a0 r2 a1 r1 a2 r0 a3 (r4 * 5) a4 (r3 * 5) (by omega),
    Option.some_bind,
    checkedSum5_mul a0 r3 a1 r2 a2 r1 a3 r0 a4 (r4 * 5) (by omega),
    Option.some_bind,
    checkedSum5_mul a0 r4 a1 r3 a2 r2 a3 r1 a4 r0 (by omega),
    Option.some_bind]

theorem carryChecked_eq (t : Limbs) (h0 : t.l0 < 2 ^ 60) (h1 : t.l1 < 2 ^ 60)
    (h2 : t.l2 < 2 ^ 60) (h3 : t.l3 < 2 ^ 60) (h4 : t.l4 < 2 ^ 60) :
    carryChecked t = some (carryFold t) := by
  obtain ⟨t0, t1, t2, t3, t4⟩ := t
  simp only [] at h0 h1 h2 h3 h4
  have e60 : (2 : Nat) ^ 60 = 1152921504606846976 := by decide
  rw [e60] at h0 h1 h2 h3 h4
  simp only [carryChecked, carryFold, and_mask26, shr26]
  rw [checkedAdd_of_lt t1 (t0 / 67108864) (by omega), Option.some_bind]
  have hx1 : t1 + t0 / 67108864 < 2 * 1152921504606846976 := by omega
  generalize t1 + t0 / 67108864 = x1 at hx1 ⊢
  rw [checkedAdd_of_lt t2 (x1 / 67108864) (by omega), Option.some_bind]
  have hx2 : t2 + x1 / 67108864 < 2 * 1152921504606846976 := by omega
  generalize t2 + x1 / 67108864 = x2 at hx2 ⊢
  rw [checkedAdd_of_lt t3 (x2 / 67108864) (by omega), Option.some_bind]
  have hx3 : t3 + x2 / 67108864 < 2 * 1152921504606846976 := by omega
  generalize t3 + x2 / 67108864 = x3 at hx3 ⊢
  rw [checkedAdd_of_lt t4 (x3 / 67108864) (by omega), Option.some_bind]
  have hx4 : t4 + x3 / 67108864 < 2 * 1152921504606846976 := by omega
  generalize t4 + x3 / 67108864 = x4 at hx4 ⊢
  rw [checkedMul_of_lt (x4 / 67108864) 5 (by omega), Option.some_bind,
    checkedAdd_of_lt (t0 % 67108864) (x4 / 67108864 * 5) (by omega), Option.some_bind,
    checkedAdd_of_lt (x1 % 67108864) ((t0 % 67108864 + x4 / 67108864 * 5) / 67108864)
      (by omega), Option.some_bind]

theorem mulSums_lt (r acc : Limbs) (hr : r.lt26) (ha : acc.le26) :
    (mulSums r acc).l0 < 2 ^ 60 ∧ (mulSums r acc).l1 < 2 ^ 60 ∧ (mulSums r acc).l2 < 2 ^ 60 ∧
      (mulSums r acc).l3 < 2 ^ 60 ∧ (mulSums r acc).l4 < 2 ^ 60 := by
  obtain ⟨hr0, hr1, hr2, hr3, hr4⟩ := hr
  obtain ⟨ha0, ha1, ha2, ha3, ha4⟩ := ha
  obtain ⟨r0, r1, r2, r3, r4⟩ := r
  obtain ⟨a0, a1, a2, a3, a4⟩ := acc
  simp only [] at hr0 hr1 hr2 hr3 hr4 ha0 ha1 ha2 ha3 ha4
  have e26 : (2 : Nat) ^ 26 = 67108864 := by decide
  have e60 : (2 : Nat) ^ 60 = 1152921504606846976 := by decide
  rw [e26] at hr0 hr1 hr2 hr3 hr4 ha0 ha1 ha2 ha3 ha4
  have p00 := Nat.mul_le_mul ha0 (Nat.le_of_lt hr0)
  have p01 := Nat.mul_le_mul ha0 (Nat.le_of_lt hr1)
  have p02 := Nat.mul_le_mul ha0 (Nat.le_of_lt hr2)
  have p03 := Nat.mul_le_mul ha0 (Nat.le_of_lt hr3)
  have p04 := Nat.mul_le_mul ha0 (Nat.le_of_lt hr4)
  have p10 := Nat.mul_le_mul ha1 (Nat.le_of_lt hr0)
  have p11 := Nat.mul_le_mul ha1 (Nat.le_of_lt hr1)
  have p12 := Nat.mul_le_mul ha1 (Nat.le_of_lt hr2)
  have p13 := Nat.mul_le_mul ha1 (Nat.le_of_lt hr3)
  have p20 := Nat.mul_le_mul ha2 (Nat.le_of_lt hr0)
  have p21 := Nat.mul_le_mul ha2 (Nat.le_of_lt hr1)
  have p22 := Nat.mul_le_mul ha2 (Nat.le_of_lt hr2)
  have p30 := Nat.mul_le_mul ha3 (Nat.le_of_lt hr0)
  have p31 := Nat.mul_le_mul ha3 (Nat.le_of_lt hr1)
  have p40 := Nat.mul_le_mul ha4 (Nat.le_of_lt hr0)
  have q14 := Nat.mul_le_mul ha1 (show r4 * 5 ≤ 67108864 * 5 by omega)
  have q23 := Nat.mul_le_mul ha2 (show r3 * 5 ≤ 67108864 * 5 by omega)
  have q24 := Nat.mul_le_mul ha2 (show r4 * 5 ≤ 67108864 * 5 by omega)
  have q32 := Nat.mul_le_mul ha3 (show r2 * 5 ≤ 67108864 * 5 by omega)
  have q33 := Nat.mul_le_mul ha3 (show r3 * 5 ≤ 67108864 * 5 by omega)
  have q34 := Nat.mul_le_mul ha3 (show r4 * 5 ≤ 67108864 * 5 by omega)
  have q41 := Nat.mul_le_mul ha4 (show r1 * 5 ≤ 67108864 * 5 by omega)
  have q42 := Nat.mul_le_mul ha4 (show r2 * 5 ≤ 67108864 * 5 by omega)
  have q43 := Nat.mul_le_mul ha4 (show r3 * 5 ≤ 67108864 * 5 by omega)
  have q44 := Nat.mul_le_mul ha4 (show r4 * 5 ≤ 67108864 * 5 by omega)
  simp only [mulSums, e60]
  refine ⟨?_, ?_, ?_, ?_, ?_⟩ <;> omega

theorem mul_mod_p_checked_eq (r acc : Limbs) (hr : r.lt26) (ha : acc.le26) :
    mul_mod_p_checked r acc = some (mul_mod_p r acc) := by
  obtain ⟨h0, h1, h2, h3, h4⟩ := mulSums_lt r acc hr ha
  rw [mul_mod_p_eq_exact r acc hr.1 hr.2.1 hr.2.2.1 hr.2.2.2.1 hr.2.2.2.2
    ha.1 ha.2.1 ha.2.2.1 ha.2.2.2.1 ha.2.2.2.2]
  unfold mul_mod_p_checked
  rw [mulSumsChecked_eq r acc hr ha, Option.some_bind, carryChecked_eq _ h0 h1 h2 h3 h4]

theorem process_block_checked_eq (p : Poly1305) (block : List Nat) (flag : Bool) (l : Nat)
    (hr : p.r.lt26) (ha : p.acc.accBound) :
    p.process_block_checked block flag l = some (p.process_block block flag l) := by
  have h1 := bytes_to_limbs_lt26 block flag l
  simp only [Poly1305.process_block_checked, Poly1305.process_block,
    add_limbs_checked_eq _ _ ha h1, Option.some_bind,
    mul_mod_p_checked_eq _ _ hr (add_limbs_le26 _ _ ha h1)]

theorem accBound_of_lt26 (a : Limbs) (h : a.lt26) : a.accBound :=
  ⟨h.1, Nat.lt_of_lt_of_le h.2.1 (by omega), h.2.2.1, h.2.2.2.1, h.2.2.2.2⟩

/-- C23. For the clamped `r` that the constructor produces from any key block,
every accumulator with all limbs below `2^26` and every block, no addition or
multiplication of `add_limbs` followed by `mul_mod_p` has an exact result of
`2^64` or more: the checked computation succeeds, each half returns what the
wrapping `uint64_t` code returns, and that is the exact integer computation
(`addExact`, then `carryFold` of `mulSums`). -/
theorem limb_arithmetic_no_overflow (key block : List Nat) (flag : Bool) (l : Nat)
    (p : Poly1305) (hr : p.r = (Poly1305.new key).r) (hacc : p.acc.lt26) :
    add_limbs_checked p.acc (bytes_to_limbs block flag l)
        = some (add_limbs p.acc (bytes_to_limbs block flag l)) ∧
      mul_mod_p_checked p.r (add_limbs p.acc (bytes_to_limbs block flag l))
        = some (mul_mod_p p.r (add_limbs p.acc (bytes_to_limbs block flag l))) ∧
      p.process_block_checked block flag l = some (p.process_block block flag l) ∧
      add_limbs p.acc (bytes_to_limbs block flag l)
        = addExact p.acc (bytes_to_limbs block flag l) ∧
      mul_mod_p p.r (add_limbs p.acc (bytes_to_limbs block flag l))
        = carryFold (mulSums p.r (add_limbs p.acc (bytes_to_limbs block flag l))) := by
  have hr2 : p.r.lt26 := by rw [hr]; exact new_r_lt26 key
  have ha := accBound_of_lt26 _ hacc
  have h1 := bytes_to_limbs_lt26 block flag l
  have h2 := add_limbs_le26 _ _ ha h1
  exact ⟨add_limbs_checked_eq _ _ ha h1, mul_mod_p_checked_eq _ _ hr2 h2,
    process_block_checked_eq p block flag l hr2 ha, add_limbs_eq_exact _ _ ha h1,
    mul_mod_p_eq_exact _ _ hr2.1 hr2.2.1 hr2.2.2.1 hr2.2.2.2.1 hr2.2.2.2.2
      h2.1 h2.2.1 h2.2.2.1 h2.2.2.2.1 h2.2.2.2.2⟩

/-- Witness of C23: the freshly constructed MAC of the RFC 8439 §2.5.2 key and the
first block of its message. -/
theorem limb_arithmetic_no_overflow_witness :
    (Poly1305.new rfc252Key).r = (Poly1305.new rfc252Key).r ∧
      (Poly1305.new rfc252Key).acc.lt26 ∧
      (Poly1305.new rfc252Key).process_block_checked (readAt rfc252Msg 0 16) true 16
        = some ((Poly1305.new rfc252Key).process_block (readAt rfc252Msg 0 16) true 16) :=
  ⟨rfl, ⟨by decide, by decide, by decide, by decide, by decide⟩,
    (limb_arithmetic_no_overflow rfc252Key (readAt rfc252Msg 0 16) true 16
      (Poly1305.new rfc252Key) rfl
      ⟨by decide, by decide, by decide, by decide, by decide⟩).2.2.1⟩

end ChaChaAEAD
